import Mathlib

/-!
# agents-cli: registry cache, registry client, installer ledger and batch install

A shallow embedding of the Go sources of `chameleon-nexus/agents-cli`
(`pkg/registry/cache.go`, `pkg/registry/client.go`, `pkg/installer/claude.go`,
`cmd/install.go`) followed by theorems about them.

Conventions of the embedding

* Instants (`time.Time`) and durations (`time.Duration`) are integers counted in
  nanoseconds; `a.After(b)` is `b < a` and `a.Add(d)` is `a + d`.
* A Go `interface{}` value is an `Option`: `none` is the nil interface.
* A Go map with string keys is a function `String → Option _` when only lookups,
  stores and deletes are made on it.
* The instant read by `time.Now()` is an explicit argument `now` of each cache
  operation; the commands read it from the clock of the `World` they run in.
* Routines of Go's standard library (`sort.Slice`, `strings.ToLower`,
  `encoding/json`) are parameters of the definitions that call them; what is assumed
  of them is stated as a hypothesis where it is used.
-/

namespace AgentsCli

/-! ## `pkg/registry/cache.go` -/

/-- CacheItem of cache.go: a cached value with its expiry instant. -/
structure CacheItem (V : Type) where
  Value : Option V
  ExpiresAt : Int

/-- Cache of cache.go: the entry map `items` (the mutex is represented by the lock
mode each operation acquires, see `CacheOp.lockMode`). -/
structure Cache (V : Type) where
  items : String → Option (CacheItem V)

namespace Cache

variable {V : Type}

/-- The map built by `make(map[string]*CacheItem)` in `NewCache`. -/
def empty : Cache V := ⟨fun _ => none⟩

/-- Go `delete(c.items, key)`. -/
def erase (c : Cache V) (key : String) : Cache V :=
  ⟨fun k => if k = key then none else c.items k⟩

/-- Cache.Get at instant `now`: the returned interface value and the cache afterwards. -/
def Get (c : Cache V) (key : String) (now : Int) : Option V × Cache V :=
  match c.items key with
  | none => (none, c)
  | some item =>
    if item.ExpiresAt < now then (none, c.erase key)
    else (item.Value, c)

/-- Cache.Set at instant `now`. -/
def Set (c : Cache V) (key : String) (value : Option V) (ttl : Int) (now : Int) : Cache V :=
  ⟨fun k => if k = key then some ⟨value, now + ttl⟩ else c.items k⟩

/-- Cache.Delete. -/
def Delete (c : Cache V) (key : String) : Cache V :=
  c.erase key

/-- Cache.Clear. -/
def Clear (_c : Cache V) : Cache V :=
  ⟨fun _ => none⟩

/-- One round of the loop of Cache.cleanup, run at instant `now`: every entry whose
expiry lies before `now` is deleted. -/
def cleanup (c : Cache V) (now : Int) : Cache V :=
  ⟨fun k =>
    match c.items k with
    | none => none
    | some item => if item.ExpiresAt < now then none else some item⟩

end Cache

/-- The two ways of taking `Cache.mutex`: `RLock` and `Lock`. -/
inductive LockMode where
  | shared
  | exclusive
  deriving DecidableEq, Repr

/-- The operations on a cache, as transitions of the entry map. -/
inductive CacheOp (V : Type) where
  | get (key : String)
  | set (key : String) (value : Option V) (ttl : Int)
  | delete (key : String)
  | clear
  | sweep

namespace CacheOp

variable {V : Type}

/-- The lock each operation takes in cache.go: `Get` calls `c.mutex.RLock()`, the
others `c.mutex.Lock()`. -/
def lockMode : CacheOp V → LockMode
  | get _ => .shared
  | set _ _ _ => .exclusive
  | delete _ => .exclusive
  | clear => .exclusive
  | sweep => .exclusive

/-- Running one operation at instant `now`. -/
def step (c : Cache V) (now : Int) : CacheOp V → Cache V
  | get key => (c.Get key now).2
  | set key value ttl => c.Set key value ttl now
  | delete key => c.Delete key
  | clear => c.Clear
  | sweep => c.cleanup now

/-- The operations that assign or remove the entry of `k` whatever its expiry:
`Set(k, ..)`, `Delete(k)` and `Clear()`. -/
def touches (k : String) : CacheOp V → Bool
  | get _ => false
  | set key _ _ => decide (key = k)
  | delete key => decide (key = k)
  | clear => true
  | sweep => false

/-- A timed sequence of operations, run from left to right. -/
def run (c : Cache V) (ops : List (Int × CacheOp V)) : Cache V :=
  ops.foldl (fun c x => step c x.1 x.2) c

end CacheOp

/-- The cache holding the single entry "a" with value 1 and expiry instant 5. -/
def staleCache : Cache Nat :=
  ⟨fun k => if k = "a" then some ⟨some 1, 5⟩ else none⟩

/-! ## `pkg/registry/models.go`

`time.Time` fields are integer instants. `Rating` is a `float64` read from a JSON
number, hence finite; it is represented by its exact rational value, on which the
comparison `>` of the source agrees with the order of `ℚ`. Maps that are only carried
along are lists of key/value pairs. -/

/-- LocalizedString of models.go. -/
structure LocalizedString where
  En : String
  Zh : String
  deriving DecidableEq

/-- CompatibilityInfo of models.go. -/
structure CompatibilityInfo where
  MinVersion : String
  Tested : List String
  deriving DecidableEq

/-- Compatibility of models.go: one optional block (a nil-able pointer) per target. -/
structure Compatibility where
  ClaudeCode : Option CompatibilityInfo
  Codex : Option CompatibilityInfo
  Copilot : Option CompatibilityInfo
  deriving DecidableEq

/-- Agent of models.go. -/
structure Agent where
  ID : String
  Name : LocalizedString
  Description : LocalizedString
  Author : String
  Category : String
  Tags : List String
  Latest : String
  Versions : List String
  Downloads : Int
  Rating : ℚ
  RatingCount : Int
  License : String
  Compatibility : Compatibility
  CreatedAt : Int
  UpdatedAt : Int
  deriving DecidableEq

/-- Version of models.go. -/
structure Version where
  ReleaseDate : Int
  Changes : String
  Files : List (String × String)
  deriving DecidableEq

/-- AgentMetadata of models.go. -/
structure AgentMetadata where
  ID : String
  Name : LocalizedString
  Description : LocalizedString
  LongDescription : LocalizedString
  Author : String
  License : String
  Homepage : String
  Category : String
  Tags : List String
  Compatibility : Compatibility
  Versions : List (String × AgentsCli.Version)
  Latest : String
  Downloads : Int
  Rating : ℚ
  RatingCount : Int
  CreatedAt : Int
  UpdatedAt : Int
  deriving DecidableEq

/-- Category of models.go. -/
structure Category where
  Name : LocalizedString
  Description : LocalizedString
  Icon : String
  deriving DecidableEq

/-- Stats of models.go. -/
structure Stats where
  TotalDownloads : Int
  ActiveUsers : Int
  TopAgents : List String
  RecentUpdates : List String
  deriving DecidableEq

/-- Registry of models.go. `Agents` lists the entries of the Go map
`map[string]Agent`; the order of the list carries no meaning, the order in which a
`range` statement visits the entries is an argument of `GetAllAgents`. -/
structure Registry where
  Version : String
  LastUpdated : Int
  TotalAgents : Int
  Agents : List (String × Agent)
  Categories : List (String × Category)
  Stats : Stats
  deriving DecidableEq

/-- SearchFilters of models.go. -/
structure SearchFilters where
  Category : String
  Tag : String
  Author : String
  SortBy : String
  Limit : Int
  deriving DecidableEq

/-! ## Standard-library routines used by `client.go`

Strings are sequences of Unicode characters (the bodies decoded by `encoding/json`
are valid UTF-8, on which byte-wise search and comparison agree with character-wise
search and comparison). -/

/-- Go `strings.Contains(s, substr)`: some suffix of `s` starts with `substr`. -/
def stringsContains (s substr : String) : Bool :=
  s.data.tails.any (fun t => substr.data.isPrefixOf t)

/-- Go `strings.SplitN(s, sep, 2)` for a one-character separator: the text before the
first separator and the text after it, or `none` when `s` has no separator (the
result then has the single part `s`). -/
def splitFirst (sep : Char) (s : String) : Option (String × String) :=
  match s.data.span (fun ch => ch != sep) with
  | (_, []) => none
  | (before, _ :: after) => some (String.mk before, String.mk after)

/-- The requirement Go's `sort` package puts on a `less` function: a transitive
ordering (`less` is irreflexive and transitive, and so is "neither is less"). -/
structure IsLess (less : Agent → Agent → Bool) : Prop where
  irrefl : ∀ a, less a a = false
  trans : ∀ a b c, less a b = true → less b c = true → less a c = true
  incomp_trans : ∀ a b c, less a b = false → less b c = false → less a c = false

/-- The documented contract of Go's `sort.Slice(x, less)`, for a routine mapping the
slice before the call to the slice after it: the elements are rearranged, and when
`less` is a transitive ordering no later element is less than an earlier one. The
order of elements that compare equal is not fixed by the contract. -/
structure SortSliceContract (sortSlice : (Agent → Agent → Bool) → List Agent → List Agent) :
    Prop where
  perm : ∀ less l, (sortSlice less l).Perm l
  sorted : ∀ less l, IsLess less → (sortSlice less l).Pairwise (fun a b => less b a = false)

/-- Inner loop of `insertionSortLessFunc` of Go's `sort` package: `x` moves towards
the front past every element it is less than. `acc` is the sorted part of the slice
listed from its last element to its first. -/
def insertBackwards (less : Agent → Agent → Bool) (x : Agent) : List Agent → List Agent
  | [] => [x]
  | y :: ys => if less x y then y :: insertBackwards less x ys else x :: y :: ys

/-- Go `insertionSortLessFunc`: all that `sort.Slice` runs on a slice of at most six
elements (of at most twelve since Go 1.19). It is one routine meeting
`SortSliceContract`, and evaluates searches on short slices. -/
def insertionSortLessFunc (less : Agent → Agent → Bool) (l : List Agent) : List Agent :=
  (l.foldl (fun acc x => insertBackwards less x acc) []).reverse

/-! ## `pkg/registry/client.go`: pure helpers -/

/-- parseAgentID of client.go. -/
def parseAgentID (agentID : String) : String × String :=
  match splitFirst '/' agentID with
  | some (author, name) => (author, name)
  | none => ("community", agentID)

/-- The text `matchesFilters` searches: the lower-cased
`fmt.Sprintf("%s %s %s %s", ..)` of names and descriptions, then, for each tag in
order, a blank and the lower-cased tag. `toLower` is `strings.ToLower`. -/
def searchText (toLower : String → String) (agent : Agent) : String :=
  agent.Tags.foldl (fun acc tag => acc ++ " " ++ toLower tag)
    (toLower (agent.Name.En ++ " " ++ agent.Name.Zh ++ " " ++
      agent.Description.En ++ " " ++ agent.Description.Zh))

/-- matchesFilters of client.go. -/
def matchesFilters (toLower : String → String) (agent : Agent) (query : String)
    (filters : SearchFilters) : Bool :=
  if filters.Category ≠ "" ∧ agent.Category ≠ filters.Category then false
  else if filters.Tag ≠ "" ∧ agent.Tags.any (fun tag => decide (tag = filters.Tag)) = false then
    false
  else if filters.Author ≠ "" ∧ agent.Author ≠ filters.Author then false
  else if query ≠ "" ∧ stringsContains (searchText toLower agent) (toLower query) = false then
    false
  else true

/-- The `less` closure of the "downloads" and default cases of sortAgents. -/
def lessDownloads (a b : Agent) : Bool := decide (a.Downloads > b.Downloads)

/-- The `less` closure of the "rating" case of sortAgents. -/
def lessRating (a b : Agent) : Bool := decide (a.Rating > b.Rating)

/-- The `less` closure of the "name" case of sortAgents. -/
def lessName (a b : Agent) : Bool := decide (a.Name.En < b.Name.En)

/-- The `less` closure of the "updated" case of sortAgents (`UpdatedAt.After`). -/
def lessUpdated (a b : Agent) : Bool := decide (b.UpdatedAt < a.UpdatedAt)

/-- The comparison sortAgents selects for a sort key. -/
def lessFor (sortBy : String) : Agent → Agent → Bool :=
  if sortBy = "downloads" then lessDownloads
  else if sortBy = "rating" then lessRating
  else if sortBy = "name" then lessName
  else if sortBy = "updated" then lessUpdated
  else lessDownloads

/-- sortAgents of client.go: the slice after the call. `sortSlice` is `sort.Slice`. -/
def sortAgents (sortSlice : (Agent → Agent → Bool) → List Agent → List Agent)
    (agents : List Agent) (sortBy : String) : List Agent :=
  if sortBy = "downloads" then sortSlice lessDownloads agents
  else if sortBy = "rating" then sortSlice lessRating agents
  else if sortBy = "name" then sortSlice lessName agents
  else if sortBy = "updated" then sortSlice lessUpdated agents
  else sortSlice lessDownloads agents

/-- SearchAgents of client.go, as a function of what its call of `c.GetAllAgents()`
returned. -/
def SearchAgents (sortSlice : (Agent → Agent → Bool) → List Agent → List Agent)
    (toLower : String → String) (fetched : Except String (List Agent))
    (query : String) (filters : SearchFilters) : Except String (List Agent) :=
  match fetched with
  | .error err => .error err
  | .ok agents =>
    let filtered := agents.filter (fun agent => matchesFilters toLower agent query filters)
    let filtered := sortAgents sortSlice filtered filters.SortBy
    if filters.Limit > 0 ∧ (filtered.length : Int) > filters.Limit then
      .ok (filtered.take filters.Limit.toNat)
    else .ok filtered

/-! ## The four filters, as the specification words them -/

/-- Category filter: empty, or equal to the entry's category. -/
def passesCategory (agent : Agent) (filters : SearchFilters) : Prop :=
  filters.Category = "" ∨ agent.Category = filters.Category

/-- Tag filter: empty, or verbatim one of the entry's tags. -/
def passesTag (agent : Agent) (filters : SearchFilters) : Prop :=
  filters.Tag = "" ∨ filters.Tag ∈ agent.Tags

/-- Author filter: empty, or equal to the entry's author. -/
def passesAuthor (agent : Agent) (filters : SearchFilters) : Prop :=
  filters.Author = "" ∨ agent.Author = filters.Author

/-- The lower-cased text "Name.En Name.Zh Description.En Description.Zh" followed by
a blank and the (lower-cased) tag for each tag. -/
def loweredText (toLower : String → String) (agent : Agent) : String :=
  toLower (agent.Name.En ++ " " ++ agent.Name.Zh ++ " " ++
      agent.Description.En ++ " " ++ agent.Description.Zh) ++
    String.join (agent.Tags.map (fun tag => " " ++ toLower tag))

/-- Text filter: the query is empty, or the lower-cased query is a substring (a
contiguous run of characters) of the lowered text. -/
def passesText (toLower : String → String) (agent : Agent) (query : String) : Prop :=
  query = "" ∨ (toLower query).data <:+: (loweredText toLower agent).data

/-- The loop of GetAllAgents over `registry.Agents`: `visit` lists the entries of the
map in the order the `range` statement visits them; each value is appended. -/
def rangeValues (visit : List (String × Agent)) : List Agent :=
  visit.foldl (fun agents kv => agents ++ [kv.2]) []

/-- Two entries tie under the comparison sortAgents selects: neither is less. -/
def tiesOn (sortBy : String) (a b : Agent) : Prop :=
  lessFor sortBy a b = false ∧ lessFor sortBy b a = false

/-- A catalog entry with the given id, author, download count and English name, in
category "dev" with tags "go" and "lint". -/
def sampleAgent (id author : String) (downloads : Int) (name : String) : Agent :=
  { ID := id, Name := ⟨name, ""⟩, Description := ⟨"", ""⟩, Author := author,
    Category := "dev", Tags := ["go", "lint"], Latest := "1.0.0", Versions := ["1.0.0"],
    Downloads := downloads, Rating := 0, RatingCount := 0, License := "MIT",
    Compatibility := ⟨some ⟨"1.0.0", []⟩, none, none⟩, CreatedAt := 0, UpdatedAt := 0 }

/-- A lower-casing of the ASCII letters, standing for `strings.ToLower` on concrete
inputs. -/
def asciiLower (s : String) : String :=
  String.mk (s.data.map Char.toLower)

/-! ## Standard-library routines used by the installer: paths and files

A file system is a list of directories and a list of regular files with their
content, both named by cleaned slash-separated paths; the root "/" and the
working directory "." always exist. Permissions, links and device errors are not
represented: an operation fails only for the reasons listed with it. -/

/-- Splitting a character sequence at every occurrence of `sep`
(`strings.Split` for a one-character separator). -/
def splitOnChar (sep : Char) : List Char → List (List Char)
  | [] => [[]]
  | c :: cs =>
    if c = sep then [] :: splitOnChar sep cs
    else
      match splitOnChar sep cs with
      | [] => [[c]]
      | x :: xs => (c :: x) :: xs

/-- The element stack of Go's `filepath.Clean`: "." and empty elements are dropped, a
".." removes the element before it, is dropped at the root and is kept at the start of
a relative path. `stack` lists the elements kept so far, last first. -/
def cleanElems (rooted : Bool) : List String → List String → List String
  | stack, [] => stack.reverse
  | stack, e :: es =>
    if e = "" ∨ e = "." then cleanElems rooted stack es
    else if e = ".." then
      match stack with
      | [] => if rooted then cleanElems rooted [] es else cleanElems rooted [".."] es
      | top :: below =>
        if top = ".." then cleanElems rooted (".." :: top :: below) es
        else cleanElems rooted below es
    else cleanElems rooted (e :: stack) es

/-- The elements of a path: the pieces between slashes. -/
def pathElems (path : String) : List String :=
  (splitOnChar '/' path.data).map String.mk

/-- Whether a path starts at the root. -/
def isRooted (path : String) : Bool :=
  path.data.head? = some '/'

/-- Go `filepath.Clean` on a slash-separated path. -/
def filepathClean (path : String) : String :=
  let body := "/".intercalate (cleanElems (isRooted path) [] (pathElems path))
  if isRooted path then "/" ++ body
  else if body = "" then "."
  else body

/-- Go `filepath.Join`: empty elements are ignored, the rest are joined by slashes and
the result is cleaned; the join of no non-empty element is the empty string. -/
def filepathJoin (elems : List String) : String :=
  match elems.filter (fun e => e ≠ "") with
  | [] => ""
  | kept => filepathClean ("/".intercalate kept)

/-- Go `filepath.Dir` of a cleaned path: the path without its last element. -/
def filepathDir (path : String) : String :=
  let elems := cleanElems (isRooted path) [] (pathElems path)
  let body := "/".intercalate elems.dropLast
  if isRooted path then "/" ++ body
  else if body = "" then "."
  else body

/-- The directories `os.MkdirAll(path)` needs: the cleaned path and each of its
ancestors below the root or the working directory, outermost first. -/
def pathAncestors (path : String) : List String :=
  let elems := cleanElems (isRooted path) [] (pathElems path)
  (elems.inits.filter (fun p => p ≠ [])).map
    (fun p => (if isRooted path then "/" else "") ++ "/".intercalate p)

/-- The errors of package `os` the sources tell apart: those for which
`os.IsNotExist` holds, and the others. -/
inductive OsError where
  | notExist
  | other (msg : String)
  deriving DecidableEq

/-- The text of the cause of an `os` error. -/
def OsError.message : OsError → String
  | .notExist => "no such file or directory"
  | .other msg => msg

/-- Go `*fs.PathError`, the error of a failed file operation: the operation, the path
it was given and the cause. -/
structure PathError where
  Op : String
  Path : String
  Err : OsError
  deriving DecidableEq

/-- PathError.Error of package `io/fs`: `Op + " " + Path + ": " + Err.Error()`. -/
def PathError.Error (e : PathError) : String :=
  e.Op ++ " " ++ e.Path ++ ": " ++ e.Err.message

/-- File-system state. -/
structure FS where
  dirs : List String
  files : List (String × String)
  deriving DecidableEq

namespace FS

/-- The path names a directory: the root, the working directory or one of its
ancestors (a path of ".." elements only), or a directory of the state. -/
def isDir (fs : FS) (path : String) : Bool :=
  path = "/" ∨ path = "." ∨ (pathElems path).all (fun e => e = "..") ∨ path ∈ fs.dirs

/-- The content of the regular file at a cleaned path. -/
def content (fs : FS) (path : String) : Option String :=
  fs.files.lookup path

/-- Some proper ancestor of the path is a regular file (the path cannot be resolved:
"not a directory"). -/
def underFile (fs : FS) (path : String) : Bool :=
  (pathAncestors path).any (fun a => a ≠ filepathClean path ∧ (fs.content a).isSome)

/-- Go `os.Stat`: succeeds on a directory or regular file; fails with "not a
directory" under a regular file and with a not-exist error otherwise. -/
def stat (fs : FS) (path : String) : Except PathError Unit :=
  if fs.underFile path then .error ⟨"stat", path, .other "not a directory"⟩
  else if fs.isDir (filepathClean path) ∨ (fs.content (filepathClean path)).isSome then .ok ()
  else .error ⟨"stat", path, .notExist⟩

/-- Go `os.ReadFile`: a directory is opened and fails at the read. -/
def readFile (fs : FS) (path : String) : Except PathError String :=
  if fs.underFile path then .error ⟨"open", path, .other "not a directory"⟩
  else if fs.isDir (filepathClean path) then .error ⟨"read", path, .other "is a directory"⟩
  else
    match fs.content (filepathClean path) with
    | some data => .ok data
    | none => .error ⟨"open", path, .notExist⟩

/-- The state in which the regular file at a cleaned path holds `data`. -/
def put (fs : FS) (path : String) (data : String) : FS :=
  { fs with files := (path, data) :: fs.files.filter (fun kv => kv.1 ≠ path) }

/-- Go `os.WriteFile`: creates or truncates the file; fails when the path is a
directory, lies under a regular file, or its parent directory does not exist. -/
def writeFile (fs : FS) (path : String) (data : String) : Except PathError FS :=
  if fs.underFile path then .error ⟨"open", path, .other "not a directory"⟩
  else if fs.isDir (filepathClean path) then .error ⟨"open", path, .other "is a directory"⟩
  else if fs.isDir (filepathDir path) = false then .error ⟨"open", path, .notExist⟩
  else .ok (fs.put (filepathClean path) data)

/-- One step of `os.MkdirAll`: an existing directory is kept, a regular file in the
way is an error naming that file, a missing directory is created. -/
def mkdir (fs : FS) (dir : String) : Except PathError FS :=
  if fs.isDir dir then .ok fs
  else if (fs.content dir).isSome then .error ⟨"mkdir", dir, .other "not a directory"⟩
  else .ok { fs with dirs := dir :: fs.dirs }

/-- Go `os.MkdirAll`: creates the path and every missing ancestor. -/
def mkdirAll (fs : FS) (path : String) : Except PathError FS :=
  (pathAncestors path).foldlM mkdir fs

/-- Go `os.Remove`: removes a regular file or an empty directory. -/
def remove (fs : FS) (path : String) : Except PathError FS :=
  let p := filepathClean path
  if fs.underFile path then .error ⟨"remove", path, .other "not a directory"⟩
  else if (fs.content p).isSome then .ok { fs with files := fs.files.filter (fun kv => kv.1 ≠ p) }
  else if p ∈ fs.dirs then
    if fs.dirs.any (fun d => d ≠ p ∧ filepathDir d = p) ∨
        fs.files.any (fun kv => filepathDir kv.1 = p) then
      .error ⟨"remove", path, .other "directory not empty"⟩
    else .ok { fs with dirs := fs.dirs.filter (fun d => d ≠ p) }
  else if fs.isDir p then .error ⟨"remove", path, .other "device or resource busy"⟩
  else .error ⟨"remove", path, .notExist⟩

end FS

/-! ## `pkg/installer/models.go` -/

/-- InstalledAgent of models.go: one row of the install ledger. -/
structure InstalledAgent where
  ID : String
  Version : String
  InstalledAt : Int
  Path : String
  deriving DecidableEq

/-! ## The process and its surroundings

Errors are their message texts: `fmt.Errorf("...: %w", err)` is the concatenation of
the prefix and the text of `err`. -/

/-- An HTTP response as the client reads it: the status code and the outcome of
`io.ReadAll(resp.Body)`. -/
structure Response where
  StatusCode : Int
  Body : Except String String

/-- What a run takes from its configuration and from `encoding/json`:
`baseURL` is `Client.baseURL`, `cacheTTL` the duration
`viper.GetDuration("registry.cache_ttl") * time.Second`, `installDir` is
`ClaudeCodeInstaller.installDir`; the other fields are `json.Unmarshal` at the three
types the sources decode and `json.MarshalIndent` on the ledger rows. -/
structure Env where
  baseURL : String
  cacheTTL : Int
  installDir : String
  unmarshalRegistry : String → Except String Registry
  unmarshalMetadata : String → Except String AgentMetadata
  unmarshalInstalled : String → Except String (List InstalledAgent)
  marshalInstalled : List InstalledAgent → Except String String

/-- The ledger codec is faithful: every list of rows is marshalled, and the text
decodes to the same rows. -/
def Env.RoundTrips (E : Env) : Prop :=
  ∀ rows, ∃ data, E.marshalInstalled rows = .ok data ∧ E.unmarshalInstalled data = .ok rows

/-- The values the client stores in its cache: `*Registry` and `*AgentMetadata`. -/
inductive CacheValue where
  | registry (r : Registry)
  | metadata (m : AgentMetadata)

/-- The state a command runs in. `clock n` is the value of the `n`-th call of
`time.Now()` and `ticks` the number of calls made; `transport n url` is the outcome
of `httpClient.Get(url)` when `n` requests were made before it and `requests` lists
the URLs requested, oldest first; `cache` is the entry map of `Client.cache`; `fs` is
the file system. -/
structure World where
  clock : Nat → Int
  ticks : Nat
  transport : Nat → String → Except String Response
  requests : List String
  cache : Cache CacheValue
  fs : FS

namespace World

/-- A call of `time.Now()`. -/
def now (w : World) : Int × World :=
  (w.clock w.ticks, { w with ticks := w.ticks + 1 })

/-- A call of `c.httpClient.Get(url)`. -/
def httpGet (w : World) (url : String) : Except String Response × World :=
  (w.transport w.requests.length url, { w with requests := w.requests ++ [url] })

/-- A call of `c.cache.Get(key)`; it reads the clock only when the key has an
entry. -/
def cacheGet (w : World) (key : String) : Option CacheValue × World :=
  match w.cache.items key with
  | none => (none, w)
  | some _ =>
    let (t, w) := w.now
    let (value, cache) := w.cache.Get key t
    (value, { w with cache := cache })

/-- A call of `c.cache.Set(key, value, ttl)`. -/
def cacheSet (w : World) (key : String) (value : CacheValue) (ttl : Int) : World :=
  let (t, w) := w.now
  { w with cache := w.cache.Set key (some value) ttl t }

end World

/-! ## `pkg/registry/client.go`: requests -/

/-- The location of an item's metadata, `{baseURL}/agents/{author}/{name}/metadata.json`. -/
def metadataURL (E : Env) (agentID : String) : String :=
  E.baseURL ++ "/agents/" ++ (parseAgentID agentID).1 ++ "/" ++ (parseAgentID agentID).2 ++
    "/metadata.json"

/-- The location of an item's content, `{baseURL}/agents/{author}/{name}/agent.md`. -/
def contentURL (E : Env) (agentID : String) : String :=
  E.baseURL ++ "/agents/" ++ (parseAgentID agentID).1 ++ "/" ++ (parseAgentID agentID).2 ++
    "/agent.md"

/-- Client.GetAgentMetadata of client.go. -/
def GetAgentMetadata (E : Env) (w : World) (agentID : String) :
    Except String AgentMetadata × World :=
  let cacheKey := "metadata_" ++ agentID
  let (cached, w) := w.cacheGet cacheKey
  match cached with
  | some (.metadata metadata) => (.ok metadata, w)
  | _ =>
    let (res, w) := w.httpGet (metadataURL E agentID)
    match res with
    | .error err => (.error ("failed to fetch agent metadata: " ++ err), w)
    | .ok resp =>
      if resp.StatusCode ≠ 200 then
        (.error ("agent metadata request failed with status: " ++ toString resp.StatusCode), w)
      else
        match resp.Body with
        | .error err => (.error ("failed to read metadata response: " ++ err), w)
        | .ok body =>
          match E.unmarshalMetadata body with
          | .error err => (.error ("failed to parse metadata: " ++ err), w)
          | .ok metadata =>
            (.ok metadata, w.cacheSet cacheKey (.metadata metadata) E.cacheTTL)

/-- Client.DownloadAgent of client.go. -/
def DownloadAgent (E : Env) (w : World) (agentID : String) (_version : String) :
    Except String String × World :=
  let (res, w) := w.httpGet (contentURL E agentID)
  match res with
  | .error err => (.error ("failed to download agent: " ++ err), w)
  | .ok resp =>
    if resp.StatusCode ≠ 200 then
      (.error ("agent download failed with status: " ++ toString resp.StatusCode), w)
    else
      match resp.Body with
      | .error err => (.error ("failed to read agent content: " ++ err), w)
      | .ok body => (.ok body, w)

/-! ## `pkg/installer/claude.go` -/

/-- The path of the ledger file, `filepath.Join(c.installDir, ".registry.json")`. -/
def registryPath (E : Env) : String :=
  filepathJoin [E.installDir, ".registry.json"]

/-- ClaudeCodeInstaller.GetInstallPath of claude.go. -/
def GetInstallPath (E : Env) (agentID : String) : String :=
  filepathJoin [E.installDir, agentID ++ ".md"]

/-- ClaudeCodeInstaller.IsCompatible of claude.go. -/
def IsCompatible (compatibility : Compatibility) : Bool :=
  compatibility.ClaudeCode.isSome

/-- ClaudeCodeInstaller.ListInstalled of claude.go. -/
def ListInstalled (E : Env) (fs : FS) : Except String (List InstalledAgent) :=
  match fs.stat (registryPath E) with
  | .error ⟨_, _, .notExist⟩ => .ok []
  | _ =>
    match fs.readFile (registryPath E) with
    | .error err => .error ("failed to read install registry: " ++ err.Error)
    | .ok data =>
      match E.unmarshalInstalled data with
      | .error err => .error ("failed to parse install registry: " ++ err)
      | .ok agents => .ok agents

/-- ClaudeCodeInstaller.GetInstalled of claude.go. -/
def GetInstalled (E : Env) (fs : FS) (agentID : String) : Except String InstalledAgent :=
  match ListInstalled E fs with
  | .error err => .error err
  | .ok agents =>
    match agents.find? (fun agent => agent.ID = agentID) with
    | some agent => .ok agent
    | none => .error ("agent " ++ agentID ++ " is not installed")

/-- ClaudeCodeInstaller.saveInstallRegistry of claude.go. -/
def saveInstallRegistry (E : Env) (fs : FS) (agents : List InstalledAgent) :
    Except String FS :=
  match E.marshalInstalled agents with
  | .error err => .error ("failed to marshal install registry: " ++ err)
  | .ok data =>
    match fs.writeFile (registryPath E) data with
    | .error err => .error ("failed to write install registry: " ++ err.Error)
    | .ok fs => .ok fs

/-- The "update existing" loop of updateInstallRegistry: the first row with the id
gets the new instant and path; `none` when no row has the id (`found` stays false). -/
def updateExisting (agentID agentPath : String) (t : Int) :
    List InstalledAgent → Option (List InstalledAgent)
  | [] => none
  | agent :: rest =>
    if agent.ID = agentID then some ({ agent with InstalledAt := t, Path := agentPath } :: rest)
    else (updateExisting agentID agentPath t rest).map (fun rest => agent :: rest)

/-- The rows updateInstallRegistry saves: the existing row updated, or a new row with
version "latest" appended. `t` is the value of the one call of `time.Now()`. -/
def upsertRows (agents : List InstalledAgent) (agentID agentPath : String) (t : Int) :
    List InstalledAgent :=
  match updateExisting agentID agentPath t agents with
  | some agents => agents
  | none => agents ++ [{ ID := agentID, Version := "latest", InstalledAt := t,
                         Path := agentPath }]

/-- ClaudeCodeInstaller.updateInstallRegistry of claude.go. The world is the state
after the call; on an error before the write it differs from the state before at most
by the clock. -/
def updateInstallRegistry (E : Env) (w : World) (agentID agentPath : String) :
    Except String Unit × World :=
  match ListInstalled E w.fs with
  | .error err => (.error err, w)
  | .ok agents =>
    let (t, w) := w.now
    match saveInstallRegistry E w.fs (upsertRows agents agentID agentPath t) with
    | .error err => (.error err, w)
    | .ok fs => (.ok (), { w with fs := fs })

/-- ClaudeCodeInstaller.Install of claude.go. -/
def Install (E : Env) (w : World) (agentID content : String) : Except String Unit × World :=
  match w.fs.mkdirAll E.installDir with
  | .error err => (.error ("failed to create install directory: " ++ err.Error), w)
  | .ok fs =>
    let w := { w with fs := fs }
    let agentPath := filepathJoin [E.installDir, agentID ++ ".md"]
    match w.fs.writeFile agentPath content with
    | .error err => (.error ("failed to write agent file: " ++ err.Error), w)
    | .ok fs =>
      let w := { w with fs := fs }
      match updateInstallRegistry E w agentID agentPath with
      | (.error err, w) => (.error ("failed to update install registry: " ++ err), w)
      | (.ok _, w) => (.ok (), w)

/-! ## `cmd/install.go` -/

/-- parseAgentSpec of install.go. -/
def parseAgentSpec (spec : String) : String × String :=
  match splitFirst '@' spec with
  | some (id, version) => (id, version)
  | none => (spec, "")

/-- installAgent of install.go. -/
def installAgent (E : Env) (w : World) (agentID version _target : String) :
    Except String Unit × World :=
  match GetAgentMetadata E w agentID with
  | (.error err, w) => (.error ("failed to get metadata: " ++ err), w)
  | (.ok metadata, w) =>
    let version := if version = "" then metadata.Latest else version
    if IsCompatible metadata.Compatibility = false then
      (.error "agent is not compatible with current Claude Code version", w)
    else
      match DownloadAgent E w agentID version with
      | (.error err, w) => (.error ("download failed: " ++ err), w)
      | (.ok content, w) =>
        match Install E w agentID content with
        | (.error err, w) => (.error ("installation failed: " ++ err), w)
        | (.ok _, w) => (.ok (), w)

/-- What the install command reports: it stopped because no agent was named, or it
ran the loop and printed the number of successes and the failed ids. -/
inductive RunOutcome where
  | noSpecs
  | report (successful : Int) (failed : List String)
  deriving DecidableEq

/-- The error `RunE` returns. -/
def RunOutcome.err : RunOutcome → Option String
  | .noSpecs => some "please specify agents to install"
  | .report _ failed =>
    if failed.length > 0 then some "some agents failed to install" else none

/-- The loop "Install each agent" of installCmd.RunE, for any state type and any
function standing for `installAgent(client, inst, agentID, agentVersion, target)`:
the state after the loop and the slice `failed`. -/
def installLoop {σ : Type} (install : σ → String → String → Except String Unit × σ)
    (dryRun : Bool) : σ → List String → List String → List String × σ
  | s, failed, [] => (failed, s)
  | s, failed, spec :: rest =>
    if dryRun then installLoop install dryRun s failed rest
    else
      match install s (parseAgentSpec spec).1 (parseAgentSpec spec).2 with
      | (.error _, s) => installLoop install dryRun s (failed ++ [(parseAgentSpec spec).1]) rest
      | (.ok _, s) => installLoop install dryRun s failed rest

/-- installCmd.RunE of install.go from the check of `agentSpecs` on (the three ways
of filling `agentSpecs` come before). -/
def installCmdRunE {σ : Type} (install : σ → String → String → Except String Unit × σ)
    (s : σ) (agentSpecs : List String) (dryRun : Bool) : RunOutcome × σ :=
  if agentSpecs.length = 0 then (.noSpecs, s)
  else
    let (failed, s) := installLoop install dryRun s [] agentSpecs
    (.report ((agentSpecs.length : Int) - (failed.length : Int)) failed, s)

/-- The install command on the world: `installCmdRunE` with installAgent. -/
def installCmd (E : Env) (w : World) (agentSpecs : List String) (dryRun : Bool)
    (target : String) : RunOutcome × World :=
  installCmdRunE (fun w agentID agentVersion => installAgent E w agentID agentVersion target)
    w agentSpecs dryRun

/-- The outcomes of the calls of `install` made for a list of specs, each call
starting in the state the previous one left: the id with whether the call returned
no error. -/
def outcomes {σ : Type} (install : σ → String → String → Except String Unit × σ) :
    σ → List String → List (String × Bool)
  | _, [] => []
  | s, spec :: rest =>
    let r := install s (parseAgentSpec spec).1 (parseAgentSpec spec).2
    ((parseAgentSpec spec).1, r.1.isOk) :: outcomes install r.2 rest

/-- An `install` function that records the id and version of each call it receives
before running it. -/
def logged {σ : Type} (install : σ → String → String → Except String Unit × σ) :
    σ × List (String × String) → String → String →
      Except String Unit × (σ × List (String × String)) :=
  fun s agentID agentVersion =>
    ((install s.1 agentID agentVersion).1,
      ((install s.1 agentID agentVersion).2, s.2 ++ [(agentID, agentVersion)]))

/-! ## A concrete ledger format and a concrete world, for evaluating the definitions

Numbers are written in unary (`n` times '1', then '0'), texts as their length and
their characters, a ledger as its row count and its rows. -/

/-- A natural number in unary. -/
def encodeNat (n : Nat) : List Char := List.replicate n '1' ++ ['0']

/-- Reading a unary number; `n` counts the digits read so far. -/
def decodeNat : List Char → Nat → Option (Nat × List Char)
  | [], _ => none
  | c :: cs, n => if c = '1' then decodeNat cs (n + 1) else if c = '0' then some (n, cs) else none

/-- A text: its length, then its characters. -/
def encodeText (s : String) : List Char := encodeNat s.data.length ++ s.data

/-- Reading a text. -/
def decodeText (cs : List Char) : Option (String × List Char) :=
  match decodeNat cs 0 with
  | none => none
  | some (n, rest) => if rest.length < n then none else some (String.mk (rest.take n), rest.drop n)

/-- An integer: its sign, then a unary number. -/
def encodeInt : Int → List Char
  | .ofNat n => '+' :: encodeNat n
  | .negSucc n => '-' :: encodeNat n

/-- Reading an integer. -/
def decodeInt : List Char → Option (Int × List Char)
  | [] => none
  | c :: cs =>
    match decodeNat cs 0 with
    | none => none
    | some (n, rest) =>
      if c = '+' then some (Int.ofNat n, rest)
      else if c = '-' then some (Int.negSucc n, rest)
      else none

/-- A ledger row: id, version, instant, path. -/
def encodeRow (a : InstalledAgent) : List Char :=
  encodeText a.ID ++ (encodeText a.Version ++ (encodeInt a.InstalledAt ++ encodeText a.Path))

/-- Reading a ledger row. -/
def decodeRow (cs : List Char) : Option (InstalledAgent × List Char) :=
  match decodeText cs with
  | none => none
  | some (id, cs) =>
    match decodeText cs with
    | none => none
    | some (version, cs) =>
      match decodeInt cs with
      | none => none
      | some (t, cs) =>
        match decodeText cs with
        | none => none
        | some (path, cs) => some (⟨id, version, t, path⟩, cs)

/-- The rows of a ledger, one after the other. -/
def encodeRows : List InstalledAgent → List Char
  | [] => []
  | a :: rest => encodeRow a ++ encodeRows rest

/-- Reading `n` ledger rows. -/
def decodeRows : Nat → List Char → Option (List InstalledAgent × List Char)
  | 0, cs => some ([], cs)
  | n + 1, cs =>
    match decodeRow cs with
    | none => none
    | some (a, cs) =>
      match decodeRows n cs with
      | none => none
      | some (rest, cs) => some (a :: rest, cs)

/-- Writing a ledger in the concrete format. -/
def sampleMarshal (rows : List InstalledAgent) : Except String String :=
  .ok (String.mk (encodeNat rows.length ++ encodeRows rows))

/-- Reading a ledger in the concrete format. -/
def sampleUnmarshal (data : String) : Except String (List InstalledAgent) :=
  match decodeNat data.data 0 with
  | none => .error "unexpected end of input"
  | some (n, rest) =>
    match decodeRows n rest with
    | some (rows, []) => .ok rows
    | _ => .error "invalid character"

/-- Metadata with the given id and compatibility blocks, latest version "1.1.0". -/
def sampleMetadata (id : String) (compat : Compatibility) : AgentMetadata :=
  { ID := id, Name := ⟨id, ""⟩, Description := ⟨"", ""⟩, LongDescription := ⟨"", ""⟩,
    Author := "community", License := "MIT", Homepage := "", Category := "dev", Tags := [],
    Compatibility := compat, Versions := [], Latest := "1.1.0", Downloads := 0, Rating := 0,
    RatingCount := 0, CreatedAt := 0, UpdatedAt := 0 }

/-- A metadata decoder for three bodies: "claude:ID" declares the claude-code block
only, "codex:ID" the codex block only, "none:ID" no block. -/
def sampleUnmarshalMetadata (body : String) : Except String AgentMetadata :=
  match splitFirst ':' body with
  | some (kind, id) =>
    if kind = "claude" then .ok (sampleMetadata id ⟨some ⟨"1.0.0", []⟩, none, none⟩)
    else if kind = "codex" then .ok (sampleMetadata id ⟨none, some ⟨"1.0.0", []⟩, none⟩)
    else if kind = "none" then .ok (sampleMetadata id ⟨none, none, none⟩)
    else .error "invalid character"
  | none => .error "unexpected end of input"

/-- A configuration: registry at "https://r", five minutes of cache lifetime, install
directory "/home/u/.claude/agents", the concrete ledger format. -/
def sampleEnv : Env :=
  { baseURL := "https://r", cacheTTL := 300000000000,
    installDir := "/home/u/.claude/agents",
    unmarshalRegistry := fun _ => .error "unexpected end of input",
    unmarshalMetadata := sampleUnmarshalMetadata,
    unmarshalInstalled := sampleUnmarshal,
    marshalInstalled := sampleMarshal }

/-- A remote that serves the items "one" and "three" (claude-code block only),
"cdx" (codex block only) and "bare" (no compatibility block), each with content,
and answers 404 for everything else. -/
def sampleTransport (_n : Nat) (url : String) : Except String Response :=
  if url = "https://r/agents/community/one/metadata.json" then .ok ⟨200, .ok "claude:one"⟩
  else if url = "https://r/agents/community/one/agent.md" then .ok ⟨200, .ok "# one"⟩
  else if url = "https://r/agents/community/three/metadata.json" then
    .ok ⟨200, .ok "claude:three"⟩
  else if url = "https://r/agents/community/three/agent.md" then .ok ⟨200, .ok "# three"⟩
  else if url = "https://r/agents/community/cdx/metadata.json" then .ok ⟨200, .ok "codex:cdx"⟩
  else if url = "https://r/agents/community/cdx/agent.md" then .ok ⟨200, .ok "# cdx"⟩
  else if url = "https://r/agents/community/bare/metadata.json" then .ok ⟨200, .ok "none:bare"⟩
  else if url = "https://r/agents/community/bare/agent.md" then .ok ⟨200, .ok "# bare"⟩
  else .ok ⟨404, .ok "Not Found"⟩

/-- A fresh process on a machine whose home directory "/home/u" exists: clock
reading `n` at the `n`-th call, empty cache, no request made, no file. -/
def sampleWorld : World :=
  { clock := fun n => n, ticks := 0, transport := sampleTransport, requests := [],
    cache := Cache.empty, fs := ⟨["/home/u", "/home"], []⟩ }

/-- A write to the path succeeds: it does not lie under a regular file, is not a
directory, and its parent directory exists. -/
def FS.writable (fs : FS) (path : String) : Prop :=
  fs.underFile path = false ∧ fs.isDir (filepathClean path) = false ∧
    fs.isDir (filepathDir path) = true

instance (fs : FS) (path : String) : Decidable (fs.writable path) := by
  unfold FS.writable
  infer_instance

/-- The world of `sampleWorld` once the install directory exists. -/
def readyWorld : World :=
  { sampleWorld with
    fs := ⟨["/home/u/.claude/agents", "/home/u/.claude", "/home/u", "/home"], []⟩ }

/-! ## `pkg/registry/client.go`: the catalog -/

/-- The location of the catalog, `{baseURL}/registry.json`. -/
def registryURL (E : Env) : String :=
  E.baseURL ++ "/registry.json"

/-- Client.GetRegistry of client.go. -/
def GetRegistry (E : Env) (w : World) : Except String Registry × World :=
  let (cached, w) := w.cacheGet "registry"
  match cached with
  | some (.registry registry) => (.ok registry, w)
  | _ =>
    let (res, w) := w.httpGet (registryURL E)
    match res with
    | .error err => (.error ("failed to fetch registry: " ++ err), w)
    | .ok resp =>
      if resp.StatusCode ≠ 200 then
        (.error ("registry request failed with status: " ++ toString resp.StatusCode), w)
      else
        match resp.Body with
        | .error err => (.error ("failed to read registry response: " ++ err), w)
        | .ok body =>
          match E.unmarshalRegistry body with
          | .error err => (.error ("failed to parse registry: " ++ err), w)
          | .ok registry =>
            (.ok registry, w.cacheSet "registry" (.registry registry) E.cacheTTL)

/-- Client.GetAllAgents of client.go; `visit` is the order in which the `range`
statement visits the entries of `registry.Agents` (a rearrangement of them) and is
consulted only when the catalog was fetched. -/
def GetAllAgents (E : Env) (w : World)
    (visit : List (String × Agent) → List (String × Agent)) :
    Except String (List Agent) × World :=
  match GetRegistry E w with
  | (.error err, w) => (.error err, w)
  | (.ok registry, w) => (.ok (rangeValues (visit registry.Agents)), w)

/-- The cache has no live entry for the key at the next reading of the clock: no
entry, or one whose expiry lies before that reading. -/
def World.cold (w : World) (key : String) : Prop :=
  ∀ item, w.cache.items key = some item → item.ExpiresAt < w.clock w.ticks

/-- The status codes HTTP calls successful: 200 to 299. -/
def successStatus (code : Int) : Prop :=
  200 ≤ code ∧ code < 300

/-- An empty catalog with the given version text. -/
def sampleRegistry (version : String) : Registry :=
  { Version := version, LastUpdated := 0, TotalAgents := 0, Agents := [], Categories := [],
    Stats := ⟨0, 0, [], []⟩ }

/-- The configuration of `sampleEnv` with a catalog decoder that reads the body as the
version text of an empty catalog and rejects the empty body. -/
def catalogEnv : Env :=
  { sampleEnv with
    unmarshalRegistry := fun body =>
      if body = "" then .error "unexpected end of JSON input" else .ok (sampleRegistry body) }

/-- The world of `sampleWorld` with a remote that serves the catalog body "v1". -/
def catalogWorld : World :=
  { sampleWorld with
    transport := fun _ url =>
      if url = "https://r/registry.json" then .ok ⟨200, .ok "v1"⟩ else .ok ⟨404, .ok ""⟩ }

/-! ## `cmd/update.go` and `cmd/list.go`: the update check -/

/-- A call of `registry.NewClient()`: the client starts with an empty cache. -/
def World.newClient (w : World) : World :=
  { w with cache := Cache.empty }

/-- The line checkUpdates prints for one installed record: "Failed to check updates",
"current -> latest (update available)" or "version (up to date)". -/
inductive CheckLine where
  | failed (id : String)
  | updateAvailable (id current latest : String)
  | upToDate (id version : String)
  deriving DecidableEq

/-- The loop of checkUpdates over the installed records, for any state type and any
function standing for `client.GetAgentMetadata`: the lines printed, the flag
`hasUpdates` and the state after the loop. -/
def checkLoop {σ : Type} (fetch : σ → String → Except String AgentMetadata × σ) :
    σ → List InstalledAgent → List CheckLine → Bool → List CheckLine × Bool × σ
  | s, [], lines, hasUpdates => (lines, hasUpdates, s)
  | s, agent :: rest, lines, hasUpdates =>
    match fetch s agent.ID with
    | (.error _, s) => checkLoop fetch s rest (lines ++ [.failed agent.ID]) hasUpdates
    | (.ok metadata, s) =>
      if metadata.Latest ≠ agent.Version then
        checkLoop fetch s rest
          (lines ++ [.updateAvailable agent.ID agent.Version metadata.Latest]) true
      else checkLoop fetch s rest (lines ++ [.upToDate agent.ID agent.Version]) hasUpdates

/-- What checkUpdates does: it returns the listing error, prints "No agents
installed", or prints one line per record and closes with the hint to run the update
(`hasUpdates`) or with "All agents are up to date!". -/
inductive CheckOutcome where
  | listError (err : String)
  | noneInstalled
  | checked (lines : List CheckLine) (hasUpdates : Bool)
  deriving DecidableEq

/-- checkUpdates of update.go. -/
def checkUpdates (E : Env) (w : World) : CheckOutcome × World :=
  let w := w.newClient
  match ListInstalled E w.fs with
  | .error err => (.listError ("failed to list installed agents: " ++ err), w)
  | .ok installed =>
    if installed.length = 0 then (.noneInstalled, w)
    else
      let (lines, hasUpdates, w) := checkLoop (GetAgentMetadata E) w installed [] false
      (.checked lines hasUpdates, w)

/-- The first loop of listUpdatableAgents, for any state type and any function
standing for `client.GetAgentMetadata`: the slice `updatable` and the state after. -/
def updatableLoop {σ : Type} (fetch : σ → String → Except String AgentMetadata × σ) :
    σ → List InstalledAgent → List InstalledAgent → List InstalledAgent × σ
  | s, [], updatable => (updatable, s)
  | s, agent :: rest, updatable =>
    match fetch s agent.ID with
    | (.error _, s) => updatableLoop fetch s rest updatable
    | (.ok metadata, s) =>
      if metadata.Latest ≠ agent.Version then updatableLoop fetch s rest (updatable ++ [agent])
      else updatableLoop fetch s rest updatable

/-- What listUpdatableAgents finds: the listing error, "No agents installed", or the
slice `updatable` (when empty, "All agents are up to date" is printed). -/
inductive UpdatableOutcome where
  | listError (err : String)
  | noneInstalled
  | updatable (agents : List InstalledAgent)
  deriving DecidableEq

/-- listUpdatableAgents of list.go up to the slice `updatable` (the table printed
from it comes after). -/
def listUpdatableAgents (E : Env) (w : World) : UpdatableOutcome × World :=
  let w := w.newClient
  match ListInstalled E w.fs with
  | .error err => (.listError ("failed to list installed agents: " ++ err), w)
  | .ok installed =>
    if installed.length = 0 then (.noneInstalled, w)
    else
      let (updatable, w) := updatableLoop (GetAgentMetadata E) w installed []
      (.updatable updatable, w)

/-! ### The classification of the update check, as the specification words it -/

/-- The result of the metadata fetch made for each record, in ledger order, each fetch
starting in the state the previous one left. -/
def fetchResults {σ : Type} (fetch : σ → String → Except String AgentMetadata × σ) :
    σ → List InstalledAgent → List (InstalledAgent × Except String AgentMetadata)
  | _, [] => []
  | s, agent :: rest => (agent, (fetch s agent.ID).1) :: fetchResults fetch (fetch s agent.ID).2 rest

/-- A record is updatable: its fetch succeeded and the latest version is not, as a
string, the stored version. -/
def isUpdatable (x : InstalledAgent × Except String AgentMetadata) : Bool :=
  match x.2 with
  | .ok metadata => decide (metadata.Latest ≠ x.1.Version)
  | .error _ => false

/-- A record is up to date: its fetch succeeded and the latest version is the stored
version. -/
def isUpToDate (x : InstalledAgent × Except String AgentMetadata) : Bool :=
  match x.2 with
  | .ok metadata => decide (metadata.Latest = x.1.Version)
  | .error _ => false

/-- The report on one record: updatable with stored and latest version, up to date,
or, when the fetch failed, neither. -/
def reportLine (x : InstalledAgent × Except String AgentMetadata) : CheckLine :=
  match x.2 with
  | .error _ => .failed x.1.ID
  | .ok metadata =>
    if isUpdatable x then .updateAvailable x.1.ID x.1.Version metadata.Latest
    else .upToDate x.1.ID x.1.Version

/-- The text of a ledger in the concrete format. -/
def sampleLedgerText (rows : List InstalledAgent) : String :=
  String.mk (encodeNat rows.length ++ encodeRows rows)

/-- The configuration of `sampleEnv` with a metadata decoder that reads the body as
the latest version of an item. -/
def versionEnv : Env :=
  { sampleEnv with
    unmarshalMetadata := fun body =>
      .ok { sampleMetadata "item" ⟨some ⟨"1.0.0", []⟩, none, none⟩ with Latest := body } }

/-- A machine on which "a", "c" and "b" are installed at version "1.0.0", and a
remote whose latest version of "a" is "1.0.0" and of "b" is "1.1.0", and which does not
serve "c". -/
def versionWorld : World :=
  { sampleWorld with
    transport := fun _ url =>
      if url = "https://r/agents/community/a/metadata.json" then .ok ⟨200, .ok "1.0.0"⟩
      else if url = "https://r/agents/community/b/metadata.json" then .ok ⟨200, .ok "1.1.0"⟩
      else if url = "https://r/agents/community/b/agent.md" then .ok ⟨200, .ok "# b 1.1.0"⟩
      else .ok ⟨404, .ok ""⟩,
    fs := ⟨["/home/u/.claude/agents", "/home/u/.claude", "/home/u", "/home"],
      [("/home/u/.claude/agents/.registry.json",
        sampleLedgerText [⟨"a", "1.0.0", 0, "/home/u/.claude/agents/a.md"⟩,
          ⟨"c", "1.0.0", 0, "/home/u/.claude/agents/c.md"⟩,
          ⟨"b", "1.0.0", 0, "/home/u/.claude/agents/b.md"⟩])]⟩ }

/-! ## Paths: the elements of a cleaned path -/

/-- The elements of the cleaned path: what `filepath.Clean` keeps of the elements. -/
def normElems (path : String) : List String :=
  cleanElems (isRooted path) [] (pathElems path)

/-- The text of a cleaned path with the given elements: "/" and the elements
joined by slashes for a rooted path, the joined elements or "." otherwise. -/
def renderPath (rooted : Bool) (elems : List String) : String :=
  if rooted then "/" ++ "/".intercalate elems
  else if "/".intercalate elems = "" then "."
  else "/".intercalate elems

/-- Character sequences joined by slashes. -/
def joinSlash : List (List Char) → List Char
  | [] => []
  | [x] => x
  | x :: y :: rest => x ++ '/' :: joinSlash (y :: rest)

/-- A name: a path element other than "", "." and ".." that has no slash. -/
def IsName (e : String) : Prop :=
  e ≠ "" ∧ e ≠ "." ∧ e ≠ ".." ∧ '/' ∉ e.data

/-- The shape of a cleaned element list: a run of ".." (empty for a rooted path)
followed by names. -/
def IsClean (rooted : Bool) (es : List String) : Prop :=
  ∃ k names, es = List.replicate k ".." ++ names ∧ (rooted = true → k = 0) ∧
    ∀ e ∈ names, IsName e

/-! ## `pkg/installer/claude.go`: removal -/

/-- The second half of Uninstall ("Update installation registry"): the rows whose id
differs are kept and saved. -/
def removeRow (E : Env) (w : World) (agentID : String) : Except String Unit × World :=
  match ListInstalled E w.fs with
  | .error err => (.error err, w)
  | .ok agents =>
    match saveInstallRegistry E w.fs (agents.filter (fun agent => agent.ID ≠ agentID)) with
    | .error err => (.error err, w)
    | .ok fs => (.ok (), { w with fs := fs })

/-- ClaudeCodeInstaller.Uninstall of claude.go: the content file is removed (a
missing file is not an error), then the row is removed from the ledger. -/
def Uninstall (E : Env) (w : World) (agentID : String) : Except String Unit × World :=
  match w.fs.remove (GetInstallPath E agentID) with
  | .ok fs => removeRow E { w with fs := fs } agentID
  | .error ⟨_, _, .notExist⟩ => removeRow E w agentID
  | .error err => (.error ("failed to remove agent file: " ++ err.Error), w)

/-- The two mutations of the ledger: the upsert `updateInstallRegistry(id, path)` and
`Uninstall(id)`. -/
inductive LedgerOp where
  | record (agentID agentPath : String)
  | uninstall (agentID : String)

/-- Running one ledger mutation. -/
def LedgerOp.step (E : Env) (w : World) : LedgerOp → World
  | .record agentID agentPath => (updateInstallRegistry E w agentID agentPath).2
  | .uninstall agentID => (Uninstall E w agentID).2

/-- Running a sequence of ledger mutations, from left to right. -/
def LedgerOp.run (E : Env) (w : World) (ops : List LedgerOp) : World :=
  ops.foldl (LedgerOp.step E) w

/-- No two rows share an id. -/
def distinctIds (rows : List InstalledAgent) : Prop :=
  (rows.map (fun a => a.ID)).Nodup

/-- What the ledger file holds, whenever it parses, has distinct ids. -/
def ledgerDistinct (E : Env) (fs : FS) : Prop :=
  ∀ data rows, fs.content (registryPath E) = some data →
    E.unmarshalInstalled data = .ok rows → distinctIds rows

/-- The ledger file exists at its path and its content does not parse. -/
def corruptLedger (E : Env) (fs : FS) (data : String) : Prop :=
  fs.underFile (registryPath E) = false ∧ fs.isDir (registryPath E) = false ∧
    fs.content (registryPath E) = some data ∧ ∃ err, E.unmarshalInstalled data = .error err

/-- The world of `readyWorld` whose ledger file holds the text "not json" and in
which the content file of "x" exists. -/
def corruptWorld : World :=
  { sampleWorld with
    fs := ⟨["/home/u/.claude/agents", "/home/u/.claude", "/home/u", "/home"],
      [("/home/u/.claude/agents/.registry.json", "not json"),
        ("/home/u/.claude/agents/x.md", "# x")]⟩ }

/-- The directory is a proper ancestor of the path: both start at the root or neither
does, and the elements of the cleaned path are those of the cleaned directory followed
by at least one more element, none of them "..". -/
def isProperAncestor (dir path : String) : Bool :=
  (isRooted dir == isRooted path) &&
  ((normElems dir).isPrefixOf (normElems path) &&
  (decide ((normElems dir).length < (normElems path).length) &&
  !(((normElems path).drop (normElems dir).length).contains "..")))

/-- The elements `filepath.Clean` does not drop on sight: all but "" and ".". -/
def keepElem (e : String) : Bool :=
  !(decide (e = "") || decide (e = "."))

/-! ## `cmd/update.go`: the update -/

/-- The loop "Update specific agents" of updateAgents: the slice `toUpdate` after the
ids were looked up in the ledger; an id that is not installed is reported and skipped. -/
def selectInstalled (E : Env) (fs : FS) :
    List String → List InstalledAgent → List InstalledAgent
  | [], toUpdate => toUpdate
  | agentID :: rest, toUpdate =>
    match GetInstalled E fs agentID with
    | .error _ => selectInstalled E fs rest toUpdate
    | .ok agent => selectInstalled E fs rest (toUpdate ++ [agent])

/-- The update loop of updateAgents: the slices `updated` and `failed` and the state
after the loop. -/
def updateLoop (E : Env) :
    World → List InstalledAgent → List String → List String →
      List String × List String × World
  | w, [], updated, failed => (updated, failed, w)
  | w, agent :: rest, updated, failed =>
    match GetAgentMetadata E w agent.ID with
    | (.error _, w) => updateLoop E w rest updated (failed ++ [agent.ID])
    | (.ok metadata, w) =>
      if metadata.Latest = agent.Version then updateLoop E w rest updated failed
      else
        match DownloadAgent E w agent.ID metadata.Latest with
        | (.error _, w) => updateLoop E w rest updated (failed ++ [agent.ID])
        | (.ok content, w) =>
          match Install E w agent.ID content with
          | (.error _, w) => updateLoop E w rest updated (failed ++ [agent.ID])
          | (.ok _, w) => updateLoop E w rest (updated ++ [agent.ID]) failed

/-- What updateAgents does: it returns the listing error, prints "No agents to
update", or prints the summary "Update complete" with the lengths of `updated` and
`failed`. -/
inductive UpdateOutcome where
  | listError (err : String)
  | nothingToUpdate
  | complete (updated failed : List String)
  deriving DecidableEq

/-- The slice `toUpdate` of updateAgents: every installed record when no id is given,
else the records of the given ids that are installed. -/
def selectToUpdate (E : Env) (fs : FS) (agentIDs : List String) :
    Except String (List InstalledAgent) :=
  if agentIDs.length = 0 then
    match ListInstalled E fs with
    | .error err => .error ("failed to list installed agents: " ++ err)
    | .ok installed => .ok installed
  else .ok (selectInstalled E fs agentIDs [])

/-- updateAgents of update.go. -/
def updateAgents (E : Env) (w : World) (agentIDs : List String) : UpdateOutcome × World :=
  let w := w.newClient
  match selectToUpdate E w.fs agentIDs with
  | .error err => (.listError err, w)
  | .ok toUpdate =>
    if toUpdate.length = 0 then (.nothingToUpdate, w)
    else
      let (updated, failed, w) := updateLoop E w toUpdate [] []
      (.complete updated failed, w)

/-- The remote serves, at every request, metadata of the item whose latest version
is `latest`. -/
def ServesLatest (E : Env) (w : World) (agentID latest : String) : Prop :=
  ∀ n, ∃ resp body metadata, w.transport n (metadataURL E agentID) = .ok resp ∧
    resp.StatusCode = 200 ∧ resp.Body = .ok body ∧
    E.unmarshalMetadata body = .ok metadata ∧ metadata.Latest = latest

/-- Whatever metadata the client has cached for the item names `latest` as the
latest version. -/
def CachedLatest (w : World) (agentID latest : String) : Prop :=
  ∀ item metadata, w.cache.items ("metadata_" ++ agentID) = some item →
    item.Value = some (.metadata metadata) → metadata.Latest = latest

/-! # Theorems -/

/-! ## Cache -/

section CacheLemmas

variable {V : Type}

theorem Cache.Get_items_of_ne (c : Cache V) (key k : String) (now : Int) (h : k ≠ key) :
    (c.Get key now).2.items k = c.items k := by
  unfold Cache.Get
  split
  · rfl
  · split
    · simp [Cache.erase, h]
    · rfl

theorem Cache.Get_live (c : Cache V) (key : String) (now : Int) (item : CacheItem V)
    (hk : c.items key = some item) (hlive : now ≤ item.ExpiresAt) :
    c.Get key now = (item.Value, c) := by
  unfold Cache.Get
  simp [hk, not_lt.mpr hlive]

theorem Cache.Get_expired (c : Cache V) (key : String) (now : Int) (item : CacheItem V)
    (hk : c.items key = some item) (hexp : item.ExpiresAt < now) :
    c.Get key now = (none, c.erase key) := by
  unfold Cache.Get
  simp [hk, hexp]

theorem Cache.Get_absent (c : Cache V) (key : String) (now : Int)
    (hk : c.items key = none) : c.Get key now = (none, c) := by
  unfold Cache.Get
  simp [hk]

/-- An operation that does not touch `k`, run no later than the expiry of the entry
of `k`, leaves that entry in place. -/
theorem CacheOp.step_keeps (c : Cache V) (k : String) (item : CacheItem V)
    (now : Int) (op : CacheOp V) (hk : c.items k = some item)
    (ht : CacheOp.touches k op = false) (hnow : now ≤ item.ExpiresAt) :
    (CacheOp.step c now op).items k = some item := by
  cases op with
  | get key =>
    by_cases hkey : k = key
    · subst hkey
      simp [CacheOp.step, Cache.Get_live c k now item hk hnow, hk]
    · simp [CacheOp.step, Cache.Get_items_of_ne c key k now hkey, hk]
  | set key value ttl =>
    have hne : k ≠ key := by
      intro h; simp [CacheOp.touches, h] at ht
    simp [CacheOp.step, Cache.Set, hne, hk]
  | delete key =>
    have hne : k ≠ key := by
      intro h; simp [CacheOp.touches, h] at ht
    simp [CacheOp.step, Cache.Delete, Cache.erase, hne, hk]
  | clear => simp [CacheOp.touches] at ht
  | sweep => simp [CacheOp.step, Cache.cleanup, hk, not_lt.mpr hnow]

/-- An operation that does not touch `k` leaves the entry of `k` as it was or
deletes it. -/
theorem CacheOp.step_keeps_or_drops (c : Cache V) (k : String) (now : Int) (op : CacheOp V)
    (ht : CacheOp.touches k op = false) :
    (CacheOp.step c now op).items k = c.items k ∨ (CacheOp.step c now op).items k = none := by
  cases op with
  | get key =>
    by_cases hkey : k = key
    · subst hkey
      simp only [CacheOp.step, Cache.Get]
      split
      · left; rfl
      · split
        · right; simp [Cache.erase]
        · left; rfl
    · left; simp [CacheOp.step, Cache.Get_items_of_ne c key k now hkey]
  | set key value ttl =>
    have hne : k ≠ key := by
      intro h; simp [CacheOp.touches, h] at ht
    left; simp [CacheOp.step, Cache.Set, hne]
  | delete key =>
    have hne : k ≠ key := by
      intro h; simp [CacheOp.touches, h] at ht
    left; simp [CacheOp.step, Cache.Delete, Cache.erase, hne]
  | clear => simp [CacheOp.touches] at ht
  | sweep =>
    simp only [CacheOp.step, Cache.cleanup]
    cases hck : c.items k with
    | none => left; rfl
    | some item =>
      by_cases hlt : item.ExpiresAt < now
      · right; simp [hlt]
      · left; simp [hlt]

theorem CacheOp.run_keeps (ops : List (Int × CacheOp V)) (c : Cache V) (k : String)
    (item : CacheItem V) (hk : c.items k = some item)
    (hops : ∀ x ∈ ops, CacheOp.touches k x.2 = false ∧ x.1 ≤ item.ExpiresAt) :
    (CacheOp.run c ops).items k = some item := by
  induction ops generalizing c with
  | nil => simpa [CacheOp.run] using hk
  | cons x xs ih =>
    have hx := hops x (List.mem_cons_self _ _)
    have := ih (CacheOp.step c x.1 x.2)
      (CacheOp.step_keeps c k item x.1 x.2 hk hx.1 hx.2)
      (fun y hy => hops y (List.mem_cons_of_mem _ hy))
    simpa [CacheOp.run] using this

theorem CacheOp.run_keeps_or_drops (ops : List (Int × CacheOp V)) (c : Cache V) (k : String)
    (hops : ∀ x ∈ ops, CacheOp.touches k x.2 = false) :
    (CacheOp.run c ops).items k = c.items k ∨ (CacheOp.run c ops).items k = none := by
  induction ops generalizing c with
  | nil => left; rfl
  | cons x xs ih =>
    have hx := hops x (List.mem_cons_self _ _)
    have h1 := CacheOp.step_keeps_or_drops c k x.1 x.2 hx
    have h2 := ih (CacheOp.step c x.1 x.2) (fun y hy => hops y (List.mem_cons_of_mem _ hy))
    have hrun : CacheOp.run c (x :: xs) = CacheOp.run (CacheOp.step c x.1 x.2) xs := by
      simp [CacheOp.run]
    rw [hrun]
    rcases h2 with h2 | h2
    · rcases h1 with h1 | h1
      · left; rw [h2, h1]
      · right; rw [h2, h1]
    · right; exact h2

end CacheLemmas

/-- C1. After `Set(k, v, ttl)` at instant `t0`, followed by any sequence of cache
operations none of which is a `Set`/`Delete` of `k` or a `Clear` (each run at an
instant no later than `t`), `Get(k)` at an instant `t` strictly before `t0 + ttl`
returns `v`; and whatever the instants of the operations in between, `Get(k)` at an
instant strictly after `t0 + ttl` returns nil. -/
theorem C1_set_then_get {V : Type} (c : Cache V) (k : String) (v : V) (ttl t0 t : Int)
    (ops : List (Int × CacheOp V))
    (hops : ∀ x ∈ ops, CacheOp.touches k x.2 = false) :
    (t < t0 + ttl → (∀ x ∈ ops, x.1 ≤ t) →
      ((CacheOp.run (c.Set k (some v) ttl t0) ops).Get k t).1 = some v) ∧
    (t0 + ttl < t →
      ((CacheOp.run (c.Set k (some v) ttl t0) ops).Get k t).1 = none) := by
  have hset : (c.Set k (some v) ttl t0).items k = some ⟨some v, t0 + ttl⟩ := by
    simp [Cache.Set]
  constructor
  · intro hlt htimes
    have hkeep := CacheOp.run_keeps ops (c.Set k (some v) ttl t0) k ⟨some v, t0 + ttl⟩ hset
      (fun x hx => ⟨hops x hx, le_of_lt (lt_of_le_of_lt (htimes x hx) hlt)⟩)
    rw [Cache.Get_live _ k t _ hkeep (le_of_lt hlt)]
  · intro hgt
    rcases CacheOp.run_keeps_or_drops ops (c.Set k (some v) ttl t0) k hops with h | h
    · rw [hset] at h
      rw [Cache.Get_expired _ k t _ h hgt]
    · rw [Cache.Get_absent _ k t h]

/-- Witness of C1: a set of key "a" at instant 0 with ttl 10, then a read of "b", a
sweep and a set of "b"; read at instant 5. -/
theorem C1_set_then_get_witness :
    ((CacheOp.run ((Cache.empty : Cache Nat).Set "a" (some 7) 10 0)
        [(1, .get "b"), (2, .sweep), (3, .set "b" (some 1) 1)]).Get "a" 5).1 = some 7 :=
  (C1_set_then_get (Cache.empty : Cache Nat) "a" 7 10 0 5
    [(1, .get "b"), (2, .sweep), (3, .set "b" (some 1) 1)]
    (by decide)).1 (by decide) (by decide)

/-- C2. `Get(k)` at instant `t` returns a value only if `k` has an entry whose expiry
is not before `t` (and the value is that entry's); if the entry of `k` expires
strictly before `t`, `Get` returns nil and the resulting store has no entry for `k`;
in every case the entry of every other key is unchanged. -/
theorem C2_get_never_stale {V : Type} (c : Cache V) (k : String) (t : Int) :
    (∀ v, (c.Get k t).1 = some v →
      ∃ item, c.items k = some item ∧ t ≤ item.ExpiresAt ∧ item.Value = some v) ∧
    (∀ item, c.items k = some item → item.ExpiresAt < t →
      (c.Get k t).1 = none ∧ (c.Get k t).2.items k = none) ∧
    (∀ k2, k2 ≠ k → (c.Get k t).2.items k2 = c.items k2) := by
  refine ⟨?_, ?_, fun k2 h => Cache.Get_items_of_ne c k k2 t h⟩
  · intro v hv
    cases hk : c.items k with
    | none => rw [Cache.Get_absent c k t hk] at hv; cases hv
    | some item =>
      by_cases hexp : item.ExpiresAt < t
      · rw [Cache.Get_expired c k t item hk hexp] at hv; cases hv
      · rw [Cache.Get_live c k t item hk (not_lt.mp hexp)] at hv
        exact ⟨item, rfl, not_lt.mp hexp, hv⟩
  · intro item hk hexp
    rw [Cache.Get_expired c k t item hk hexp]
    simp [Cache.erase]

/-- C3. After `Delete(k)`, `Get(k)` returns nil at every instant, whatever entry `k`
had, and the entries of all other keys are unchanged; after `Clear()`, `Get` returns
nil for every key. -/
theorem C3_delete_clear_then_get {V : Type} (c : Cache V) (k : String) (t : Int) :
    ((c.Delete k).Get k t).1 = none ∧
    (∀ k2, k2 ≠ k → (c.Delete k).items k2 = c.items k2) ∧
    (∀ k2, (c.Clear.Get k2 t).1 = none) := by
  refine ⟨?_, ?_, ?_⟩
  · rw [Cache.Get_absent _ k t (by simp [Cache.Delete, Cache.erase])]
  · intro k2 h
    simp [Cache.Delete, Cache.erase, h]
  · intro k2
    rw [Cache.Get_absent _ k2 t (by simp [Cache.Clear])]

/-- C4 (the code at the failing input). `Get` takes the shared lock only, and on the
cache holding "a" with expiry 5 the call `Get("a")` at instant 10 changes the entry
map: the entry of "a" is deleted. The operations taking the exclusive lock are `Set`,
`Delete`, `Clear` and the sweep. -/
theorem C4_get_writes_under_read_lock :
    CacheOp.lockMode (CacheOp.get "a" : CacheOp Nat) = LockMode.shared ∧
    (staleCache.items "a").isSome = true ∧
    ((CacheOp.step staleCache 10 (CacheOp.get "a")).items "a").isSome = false ∧
    (∀ op : CacheOp Nat, CacheOp.lockMode op = LockMode.exclusive ↔
      ∀ key, op ≠ CacheOp.get key) := by
  refine ⟨rfl, by simp [staleCache], ?_, ?_⟩
  · simp [CacheOp.step, Cache.Get, staleCache, Cache.erase]
  · intro op
    cases op <;> simp [CacheOp.lockMode]

/-! ## Search -/

section SearchLemmas

theorem stringsContains_iff (s substr : String) :
    stringsContains s substr = true ↔ substr.data <:+: s.data := by
  unfold stringsContains
  rw [List.any_eq_true, List.infix_iff_prefix_suffix]
  constructor
  · rintro ⟨t, ht, hp⟩
    exact ⟨t, List.isPrefixOf_iff_prefix.mp hp, (List.mem_tails t s.data).mp ht⟩
  · rintro ⟨t, hp, hs⟩
    exact ⟨t, (List.mem_tails t s.data).mpr hs, List.isPrefixOf_iff_prefix.mpr hp⟩

theorem foldl_append_tags (f : String → String) (tags : List String) (init : String) :
    tags.foldl (fun acc tag => acc ++ " " ++ f tag) init =
      init ++ String.join (tags.map (fun tag => " " ++ f tag)) := by
  induction tags generalizing init with
  | nil => apply String.ext; simp [String.data_join]
  | cons t ts ih =>
    rw [List.foldl_cons, ih]
    apply String.ext
    simp [String.data_join]


theorem searchText_eq_loweredText (toLower : String → String) (agent : Agent) :
    searchText toLower agent = loweredText toLower agent := by
  unfold searchText loweredText
  exact foldl_append_tags toLower agent.Tags _

theorem matchesFilters_iff (toLower : String → String) (agent : Agent) (query : String)
    (filters : SearchFilters) :
    matchesFilters toLower agent query filters = true ↔
      passesCategory agent filters ∧ passesTag agent filters ∧ passesAuthor agent filters ∧
        passesText toLower agent query := by
  have htag : agent.Tags.any (fun tag => decide (tag = filters.Tag)) = true ↔
      filters.Tag ∈ agent.Tags := by
    simp [List.any_eq_true]
  have htext : stringsContains (searchText toLower agent) (toLower query) = true ↔
      (toLower query).data <:+: (loweredText toLower agent).data := by
    rw [stringsContains_iff, searchText_eq_loweredText]
  unfold matchesFilters passesCategory passesTag passesAuthor passesText
  rw [← htag, ← htext]
  by_cases h1 : filters.Category = "" <;> by_cases h2 : agent.Category = filters.Category <;>
  by_cases h3 : filters.Tag = "" <;>
  by_cases h4 : agent.Tags.any (fun tag => decide (tag = filters.Tag)) = true <;>
  by_cases h5 : filters.Author = "" <;> by_cases h6 : agent.Author = filters.Author <;>
  by_cases h7 : query = "" <;>
  by_cases h8 : stringsContains (searchText toLower agent) (toLower query) = true <;>
  simp [h1, h2, h3, h4, h5, h6, h7, h8]

end SearchLemmas
section SortLemmas

theorem isLess_lessDownloads : IsLess lessDownloads where
  irrefl a := by simp [lessDownloads]
  trans a b c h1 h2 := by
    simp only [lessDownloads, decide_eq_true_eq] at *
    omega
  incomp_trans a b c h1 h2 := by
    simp only [lessDownloads, decide_eq_false_iff_not] at *
    omega

theorem isLess_lessUpdated : IsLess lessUpdated where
  irrefl a := by simp [lessUpdated]
  trans a b c h1 h2 := by
    simp only [lessUpdated, decide_eq_true_eq] at *
    omega
  incomp_trans a b c h1 h2 := by
    simp only [lessUpdated, decide_eq_false_iff_not] at *
    omega

theorem isLess_lessRating : IsLess lessRating where
  irrefl a := by simp [lessRating]
  trans a b c h1 h2 := by
    simp only [lessRating, decide_eq_true_eq, gt_iff_lt] at *
    exact lt_trans h2 h1
  incomp_trans a b c h1 h2 := by
    simp only [lessRating, decide_eq_false_iff_not, gt_iff_lt, not_lt] at *
    exact le_trans h1 h2

theorem isLess_lessName : IsLess lessName where
  irrefl a := by simp [lessName]
  trans a b c h1 h2 := by
    simp only [lessName, decide_eq_true_eq] at *
    exact lt_trans h1 h2
  incomp_trans a b c h1 h2 := by
    simp only [lessName, decide_eq_false_iff_not, not_lt] at *
    exact le_trans h2 h1

theorem isLess_lessFor (sortBy : String) : IsLess (lessFor sortBy) := by
  unfold lessFor
  split_ifs
  · exact isLess_lessDownloads
  · exact isLess_lessRating
  · exact isLess_lessName
  · exact isLess_lessUpdated
  · exact isLess_lessDownloads

theorem sortAgents_eq (sortSlice : (Agent → Agent → Bool) → List Agent → List Agent)
    (agents : List Agent) (sortBy : String) :
    sortAgents sortSlice agents sortBy = sortSlice (lessFor sortBy) agents := by
  unfold sortAgents lessFor
  split_ifs <;> rfl

theorem IsLess.asymm {less : Agent → Agent → Bool} (h : IsLess less) (a b : Agent)
    (hab : less a b = true) : less b a = false := by
  cases hba : less b a with
  | false => rfl
  | true =>
    have := h.trans a b a hab hba
    rw [h.irrefl a] at this
    cases this

theorem insertBackwards_perm (less : Agent → Agent → Bool) (x : Agent) (acc : List Agent) :
    (insertBackwards less x acc).Perm (x :: acc) := by
  induction acc with
  | nil => simp [insertBackwards]
  | cons y ys ih =>
    unfold insertBackwards
    split
    · exact (List.Perm.cons y ih).trans (List.Perm.swap x y ys)
    · exact List.Perm.refl _

theorem insertBackwards_pairwise (less : Agent → Agent → Bool) (h : IsLess less) (x : Agent)
    (acc : List Agent) (hacc : acc.Pairwise (fun a b => less a b = false)) :
    (insertBackwards less x acc).Pairwise (fun a b => less a b = false) := by
  induction acc with
  | nil => simp [insertBackwards]
  | cons y ys ih =>
    rw [List.pairwise_cons] at hacc
    unfold insertBackwards
    split
    · rename_i hxy
      rw [List.pairwise_cons]
      refine ⟨?_, ih hacc.2⟩
      intro z hz
      rcases List.mem_cons.mp ((insertBackwards_perm less x ys).subset hz) with hzx | hzy
      · rw [hzx]; exact h.asymm x y hxy
      · exact hacc.1 z hzy
    · rename_i hxy
      have hxy2 : less x y = false := by simpa using hxy
      rw [List.pairwise_cons]
      refine ⟨?_, List.pairwise_cons.mpr hacc⟩
      intro z hz
      rcases List.mem_cons.mp hz with hzy | hzy
      · rw [hzy]; exact hxy2
      · exact h.incomp_trans x y z hxy2 (hacc.1 z hzy)

theorem foldl_insertBackwards_perm (less : Agent → Agent → Bool) (l acc : List Agent) :
    (l.foldl (fun acc x => insertBackwards less x acc) acc).Perm (l ++ acc) := by
  induction l generalizing acc with
  | nil => simp
  | cons x xs ih =>
    rw [List.foldl_cons]
    refine (ih _).trans ?_
    refine (List.Perm.append_left xs (insertBackwards_perm less x acc)).trans ?_
    simp

theorem foldl_insertBackwards_pairwise (less : Agent → Agent → Bool) (h : IsLess less)
    (l acc : List Agent) (hacc : acc.Pairwise (fun a b => less a b = false)) :
    (l.foldl (fun acc x => insertBackwards less x acc) acc).Pairwise
      (fun a b => less a b = false) := by
  induction l generalizing acc with
  | nil => exact hacc
  | cons x xs ih =>
    rw [List.foldl_cons]
    exact ih _ (insertBackwards_pairwise less h x acc hacc)

/-- Go's insertion sort meets the contract of `sort.Slice`. -/
theorem insertionSortLessFunc_contract : SortSliceContract insertionSortLessFunc where
  perm less l := by
    unfold insertionSortLessFunc
    refine (List.reverse_perm _).trans ?_
    simpa using foldl_insertBackwards_perm less l []
  sorted less l h := by
    unfold insertionSortLessFunc
    rw [List.pairwise_reverse]
    exact foldl_insertBackwards_pairwise less h l [] List.Pairwise.nil

end SortLemmas
section SearchTheorems

theorem rangeValues_eq_map (visit : List (String × Agent)) :
    rangeValues visit = visit.map Prod.snd := by
  unfold rangeValues
  suffices h : ∀ acc : List Agent,
      visit.foldl (fun agents kv => agents ++ [kv.2]) acc = acc ++ visit.map Prod.snd by
    rw [h]; simp
  induction visit with
  | nil => simp
  | cons kv rest ih => intro acc; simp [ih]

theorem SearchAgents_unlimited (sortSlice : (Agent → Agent → Bool) → List Agent → List Agent)
    (toLower : String → String) (agents : List Agent) (query : String)
    (filters : SearchFilters) (hlim : filters.Limit ≤ 0) :
    SearchAgents sortSlice toLower (.ok agents) query filters =
      .ok (sortAgents sortSlice
        (agents.filter (fun agent => matchesFilters toLower agent query filters))
        filters.SortBy) := by
  simp [SearchAgents, not_lt.mpr hlim]

end SearchTheorems

/-- C5. With `Limit ≤ 0`, SearchAgents succeeds on every fetched entry sequence, and
an entry is in its result exactly when it is in the sequence and passes each of the
four filters (category, tag, author, text), each judged on its own; in particular an
entry whose author differs from a non-empty Author filter is excluded whatever its
category and tags. `sortSlice` is any routine meeting the contract of `sort.Slice`. -/
theorem C5_search_filter_composition
    (sortSlice : (Agent → Agent → Bool) → List Agent → List Agent)
    (hS : SortSliceContract sortSlice) (toLower : String → String) (agents : List Agent)
    (query : String) (filters : SearchFilters) (hlim : filters.Limit ≤ 0) :
    ∃ result, SearchAgents sortSlice toLower (.ok agents) query filters = .ok result ∧
      (∀ e, e ∈ result ↔
        e ∈ agents ∧ passesCategory e filters ∧ passesTag e filters ∧
          passesAuthor e filters ∧ passesText toLower e query) ∧
      (∀ e, passesCategory e filters → passesTag e filters → filters.Author ≠ "" →
        e.Author ≠ filters.Author → e ∉ result) := by
  refine ⟨_, SearchAgents_unlimited sortSlice toLower agents query filters hlim, ?_, ?_⟩
  · intro e
    rw [sortAgents_eq, (hS.perm _ _).mem_iff, List.mem_filter, matchesFilters_iff]
  · intro e _ _ hne hauth hmem
    rw [sortAgents_eq, (hS.perm _ _).mem_iff, List.mem_filter, matchesFilters_iff] at hmem
    rcases hmem.2.2.2.1 with h | h
    · exact hne h
    · exact hauth h

/-- Witness of C5: three entries in category "dev" with tag "go", searched with
category "dev", tag "go" and author "alice"; the entry of author "bob" is left
out and the two of "alice" are returned. -/
theorem C5_search_filter_composition_witness :
    ∃ result, SearchAgents insertionSortLessFunc asciiLower
        (.ok [sampleAgent "a/one" "alice" 5 "one", sampleAgent "b/two" "bob" 50 "two",
          sampleAgent "a/three" "alice" 20 "three"]) "" ⟨"dev", "go", "alice", "", 0⟩ =
          .ok result ∧
      sampleAgent "b/two" "bob" 50 "two" ∉ result ∧
      sampleAgent "a/one" "alice" 5 "one" ∈ result := by
  obtain ⟨result, hres, hiff, hex⟩ := C5_search_filter_composition insertionSortLessFunc
    insertionSortLessFunc_contract asciiLower
    [sampleAgent "a/one" "alice" 5 "one", sampleAgent "b/two" "bob" 50 "two",
      sampleAgent "a/three" "alice" 20 "three"] "" ⟨"dev", "go", "alice", "", 0⟩ (by decide)
  refine ⟨result, hres, ?_, ?_⟩
  · exact hex _ (Or.inr rfl) (Or.inr (by decide)) (by decide) (by decide)
  · rw [hiff]
    exact ⟨by simp, Or.inr rfl, Or.inr (by decide), Or.inr rfl, Or.inl rfl⟩

/-- C6. For every slice of entries and every routine meeting the contract of
`sort.Slice`: sortAgents with key "downloads" yields a permutation of the input in
which download counts never increase; with key "name" a permutation in which no
English name is below an earlier one; with a key other than "downloads", "rating",
"name" and "updated" the same slice as with "downloads"; and entries with
downloads 5, 50, 20 come out in the order 50, 20, 5. -/
theorem C6_sortAgents_order
    (sortSlice : (Agent → Agent → Bool) → List Agent → List Agent)
    (hS : SortSliceContract sortSlice) (agents : List Agent) :
    ((sortAgents sortSlice agents "downloads").Perm agents ∧
      (sortAgents sortSlice agents "downloads").Pairwise
        (fun a b => a.Downloads ≥ b.Downloads)) ∧
    ((sortAgents sortSlice agents "name").Perm agents ∧
      (sortAgents sortSlice agents "name").Pairwise (fun a b => a.Name.En ≤ b.Name.En)) ∧
    (∀ key, key ≠ "downloads" → key ≠ "rating" → key ≠ "name" → key ≠ "updated" →
      sortAgents sortSlice agents key = sortAgents sortSlice agents "downloads") ∧
    (∀ a b c : Agent, a.Downloads = 5 → b.Downloads = 50 → c.Downloads = 20 →
      sortAgents sortSlice [a, b, c] "downloads" = [b, c, a]) := by
  have hdown : ∀ l, sortAgents sortSlice l "downloads" = sortSlice lessDownloads l := by
    intro l; simp [sortAgents]
  have hname : ∀ l, sortAgents sortSlice l "name" = sortSlice lessName l := by
    intro l; simp [sortAgents]
  have hsortedDown : ∀ l, (sortSlice lessDownloads l).Pairwise
      (fun a b => a.Downloads ≥ b.Downloads) := by
    intro l
    refine (hS.sorted lessDownloads l isLess_lessDownloads).imp ?_
    intro a b hab
    simp only [lessDownloads, decide_eq_false_iff_not] at hab
    omega
  refine ⟨?_, ?_, ?_, ?_⟩
  · rw [hdown]
    exact ⟨hS.perm _ _, hsortedDown agents⟩
  · rw [hname]
    refine ⟨hS.perm _ _, (hS.sorted lessName agents isLess_lessName).imp ?_⟩
    intro a b hab
    simp only [lessName, decide_eq_false_iff_not] at hab
    exact not_lt.mp hab
  · intro key h1 h2 h3 h4
    simp [sortAgents, h1, h2, h3, h4]
  · intro a b c ha hb hc
    rw [hdown]
    refine @List.Perm.eq_of_sorted _ (fun x y => x.Downloads ≥ y.Downloads) _ _ ?_
      (hsortedDown _) ?_ ?_
    · intro x y hx hy hxy hyx
      have hx2 : x ∈ [a, b, c] := (hS.perm _ _).subset hx
      have hd : x.Downloads = y.Downloads := le_antisymm hyx hxy
      simp only [List.mem_cons, List.mem_singleton, List.not_mem_nil, or_false] at hx2 hy
      rcases hx2 with rfl | rfl | rfl <;> rcases hy with rfl | rfl | rfl <;>
        first | rfl | (exfalso; omega)
    · simp [ha, hb, hc]
    · refine (hS.perm _ _).trans ?_
      exact (List.Perm.swap b a [c]).trans (List.Perm.cons b (List.Perm.swap c a []))

/-- Witness of C6: Go's insertion sort on three entries with downloads 5, 50, 20. -/
theorem C6_sortAgents_order_witness :
    sortAgents insertionSortLessFunc
      [sampleAgent "a" "alice" 5 "a", sampleAgent "b" "bob" 50 "b",
        sampleAgent "c" "carol" 20 "c"] "downloads" =
      [sampleAgent "b" "bob" 50 "b", sampleAgent "c" "carol" 20 "c",
        sampleAgent "a" "alice" 5 "a"] :=
  (C6_sortAgents_order insertionSortLessFunc insertionSortLessFunc_contract []).2.2.2
    _ _ _ rfl rfl rfl

/-- C7 (counterexample). A catalog of two entries "x" and "y" that tie on downloads:
when the map is visited in the order x, y the search returns x, y (and x alone under
`Limit = 1`); visited in the order y, x it returns y, x (and y alone). The sorting
routine is the insertion sort that `sort.Slice` runs on a slice of two elements. -/
theorem C7_ties_follow_iteration_order :
    [("x", sampleAgent "x" "alice" 5 "x"), ("y", sampleAgent "y" "bob" 5 "y")].Perm
      [("y", sampleAgent "y" "bob" 5 "y"), ("x", sampleAgent "x" "alice" 5 "x")] ∧
    SearchAgents insertionSortLessFunc asciiLower
      (.ok (rangeValues [("x", sampleAgent "x" "alice" 5 "x"),
        ("y", sampleAgent "y" "bob" 5 "y")])) "" ⟨"", "", "", "downloads", 0⟩ =
      .ok [sampleAgent "x" "alice" 5 "x", sampleAgent "y" "bob" 5 "y"] ∧
    SearchAgents insertionSortLessFunc asciiLower
      (.ok (rangeValues [("y", sampleAgent "y" "bob" 5 "y"),
        ("x", sampleAgent "x" "alice" 5 "x")])) "" ⟨"", "", "", "downloads", 0⟩ =
      .ok [sampleAgent "y" "bob" 5 "y", sampleAgent "x" "alice" 5 "x"] ∧
    SearchAgents insertionSortLessFunc asciiLower
      (.ok (rangeValues [("x", sampleAgent "x" "alice" 5 "x"),
        ("y", sampleAgent "y" "bob" 5 "y")])) "" ⟨"", "", "", "downloads", 1⟩ =
      .ok [sampleAgent "x" "alice" 5 "x"] ∧
    SearchAgents insertionSortLessFunc asciiLower
      (.ok (rangeValues [("y", sampleAgent "y" "bob" 5 "y"),
        ("x", sampleAgent "x" "alice" 5 "x")])) "" ⟨"", "", "", "downloads", 1⟩ =
      .ok [sampleAgent "y" "bob" 5 "y"] ∧
    sampleAgent "x" "alice" 5 "x" ≠ sampleAgent "y" "bob" 5 "y" := by
  refine ⟨List.Perm.swap _ _ _, by rfl, by rfl, by rfl, by rfl, by decide⟩

/-- C7 (amended). For every routine meeting the contract of `sort.Slice`, every
catalog, query and filters: when no two different matching entries tie under the
comparison selected by the sort key, two searches return the identical ordered
sequence whatever the orders in which the catalog map is visited, also under a
positive `Limit`. -/
theorem C7_search_deterministic_without_ties
    (sortSlice : (Agent → Agent → Bool) → List Agent → List Agent)
    (hS : SortSliceContract sortSlice) (toLower : String → String)
    (visit1 visit2 : List (String × Agent)) (query : String) (filters : SearchFilters)
    (hperm : visit1.Perm visit2)
    (hties : ∀ a ∈ rangeValues visit1, ∀ b ∈ rangeValues visit1,
      matchesFilters toLower a query filters = true →
      matchesFilters toLower b query filters = true →
      a ≠ b → ¬ tiesOn filters.SortBy a b) :
    SearchAgents sortSlice toLower (.ok (rangeValues visit1)) query filters =
      SearchAgents sortSlice toLower (.ok (rangeValues visit2)) query filters := by
  have hvals : (rangeValues visit1).Perm (rangeValues visit2) := by
    rw [rangeValues_eq_map, rangeValues_eq_map]
    exact hperm.map _
  have hfilt := hvals.filter (fun agent => matchesFilters toLower agent query filters)
  have hsorted : sortAgents sortSlice
        ((rangeValues visit1).filter (fun agent => matchesFilters toLower agent query filters))
        filters.SortBy =
      sortAgents sortSlice
        ((rangeValues visit2).filter (fun agent => matchesFilters toLower agent query filters))
        filters.SortBy := by
    rw [sortAgents_eq, sortAgents_eq]
    refine @List.Perm.eq_of_sorted _ (fun a b => lessFor filters.SortBy b a = false) _ _ ?_
      (hS.sorted _ _ (isLess_lessFor _)) (hS.sorted _ _ (isLess_lessFor _))
      ((hS.perm _ _).trans (hfilt.trans (hS.perm _ _).symm))
    intro a b ha hb hab hba
    by_contra hne
    have ha2 := List.mem_filter.mp ((hS.perm _ _).subset ha)
    have hb2 := List.mem_filter.mp (hfilt.symm.subset ((hS.perm _ _).subset hb))
    exact hties a ha2.1 b hb2.1 ha2.2 hb2.2 hne ⟨hba, hab⟩
  simp only [SearchAgents]
  rw [hsorted]

/-- Witness of C7 (amended): the two visiting orders of a catalog whose entries have
downloads 5 and 50 give the same search result. -/
theorem C7_search_deterministic_without_ties_witness :
    SearchAgents insertionSortLessFunc asciiLower
      (.ok (rangeValues [("x", sampleAgent "x" "alice" 5 "x"),
        ("y", sampleAgent "y" "bob" 50 "y")])) "" ⟨"", "", "", "downloads", 1⟩ =
    SearchAgents insertionSortLessFunc asciiLower
      (.ok (rangeValues [("y", sampleAgent "y" "bob" 50 "y"),
        ("x", sampleAgent "x" "alice" 5 "x")])) "" ⟨"", "", "", "downloads", 1⟩ :=
  C7_search_deterministic_without_ties insertionSortLessFunc insertionSortLessFunc_contract
    asciiLower _ _ "" ⟨"", "", "", "downloads", 1⟩ (List.Perm.swap _ _ _)
    (by
      intro a ha b hb _ _ hne htie
      simp only [rangeValues, List.foldl_cons, List.foldl_nil, List.nil_append,
        List.cons_append, List.mem_cons, List.mem_singleton, List.not_mem_nil, or_false] at ha hb
      rcases ha with rfl | rfl <;> rcases hb with rfl | rfl
      · exact hne rfl
      · exact absurd htie.2 (by decide)
      · exact absurd htie.1 (by decide)
      · exact hne rfl)

/-! ## Installer and install command -/

section CodecLemmas

theorem decodeNat_encode (k n : Nat) (rest : List Char) :
    decodeNat (List.replicate k '1' ++ '0' :: rest) n = some (n + k, rest) := by
  induction k generalizing n with
  | zero => simp [decodeNat]
  | succ k ih =>
    rw [List.replicate_succ, List.cons_append]
    simp only [decodeNat, if_true]
    rw [ih]
    congr 2
    omega

theorem decodeNat_encodeNat (k : Nat) (rest : List Char) :
    decodeNat (encodeNat k ++ rest) 0 = some (k, rest) := by
  unfold encodeNat
  rw [List.append_assoc, List.singleton_append, decodeNat_encode, Nat.zero_add]

theorem decodeText_encodeText (s : String) (rest : List Char) :
    decodeText (encodeText s ++ rest) = some (s, rest) := by
  unfold decodeText encodeText
  rw [List.append_assoc, decodeNat_encodeNat]
  simp

theorem decodeInt_encodeInt (i : Int) (rest : List Char) :
    decodeInt (encodeInt i ++ rest) = some (i, rest) := by
  cases i with
  | ofNat n =>
    simp only [encodeInt, List.cons_append, decodeInt, decodeNat_encodeNat]
    simp
  | negSucc n =>
    simp only [encodeInt, List.cons_append, decodeInt, decodeNat_encodeNat]
    simp

theorem decodeRow_encodeRow (a : InstalledAgent) (rest : List Char) :
    decodeRow (encodeRow a ++ rest) = some (a, rest) := by
  unfold decodeRow encodeRow
  simp only [List.append_assoc, decodeText_encodeText, decodeInt_encodeInt]

theorem decodeRows_encodeRows (rows : List InstalledAgent) (rest : List Char) :
    decodeRows rows.length (encodeRows rows ++ rest) = some (rows, rest) := by
  induction rows with
  | nil => simp [decodeRows, encodeRows]
  | cons a rows ih =>
    simp only [List.length_cons, decodeRows, encodeRows, List.append_assoc,
      decodeRow_encodeRow, ih]

/-- The concrete ledger format decodes what it encodes. -/
theorem sampleEnv_roundTrips : sampleEnv.RoundTrips := by
  intro rows
  refine ⟨String.mk (encodeNat rows.length ++ encodeRows rows), rfl, ?_⟩
  show sampleUnmarshal _ = _
  unfold sampleUnmarshal
  simp only [decodeNat_encodeNat]
  have h := decodeRows_encodeRows rows []
  rw [List.append_nil] at h
  rw [h]

end CodecLemmas

section ClientLemmas

theorem World.cacheGet_fs (w : World) (key : String) : (w.cacheGet key).2.fs = w.fs := by
  unfold World.cacheGet
  split <;> rfl

theorem World.cacheGet_requests (w : World) (key : String) :
    (w.cacheGet key).2.requests = w.requests := by
  unfold World.cacheGet
  split <;> rfl

theorem World.cacheSet_fs (w : World) (key : String) (v : CacheValue) (ttl : Int) :
    (w.cacheSet key v ttl).fs = w.fs := rfl

theorem World.cacheSet_requests (w : World) (key : String) (v : CacheValue) (ttl : Int) :
    (w.cacheSet key v ttl).requests = w.requests := rfl

/-- GetAgentMetadata writes no file and requests nothing but the metadata location. -/
theorem GetAgentMetadata_effects (E : Env) (w : World) (agentID : String) :
    (GetAgentMetadata E w agentID).2.fs = w.fs ∧
    ((GetAgentMetadata E w agentID).2.requests = w.requests ∨
      (GetAgentMetadata E w agentID).2.requests = w.requests ++ [metadataURL E agentID]) := by
  have hfs := World.cacheGet_fs w ("metadata_" ++ agentID)
  have hreq := World.cacheGet_requests w ("metadata_" ++ agentID)
  unfold GetAgentMetadata
  simp only []
  split
  · exact ⟨hfs, Or.inl hreq⟩
  · simp only [World.httpGet]
    split
    · exact ⟨hfs, Or.inr (by simp [hreq])⟩
    · split
      · exact ⟨hfs, Or.inr (by simp [hreq])⟩
      · split
        · exact ⟨hfs, Or.inr (by simp [hreq])⟩
        · split
          · exact ⟨hfs, Or.inr (by simp [hreq])⟩
          · exact ⟨hfs, Or.inr (by simp [World.cacheSet_requests, hreq])⟩

end ClientLemmas

set_option maxRecDepth 8000 in
/-- C8 (counterexample). Target "codex", item "one" whose metadata has a claude-code
block and no codex block: installAgent returns no error, requests the content, writes
the content file and adds the ledger row. -/
theorem C8_codex_target_not_checked :
    ((GetAgentMetadata sampleEnv sampleWorld "one").1.toOption.map
      (fun m => m.Compatibility.Codex)) = some none ∧
    (installAgent sampleEnv sampleWorld "one" "" "codex").1.toOption = some () ∧
    (installAgent sampleEnv sampleWorld "one" "" "codex").2.requests =
      ["https://r/agents/community/one/metadata.json",
        "https://r/agents/community/one/agent.md"] ∧
    (installAgent sampleEnv sampleWorld "one" "" "codex").2.fs.content
      "/home/u/.claude/agents/one.md" = some "# one" ∧
    (ListInstalled sampleEnv (installAgent sampleEnv sampleWorld "one" "" "codex").2.fs).toOption =
      some [⟨"one", "latest", 1, "/home/u/.claude/agents/one.md"⟩] := by
  refine ⟨by decide, by decide, by decide, by decide, by decide⟩

section BatchLemmas

variable {σ : Type}

theorem outcomes_length (install : σ → String → String → Except String Unit × σ)
    (specs : List String) (s : σ) : (outcomes install s specs).length = specs.length := by
  induction specs generalizing s with
  | nil => rfl
  | cons spec rest ih => simp [outcomes, ih]

theorem outcomes_ids (install : σ → String → String → Except String Unit × σ)
    (specs : List String) (s : σ) :
    (outcomes install s specs).map Prod.fst = specs.map (fun spec => (parseAgentSpec spec).1) := by
  induction specs generalizing s with
  | nil => rfl
  | cons spec rest ih => simp [outcomes, ih]

theorem installLoop_failed (install : σ → String → String → Except String Unit × σ)
    (specs : List String) (s : σ) (failed : List String) :
    (installLoop install false s failed specs).1 =
      failed ++ ((outcomes install s specs).filter (fun o => !o.2)).map Prod.fst := by
  induction specs generalizing s failed with
  | nil => simp [installLoop, outcomes]
  | cons spec rest ih =>
    simp only [installLoop, outcomes, Bool.false_eq_true, if_false]
    rcases h : install s (parseAgentSpec spec).1 (parseAgentSpec spec).2 with ⟨r, s2⟩
    cases r with
    | error err => simp [ih, Except.isOk, Except.toBool]
    | ok u => simp [ih, Except.isOk, Except.toBool]

theorem installLoop_logged (install : σ → String → String → Except String Unit × σ)
    (specs : List String) (s : σ) (log : List (String × String)) (failed : List String) :
    installLoop (logged install) false (s, log) failed specs =
      ((installLoop install false s failed specs).1,
        ((installLoop install false s failed specs).2, log ++ specs.map parseAgentSpec)) := by
  induction specs generalizing s log failed with
  | nil => simp [installLoop]
  | cons spec rest ih =>
    simp only [installLoop, logged, Bool.false_eq_true, if_false]
    rcases h : install s (parseAgentSpec spec).1 (parseAgentSpec spec).2 with ⟨r, s2⟩
    cases r with
    | error err => simp [ih]
    | ok u => simp [ih]

end BatchLemmas

/-- C9. For every non-empty list of install specs run without dry-run, whatever
function stands for installAgent and whatever state the run starts in: the calls
made are exactly one per spec, in input order, with the id and version parsed from
the spec; the failed list is exactly the ids whose call returned an error, in input
order; the reported success count is the number of calls that returned no error; and
successes plus failures is the number of specs. -/
theorem C9_batch_accounting {σ : Type}
    (install : σ → String → String → Except String Unit × σ) (s : σ)
    (specs : List String) (hne : specs ≠ []) :
    (installCmdRunE (logged install) (s, []) specs false).2.2 = specs.map parseAgentSpec ∧
    (installCmdRunE (logged install) (s, []) specs false).1 =
      (installCmdRunE install s specs false).1 ∧
    (installCmdRunE (logged install) (s, []) specs false).2.1 =
      (installCmdRunE install s specs false).2 ∧
    (installCmdRunE install s specs false).1 =
      .report (((outcomes install s specs).filter (fun o => o.2)).length : Nat)
        (((outcomes install s specs).filter (fun o => !o.2)).map Prod.fst) ∧
    ((outcomes install s specs).filter (fun o => o.2)).length +
      (((outcomes install s specs).filter (fun o => !o.2)).map Prod.fst).length =
        specs.length := by
  have hlen : specs.length ≠ 0 := fun h => hne (List.length_eq_zero.mp h)
  have hsum : ((outcomes install s specs).filter (fun o => o.2)).length +
      (((outcomes install s specs).filter (fun o => !o.2)).map Prod.fst).length =
        specs.length := by
    rw [List.length_map, ← outcomes_length install specs s]
    exact ((outcomes install s specs).length_eq_length_filter_add (fun o => o.2)).symm
  refine ⟨?_, ?_, ?_, ?_, hsum⟩
  · simp [installCmdRunE, hlen, installLoop_logged]
  · simp [installCmdRunE, hlen, installLoop_logged]
  · simp [installCmdRunE, hlen, installLoop_logged]
  · simp only [installCmdRunE, hlen, if_false, installLoop_failed, List.nil_append]
    congr 1
    rw [List.length_map] at hsum
    rw [List.length_map]
    omega

set_option maxRecDepth 8000 in
/-- Witness of C9: the specs "one", "two@1.0.0", "three" against a remote that
does not serve "two": the calls are (one, ""), (two, "1.0.0"), (three, ""); the report
is 2 successes and the failure "two"; the content of "one" and "three" is on disk and
both are in the ledger. -/
theorem C9_batch_accounting_witness :
    ((installCmdRunE
        (logged (fun w agentID v => installAgent sampleEnv w agentID v "claude-code"))
        (sampleWorld, []) ["one", "two@1.0.0", "three"] false).2.2 =
      [("one", ""), ("two", "1.0.0"), ("three", "")]) ∧
    (installCmd sampleEnv sampleWorld ["one", "two@1.0.0", "three"] false "claude-code").1 =
      .report 2 ["two"] ∧
    (installCmd sampleEnv sampleWorld ["one", "two@1.0.0", "three"] false
      "claude-code").2.fs.content "/home/u/.claude/agents/one.md" = some "# one" ∧
    (installCmd sampleEnv sampleWorld ["one", "two@1.0.0", "three"] false
      "claude-code").2.fs.content "/home/u/.claude/agents/two.md" = none ∧
    (installCmd sampleEnv sampleWorld ["one", "two@1.0.0", "three"] false
      "claude-code").2.fs.content "/home/u/.claude/agents/three.md" = some "# three" ∧
    (ListInstalled sampleEnv (installCmd sampleEnv sampleWorld ["one", "two@1.0.0", "three"]
      false "claude-code").2.fs).toOption =
      some [⟨"one", "latest", 1, "/home/u/.claude/agents/one.md"⟩,
        ⟨"three", "latest", 3, "/home/u/.claude/agents/three.md"⟩] := by
  have h := C9_batch_accounting
    (fun w agentID v => installAgent sampleEnv w agentID v "claude-code") sampleWorld
    ["one", "two@1.0.0", "three"] (by decide)
  refine ⟨?_, by decide, by decide, by decide, by decide, by decide⟩
  rw [h.1]
  decide

section LedgerLemmas

theorem lookup_filter_ne (l : List (String × String)) (k q : String) (h : q ≠ k) :
    List.lookup q (l.filter (fun kv => kv.1 ≠ k)) = List.lookup q l := by
  induction l with
  | nil => rfl
  | cons kv rest ih =>
    by_cases hk : kv.1 = k
    · have hq : (q == kv.1) = false := by
        rw [hk]; exact beq_false_of_ne h
      rw [List.filter_cons_of_neg (by simpa using hk)]
      obtain ⟨a, b⟩ := kv
      rw [List.lookup_cons, ih]
      simp only at hq
      rw [hq]
    · rw [List.filter_cons_of_pos (by simpa using hk)]
      obtain ⟨a, b⟩ := kv
      rw [List.lookup_cons, List.lookup_cons, ih]

theorem FS.writeFile_of_writable (fs : FS) (path data : String) (h : fs.writable path) :
    fs.writeFile path data = .ok (fs.put (filepathClean path) data) := by
  unfold FS.writeFile
  simp [h.1, h.2.1, h.2.2]

theorem FS.content_after_write (fs : FS) (path data q : String) :
    FS.content (fs.put (filepathClean path) data) q =
      if q = filepathClean path then some data else fs.content q := by
  unfold FS.content FS.put
  by_cases hq : q = filepathClean path
  · simp [hq, List.lookup_cons]
  · have hb : (q == filepathClean path) = false := beq_false_of_ne hq
    simp only [List.lookup_cons, hb, hq, if_false]
    exact lookup_filter_ne fs.files _ q hq

theorem FS.underFile_after_write (fs : FS) (path data : String) :
    FS.underFile (fs.put (filepathClean path) data) path = fs.underFile path := by
  unfold FS.underFile
  congr 1
  funext a
  by_cases ha : a = filepathClean path
  · simp [ha]
  · simp [ha, FS.content_after_write]

theorem FS.writable_after_write (fs : FS) (path data : String) (h : fs.writable path) :
    FS.writable (fs.put (filepathClean path) data) path := by
  refine ⟨?_, ?_, ?_⟩
  · rw [FS.underFile_after_write]; exact h.1
  · exact h.2.1
  · exact h.2.2

/-- After a successful save the ledger reads back as the rows saved. -/
theorem ListInstalled_after_write (E : Env) (fs : FS) (rows : List InstalledAgent)
    (data : String) (hdec : E.unmarshalInstalled data = .ok rows)
    (h : fs.writable (registryPath E)) :
    ListInstalled E (fs.put (filepathClean (registryPath E)) data) = .ok rows := by
  have hw := FS.writable_after_write fs (registryPath E) data h
  have hc := FS.content_after_write fs (registryPath E) data (filepathClean (registryPath E))
  rw [if_pos rfl] at hc
  unfold ListInstalled FS.stat FS.readFile
  simp only [hw.1, hw.2.1, hc]
  simp [hdec]

theorem saveInstallRegistry_ok (E : Env) (hE : E.RoundTrips) (fs : FS)
    (rows : List InstalledAgent) (h : fs.writable (registryPath E)) :
    ∃ fs2, saveInstallRegistry E fs rows = .ok fs2 ∧ ListInstalled E fs2 = .ok rows ∧
      fs2.writable (registryPath E) ∧ fs2.dirs = fs.dirs ∧
      ∀ q, q ≠ filepathClean (registryPath E) → fs2.content q = fs.content q := by
  obtain ⟨data, hm, hu⟩ := hE rows
  refine ⟨_, ?_, ListInstalled_after_write E fs rows data hu h,
    FS.writable_after_write fs _ data h, rfl, ?_⟩
  · unfold saveInstallRegistry
    rw [hm]
    simp only [FS.writeFile_of_writable fs _ data h]
  · intro q hq
    rw [FS.content_after_write, if_neg hq]

/-- On a readable ledger in a writable place updateInstallRegistry succeeds and
leaves the upserted rows. -/
theorem updateInstallRegistry_ok (E : Env) (hE : E.RoundTrips) (w : World)
    (agentID agentPath : String) (rows : List InstalledAgent)
    (hrows : ListInstalled E w.fs = .ok rows) (h : w.fs.writable (registryPath E)) :
    ∃ w2, updateInstallRegistry E w agentID agentPath = (.ok (), w2) ∧
      ListInstalled E w2.fs = .ok (upsertRows rows agentID agentPath (w.clock w.ticks)) ∧
      w2.fs.writable (registryPath E) := by
  obtain ⟨fs2, hsave, hlist, hwr, -, -⟩ := saveInstallRegistry_ok E hE w.fs
    (upsertRows rows agentID agentPath (w.clock w.ticks)) h
  refine ⟨{ w with ticks := w.ticks + 1, fs := fs2 }, ?_, hlist, hwr⟩
  unfold updateInstallRegistry
  rw [hrows]
  simp only [World.now, hsave]

theorem updateExisting_none (agentID agentPath : String) (t : Int)
    (rows : List InstalledAgent) (h : rows.filter (fun a => a.ID = agentID) = []) :
    updateExisting agentID agentPath t rows = none := by
  induction rows with
  | nil => rfl
  | cons a rest ih =>
    by_cases ha : a.ID = agentID
    · simp [List.filter_cons, ha] at h
    · simp only [List.filter_cons, ha, decide_False, Bool.false_eq_true, if_false] at h
      simp [updateExisting, ha, ih h]

theorem updateExisting_some (agentID agentPath : String) (t : Int)
    (rows : List InstalledAgent) (h : rows.filter (fun a => a.ID = agentID) ≠ []) :
    ∃ rows2 r, updateExisting agentID agentPath t rows = some rows2 ∧
      rows2.length = rows.length ∧ r.Path = agentPath ∧ r.ID = agentID ∧
      rows2.filter (fun a => a.ID = agentID) =
        r :: (rows.filter (fun a => a.ID = agentID)).tail := by
  induction rows with
  | nil => simp at h
  | cons a rest ih =>
    by_cases ha : a.ID = agentID
    · refine ⟨{ a with InstalledAt := t, Path := agentPath } :: rest,
        { a with InstalledAt := t, Path := agentPath }, ?_, rfl, rfl, ha, ?_⟩
      · simp [updateExisting, ha]
      · simp [List.filter_cons, ha]
    · have h2 : rest.filter (fun a => a.ID = agentID) ≠ [] := by
        simpa [List.filter_cons, ha] using h
      obtain ⟨rows2, r, hup, hlen, hp, hid, hf⟩ := ih h2
      refine ⟨a :: rows2, r, ?_, by simp [hlen], hp, hid, ?_⟩
      · simp [updateExisting, ha, hup]
      · simp [List.filter_cons, ha, hf]

/-- After an upsert on a ledger with at most one row of the id there is exactly one
row of the id, and it holds the path given. -/
theorem upsertRows_one (agentID agentPath : String) (t : Int) (rows : List InstalledAgent)
    (h : (rows.filter (fun a => a.ID = agentID)).length ≤ 1) :
    ∃ r, (upsertRows rows agentID agentPath t).filter (fun a => a.ID = agentID) = [r] ∧
      r.Path = agentPath := by
  by_cases hx : rows.filter (fun a => a.ID = agentID) = []
  · refine ⟨⟨agentID, "latest", t, agentPath⟩, ?_, rfl⟩
    simp [upsertRows, updateExisting_none agentID agentPath t rows hx, List.filter_append, hx]
  · obtain ⟨rows2, r, hup, -, hp, -, hf⟩ := updateExisting_some agentID agentPath t rows hx
    refine ⟨r, ?_, hp⟩
    simp only [upsertRows, hup, hf]
    have htail : (rows.filter (fun a => a.ID = agentID)).tail = [] := by
      apply List.length_eq_zero.mp
      rw [List.length_tail]
      omega
    rw [htail]

/-- An upsert on a ledger that has a row of the id keeps the number of rows. -/
theorem upsertRows_length (agentID agentPath : String) (t : Int) (rows : List InstalledAgent)
    (h : rows.filter (fun a => a.ID = agentID) ≠ []) :
    (upsertRows rows agentID agentPath t).length = rows.length := by
  obtain ⟨rows2, r, hup, hlen, -, -, -⟩ := updateExisting_some agentID agentPath t rows h
  simp only [upsertRows, hup, hlen]

end LedgerLemmas

/-- C10. For every ledger that reads as rows with at most one row of id `x`, in a
place where the ledger file can be written, and every pair of paths: the upsert of
`(x, p1)` followed by the upsert of `(x, p2)` both succeed, after which the ledger has
exactly one row of id `x`, that row holds `p2`, and the ledger has as many rows as
after the first upsert. -/
theorem C10_upsert_twice (E : Env) (hE : E.RoundTrips) (w : World) (x p1 p2 : String)
    (rows : List InstalledAgent) (hrows : ListInstalled E w.fs = .ok rows)
    (hone : (rows.filter (fun a => a.ID = x)).length ≤ 1)
    (hwr : w.fs.writable (registryPath E)) :
    ∃ w1 w2 rows1 rows2 r,
      updateInstallRegistry E w x p1 = (.ok (), w1) ∧
      updateInstallRegistry E w1 x p2 = (.ok (), w2) ∧
      ListInstalled E w1.fs = .ok rows1 ∧ ListInstalled E w2.fs = .ok rows2 ∧
      rows2.filter (fun a => a.ID = x) = [r] ∧ r.Path = p2 ∧
      rows2.length = rows1.length := by
  obtain ⟨w1, h1, hl1, hw1⟩ := updateInstallRegistry_ok E hE w x p1 rows hrows hwr
  obtain ⟨w2, h2, hl2, -⟩ := updateInstallRegistry_ok E hE w1 x p2 _ hl1 hw1
  obtain ⟨r1, hr1, -⟩ := upsertRows_one x p1 (w.clock w.ticks) rows hone
  obtain ⟨r2, hr2, hp2⟩ := upsertRows_one x p2 (w1.clock w1.ticks)
    (upsertRows rows x p1 (w.clock w.ticks)) (by rw [hr1]; simp)
  refine ⟨w1, w2, _, _, r2, h1, h2, hl1, hl2, hr2, hp2, ?_⟩
  exact upsertRows_length x p2 _ _ (by rw [hr1]; simp)

set_option maxRecDepth 8000 in
/-- Witness of C10: the upsert of ("x", "/p") twice on a machine with no ledger
file yet leaves one row, of id "x" and path "/p". -/
theorem C10_upsert_twice_witness :
    ListInstalled sampleEnv readyWorld.fs = .ok [] ∧
    (ListInstalled sampleEnv
      (updateInstallRegistry sampleEnv
        (updateInstallRegistry sampleEnv readyWorld "x" "/p").2 "x" "/p").2.fs).toOption =
      some [⟨"x", "latest", 1, "/p"⟩] ∧
    ∃ w1 w2 rows1 rows2 r,
      updateInstallRegistry sampleEnv readyWorld "x" "/p" = (.ok (), w1) ∧
      updateInstallRegistry sampleEnv w1 "x" "/p" = (.ok (), w2) ∧
      ListInstalled sampleEnv w1.fs = .ok rows1 ∧ ListInstalled sampleEnv w2.fs = .ok rows2 ∧
      rows2.filter (fun a => a.ID = "x") = [r] ∧ r.Path = "/p" ∧
      rows2.length = rows1.length :=
  ⟨rfl, by decide,
    C10_upsert_twice sampleEnv sampleEnv_roundTrips readyWorld "x" "/p" "/p" [] rfl
      (by decide) (by decide)⟩

/-! ## Item locations and content download -/

section SplitLemmas

theorem splitFirst_none_iff (sep : Char) (s : String) :
    splitFirst sep s = none ↔ sep ∉ s.data := by
  unfold splitFirst
  rw [List.span_eq_take_drop]
  cases h : s.data.dropWhile (fun ch => ch != sep) with
  | nil =>
    simp only [true_iff]
    intro hmem
    have := (List.dropWhile_eq_nil_iff.mp h) sep hmem
    simp at this
  | cons c rest =>
    have hc : (c != sep) = false := by
      have := List.head_dropWhile_not (fun ch => ch != sep) s.data (by simp [h])
      simpa [h] using this
    have hcs : c = sep := by simpa using hc
    have hmem : c ∈ s.data.dropWhile (fun ch => ch != sep) := by rw [h]; simp
    have hin : sep ∈ s.data := hcs ▸ (List.dropWhile_sublist _).subset hmem
    constructor
    · intro hnone; cases hnone
    · intro hn; exact absurd hin hn

theorem splitFirst_some (sep : Char) (s a b : String) (h : splitFirst sep s = some (a, b)) :
    a.data ++ sep :: b.data = s.data ∧ sep ∉ a.data := by
  unfold splitFirst at h
  rw [List.span_eq_take_drop] at h
  cases hd : s.data.dropWhile (fun ch => ch != sep) with
  | nil => simp [hd] at h
  | cons c rest =>
    simp only [hd, Option.some.injEq, Prod.mk.injEq] at h
    have hc : (c != sep) = false := by
      have := List.head_dropWhile_not (fun ch => ch != sep) s.data (by simp [hd])
      simpa [hd] using this
    have hcs : c = sep := by simpa using hc
    obtain ⟨ha, hb⟩ := h
    subst ha hb
    subst hcs
    constructor
    · show List.takeWhile (fun ch => ch != c) s.data ++ c :: rest = s.data
      rw [← hd]
      exact List.takeWhile_append_dropWhile _ _
    · intro hmem
      have := List.mem_takeWhile_imp hmem
      simp at this

end SplitLemmas

/-- C16. If the id contains "/", parseAgentID returns the text before the first "/"
(which has no "/") as author and all the text after it as name, so that
author + "/" + name is the id; otherwise it returns ("community", id). On a cache
miss GetAgentMetadata requests baseURL + "/agents/" + author + "/" + name +
"/metadata.json" and nothing else, and DownloadAgent requests baseURL + "/agents/" +
author + "/" + name + "/agent.md" and nothing else. -/
theorem C16_parseAgentID_split (E : Env) (w : World) (agentID version : String) :
    ('/' ∈ agentID.data →
      (parseAgentID agentID).1 ++ "/" ++ (parseAgentID agentID).2 = agentID ∧
      '/' ∉ (parseAgentID agentID).1.data) ∧
    ('/' ∉ agentID.data → parseAgentID agentID = ("community", agentID)) ∧
    (w.cache.items ("metadata_" ++ agentID) = none →
      (GetAgentMetadata E w agentID).2.requests =
        w.requests ++ [E.baseURL ++ "/agents/" ++ (parseAgentID agentID).1 ++ "/" ++
          (parseAgentID agentID).2 ++ "/metadata.json"]) ∧
    (DownloadAgent E w agentID version).2.requests =
      w.requests ++ [E.baseURL ++ "/agents/" ++ (parseAgentID agentID).1 ++ "/" ++
        (parseAgentID agentID).2 ++ "/agent.md"] := by
  refine ⟨?_, ?_, ?_, ?_⟩
  · intro hmem
    cases hs : splitFirst '/' agentID with
    | none => exact absurd hmem ((splitFirst_none_iff '/' agentID).mp hs)
    | some ab =>
      obtain ⟨a, b⟩ := ab
      have := splitFirst_some '/' agentID a b hs
      simp only [parseAgentID, hs]
      refine ⟨?_, this.2⟩
      apply String.ext
      simpa using this.1
  · intro hmem
    simp [parseAgentID, (splitFirst_none_iff '/' agentID).mpr hmem]
  · intro hmiss
    unfold GetAgentMetadata World.cacheGet
    simp only [hmiss, World.httpGet, metadataURL]
    split
    · rfl
    · split
      · rfl
      · split
        · rfl
        · split
          · rfl
          · rfl
  · unfold DownloadAgent
    simp only [World.httpGet, contentURL]
    split
    · rfl
    · split
      · rfl
      · split <;> rfl

/-- C17. For every id and any two version strings, DownloadAgent makes the same
request (the item's agent.md at the author/name split of the id) and returns the same
result and state; and in two states whose transport gives the same answer to that
request, the calls with the two versions return the same result. -/
theorem C17_download_ignores_version (E : Env) (w w2 : World) (agentID v1 v2 : String) :
    DownloadAgent E w agentID v1 = DownloadAgent E w agentID v2 ∧
    (DownloadAgent E w agentID v1).2.requests =
      w.requests ++ [E.baseURL ++ "/agents/" ++ (parseAgentID agentID).1 ++ "/" ++
        (parseAgentID agentID).2 ++ "/agent.md"] ∧
    (w.transport w.requests.length (contentURL E agentID) =
        w2.transport w2.requests.length (contentURL E agentID) →
      (DownloadAgent E w agentID v1).1 = (DownloadAgent E w2 agentID v2).1) := by
  refine ⟨rfl, ?_, ?_⟩
  · unfold DownloadAgent
    simp only [World.httpGet, contentURL]
    split
    · rfl
    · split
      · rfl
      · split <;> rfl
  · intro h
    unfold DownloadAgent
    simp only [World.httpGet, h]
    split
    · rfl
    · split
      · rfl
      · split <;> rfl

/-! ## Catalog fetch -/

section CatalogLemmas

/-- On a cold key the cache lookup returns nil and leaves no entry for the key. -/
theorem World.cacheGet_cold (w : World) (key : String) (h : w.cold key) :
    (w.cacheGet key).1 = none ∧ (w.cacheGet key).2.cache.items key = none ∧
    (w.cacheGet key).2.requests = w.requests ∧
    (w.cacheGet key).2.transport = w.transport := by
  unfold World.cacheGet
  cases hk : w.cache.items key with
  | none => simp [hk]
  | some item =>
    have hexp := h item hk
    simp only [World.now]
    rw [Cache.Get_expired w.cache key _ item hk hexp]
    simp [Cache.erase]

end CatalogLemmas

/-- C18. When the cache has no live "registry" entry, GetRegistry makes one request,
for the catalog location, and either the request returned a response with status 200
(a success status) whose body was read and parsed, and GetRegistry returns exactly the
parsed catalog; or the request failed, the status was not 200 (in particular
whenever it is not a success status), the body could not be read or did not parse,
and GetRegistry returns an error and leaves the cache without a "registry" entry. -/
theorem C18_GetRegistry_all_or_nothing (E : Env) (w : World) (hcold : w.cold "registry") :
    (GetRegistry E w).2.requests = w.requests ++ [registryURL E] ∧
    ((∃ resp body registry,
        w.transport w.requests.length (registryURL E) = .ok resp ∧
        resp.StatusCode = 200 ∧ successStatus resp.StatusCode ∧ resp.Body = .ok body ∧
        E.unmarshalRegistry body = .ok registry ∧
        (GetRegistry E w).1 = .ok registry) ∨
     ((∃ err, (GetRegistry E w).1 = .error err) ∧
        (GetRegistry E w).2.cache.items "registry" = none ∧
        ((∃ err, w.transport w.requests.length (registryURL E) = .error err) ∨
         (∃ resp, w.transport w.requests.length (registryURL E) = .ok resp ∧
            (resp.StatusCode ≠ 200 ∨ (∃ err, resp.Body = .error err) ∨
              ∃ body err, resp.Body = .ok body ∧
                E.unmarshalRegistry body = .error err))))) ∧
    (∀ resp, w.transport w.requests.length (registryURL E) = .ok resp →
      ¬ successStatus resp.StatusCode → ∃ err, (GetRegistry E w).1 = .error err) := by
  obtain ⟨hnone, hitems, hreq, htr⟩ := World.cacheGet_cold w "registry" hcold
  have hshape : GetRegistry E w =
      (match (w.cacheGet "registry").2.transport (w.cacheGet "registry").2.requests.length
          (registryURL E) with
        | .error err => (.error ("failed to fetch registry: " ++ err),
            { (w.cacheGet "registry").2 with
              requests := (w.cacheGet "registry").2.requests ++ [registryURL E] })
        | .ok resp =>
          if resp.StatusCode ≠ 200 then
            (.error ("registry request failed with status: " ++ toString resp.StatusCode),
              { (w.cacheGet "registry").2 with
                requests := (w.cacheGet "registry").2.requests ++ [registryURL E] })
          else
            match resp.Body with
            | .error err => (.error ("failed to read registry response: " ++ err),
                { (w.cacheGet "registry").2 with
                  requests := (w.cacheGet "registry").2.requests ++ [registryURL E] })
            | .ok body =>
              match E.unmarshalRegistry body with
              | .error err => (.error ("failed to parse registry: " ++ err),
                  { (w.cacheGet "registry").2 with
                    requests := (w.cacheGet "registry").2.requests ++ [registryURL E] })
              | .ok registry =>
                (.ok registry,
                  World.cacheSet { (w.cacheGet "registry").2 with
                    requests := (w.cacheGet "registry").2.requests ++ [registryURL E] }
                    "registry" (.registry registry) E.cacheTTL)) := by
    unfold GetRegistry
    simp only [World.httpGet]
    rw [hnone]
  rw [hshape, htr, hreq]
  cases hresp : w.transport w.requests.length (registryURL E) with
  | error err =>
    refine ⟨rfl, Or.inr ⟨⟨_, rfl⟩, hitems, Or.inl ⟨err, rfl⟩⟩, ?_⟩
    intro resp h; cases h
  | ok resp =>
    by_cases hcode : resp.StatusCode = 200
    · have hsucc : successStatus resp.StatusCode := by
        rw [hcode]; exact ⟨by decide, by decide⟩
      cases hbody : resp.Body with
      | error err =>
        simp only [hcode, hbody, ne_eq, not_true_eq_false, if_false]
        refine ⟨by trivial, Or.inr ⟨⟨_, rfl⟩, hitems,
          Or.inr ⟨resp, rfl, Or.inr (Or.inl ⟨err, hbody⟩)⟩⟩, ?_⟩
        intro resp2 h hns
        cases h
        exact absurd hsucc hns
      | ok body =>
        cases hparse : E.unmarshalRegistry body with
        | error err =>
          simp only [hcode, hbody, hparse, ne_eq, not_true_eq_false, if_false]
          refine ⟨by trivial, Or.inr ⟨⟨_, rfl⟩, hitems,
            Or.inr ⟨resp, rfl, Or.inr (Or.inr ⟨body, err, hbody, hparse⟩)⟩⟩, ?_⟩
          intro resp2 h hns
          cases h
          exact absurd hsucc hns
        | ok registry =>
          simp only [hcode, hbody, hparse, ne_eq, not_true_eq_false, if_false]
          refine ⟨by trivial, Or.inl ⟨resp, body, registry, rfl, hcode, hsucc,
            hbody, hparse, rfl⟩, ?_⟩
          intro resp2 h hns
          cases h
          exact absurd hsucc hns
    · simp only [ne_eq, hcode, not_false_eq_true, if_true]
      refine ⟨by trivial, Or.inr ⟨⟨_, rfl⟩, hitems, Or.inr ⟨resp, rfl, Or.inl hcode⟩⟩, ?_⟩
      intro resp2 h _
      exact ⟨_, rfl⟩

/-- Witness of C18: a fresh client against a remote that serves the catalog body
"v1" returns the catalog parsed from it; against a remote that answers 404 it
returns an error and the cache stays without a "registry" entry. -/
theorem C18_GetRegistry_all_or_nothing_witness :
    catalogWorld.cold "registry" ∧
    (GetRegistry catalogEnv catalogWorld).2.requests = ["https://r/registry.json"] ∧
    (GetRegistry catalogEnv catalogWorld).1.toOption = some (sampleRegistry "v1") ∧
    (GetRegistry sampleEnv sampleWorld).1.toOption = none ∧
    ((GetRegistry sampleEnv sampleWorld).2.cache.items "registry").isNone = true :=
  ⟨(fun _ h => by cases h),
    (C18_GetRegistry_all_or_nothing catalogEnv catalogWorld (fun _ h => by cases h)).1,
    by decide, by decide, by decide⟩

/-! ## Update check -/

section CheckLemmas

variable {σ : Type}

theorem fetchResults_records (fetch : σ → String → Except String AgentMetadata × σ)
    (installed : List InstalledAgent) (s : σ) :
    (fetchResults fetch s installed).map Prod.fst = installed := by
  induction installed generalizing s with
  | nil => rfl
  | cons a rest ih => simp [fetchResults, ih]

theorem checkLoop_eq (fetch : σ → String → Except String AgentMetadata × σ)
    (installed : List InstalledAgent) (s : σ) (lines : List CheckLine) (flag : Bool) :
    (checkLoop fetch s installed lines flag).1 =
      lines ++ (fetchResults fetch s installed).map reportLine ∧
    (checkLoop fetch s installed lines flag).2.1 =
      (flag || (fetchResults fetch s installed).any isUpdatable) := by
  induction installed generalizing s lines flag with
  | nil => simp [checkLoop, fetchResults]
  | cons a rest ih =>
    simp only [checkLoop, fetchResults]
    rcases hf : fetch s a.ID with ⟨r, s2⟩
    cases r with
    | error err =>
      simp only [List.map_cons, List.any_cons]
      rw [(ih s2 _ _).1, (ih s2 _ _).2]
      simp [reportLine, isUpdatable]
    | ok m =>
      by_cases hne : m.Latest = a.Version
      · simp only [hne, ne_eq, not_true_eq_false, if_false, List.map_cons, List.any_cons]
        rw [(ih s2 _ _).1, (ih s2 _ _).2]
        simp [reportLine, isUpdatable, hne]
      · simp only [hne, ne_eq, not_false_eq_true, if_true, List.map_cons, List.any_cons]
        rw [(ih s2 _ _).1, (ih s2 _ _).2]
        simp [reportLine, isUpdatable, hne]

theorem updatableLoop_eq (fetch : σ → String → Except String AgentMetadata × σ)
    (installed : List InstalledAgent) (s : σ) (acc : List InstalledAgent) :
    (updatableLoop fetch s installed acc).1 =
      acc ++ ((fetchResults fetch s installed).filter isUpdatable).map Prod.fst := by
  induction installed generalizing s acc with
  | nil => simp [updatableLoop, fetchResults]
  | cons a rest ih =>
    simp only [updatableLoop, fetchResults]
    rcases hf : fetch s a.ID with ⟨r, s2⟩
    cases r with
    | error err =>
      simp only [ih]
      simp [List.filter_cons, isUpdatable]
    | ok m =>
      by_cases hne : m.Latest = a.Version
      · simp only [hne, ne_eq, not_true_eq_false, if_false, ih]
        simp [List.filter_cons, isUpdatable, hne]
      · simp only [hne, ne_eq, not_false_eq_true, if_true, ih]
        simp [List.filter_cons, isUpdatable, hne]

end CheckLemmas

/-- C13. For every ledger that lists at least one record and every remote: the update
check fetches the metadata of each record once, in ledger order; checkUpdates reports
each record as updatable (with its stored version and the remote latest) exactly when
its fetch succeeded and the latest version differs, as a string, from the stored
one, as up to date exactly when the fetch succeeded and the two are equal, and as
failed otherwise, going on with the remaining records; and the slice `updatable` of
listUpdatableAgents is the sub-sequence of the updatable records in ledger order. -/
theorem C13_update_check_classifies (E : Env) (w : World) (installed : List InstalledAgent)
    (hlist : ListInstalled E w.fs = .ok installed) (hne : installed ≠ []) :
    (fetchResults (GetAgentMetadata E) w.newClient installed).map Prod.fst = installed ∧
    (checkUpdates E w).1 =
      .checked ((fetchResults (GetAgentMetadata E) w.newClient installed).map reportLine)
        ((fetchResults (GetAgentMetadata E) w.newClient installed).any isUpdatable) ∧
    (listUpdatableAgents E w).1 =
      .updatable (((fetchResults (GetAgentMetadata E) w.newClient installed).filter
        isUpdatable).map Prod.fst) ∧
    (∀ x : InstalledAgent × Except String AgentMetadata,
      (isUpdatable x = true ↔ ∃ m, x.2 = .ok m ∧ m.Latest ≠ x.1.Version) ∧
      (isUpToDate x = true ↔ ∃ m, x.2 = .ok m ∧ m.Latest = x.1.Version) ∧
      (∀ m, x.2 = .ok m → m.Latest ≠ x.1.Version →
        reportLine x = .updateAvailable x.1.ID x.1.Version m.Latest) ∧
      (∀ m, x.2 = .ok m → m.Latest = x.1.Version →
        reportLine x = .upToDate x.1.ID x.1.Version) ∧
      (∀ err, x.2 = .error err →
        reportLine x = .failed x.1.ID ∧ isUpdatable x = false ∧ isUpToDate x = false)) := by
  have hlen : installed.length ≠ 0 := fun h => hne (List.length_eq_zero.mp h)
  have hfs : w.newClient.fs = w.fs := rfl
  refine ⟨fetchResults_records _ _ _, ?_, ?_, ?_⟩
  · have h := checkLoop_eq (GetAgentMetadata E) installed w.newClient [] false
    unfold checkUpdates
    simp only [hfs, hlist, hlen, if_false]
    rw [h.1, h.2]
    simp
  · have h := updatableLoop_eq (GetAgentMetadata E) installed w.newClient []
    unfold listUpdatableAgents
    simp only [hfs, hlist, hlen, if_false]
    rw [h]
    simp
  · rintro ⟨a, r⟩
    cases r with
    | error err => simp [isUpdatable, isUpToDate, reportLine]
    | ok m =>
      by_cases hm : m.Latest = a.Version
      · simp [isUpdatable, isUpToDate, reportLine, hm]
      · simp [isUpdatable, isUpToDate, reportLine, hm]

set_option maxRecDepth 8000 in
/-- Witness of C13: records "a", "c", "b" stored at "1.0.0"; the remote has latest
"1.0.0" for "a", does not serve "c" and has latest "1.1.0" for "b". The check reports
"a" up to date, "c" failed and "b" updatable from "1.0.0" to "1.1.0"; the updatable
slice holds the record of "b" alone. -/
theorem C13_update_check_classifies_witness :
    (checkUpdates versionEnv versionWorld).1 =
      .checked [.upToDate "a" "1.0.0", .failed "c", .updateAvailable "b" "1.0.0" "1.1.0"]
        true ∧
    (listUpdatableAgents versionEnv versionWorld).1 =
      .updatable [⟨"b", "1.0.0", 0, "/home/u/.claude/agents/b.md"⟩] := by
  have h := C13_update_check_classifies versionEnv versionWorld
    [⟨"a", "1.0.0", 0, "/home/u/.claude/agents/a.md"⟩,
      ⟨"c", "1.0.0", 0, "/home/u/.claude/agents/c.md"⟩,
      ⟨"b", "1.0.0", 0, "/home/u/.claude/agents/b.md"⟩] (by rfl) (by decide)
  refine ⟨?_, ?_⟩
  · rw [h.2.1]; decide
  · rw [h.2.2.1]; decide

/-! ## Paths -/

section PathLemmas

theorem splitOnChar_ne_nil (sep : Char) (l : List Char) : splitOnChar sep l ≠ [] := by
  cases l with
  | nil => simp [splitOnChar]
  | cons c cs =>
    unfold splitOnChar
    split
    · simp
    · split <;> simp

theorem splitOnChar_cons_of_ne (sep c : Char) (cs : List Char) (h : c ≠ sep) :
    ∃ x xs, splitOnChar sep cs = x :: xs ∧ splitOnChar sep (c :: cs) = (c :: x) :: xs := by
  cases hs : splitOnChar sep cs with
  | nil => exact absurd hs (splitOnChar_ne_nil sep cs)
  | cons x xs =>
    refine ⟨x, xs, rfl, ?_⟩
    rw [splitOnChar]
    simp [h, hs]

/-- Splitting `a ++ sep :: b` gives the pieces of `a`, then the pieces of `b`. -/
theorem splitOnChar_append_sep (sep : Char) (a b : List Char) :
    splitOnChar sep (a ++ sep :: b) = splitOnChar sep a ++ splitOnChar sep b := by
  induction a with
  | nil => simp [splitOnChar]
  | cons c cs ih =>
    by_cases hc : c = sep
    · subst hc
      simp [splitOnChar, ih]
    · obtain ⟨x, xs, hx, hcx⟩ := splitOnChar_cons_of_ne sep c cs hc
      obtain ⟨y, ys, hy, hcy⟩ := splitOnChar_cons_of_ne sep c (cs ++ sep :: b) hc
      rw [List.cons_append, hcy, hcx]
      rw [ih, hx] at hy
      simp only [List.cons_append, List.cons.injEq] at hy
      rw [← hy.1, ← hy.2]
      rfl

theorem splitOnChar_of_not_mem (sep : Char) (a : List Char) (h : sep ∉ a) :
    splitOnChar sep a = [a] := by
  induction a with
  | nil => rfl
  | cons c cs ih =>
    have hc : c ≠ sep := fun e => h (by simp [e])
    have hcs : sep ∉ cs := fun e => h (List.mem_cons_of_mem _ e)
    obtain ⟨x, xs, hx, hcx⟩ := splitOnChar_cons_of_ne sep c cs hc
    rw [ih hcs] at hx
    simp only [List.cons.injEq] at hx
    rw [hcx, ← hx.1, ← hx.2]

theorem splitOnChar_pieces (sep : Char) (l : List Char) :
    ∀ x ∈ splitOnChar sep l, sep ∉ x := by
  induction l with
  | nil => simp [splitOnChar]
  | cons c cs ih =>
    by_cases hc : c = sep
    · subst hc
      intro x hx
      simp only [splitOnChar, if_true, List.mem_cons] at hx
      rcases hx with rfl | hx
      · simp
      · exact ih x hx
    · obtain ⟨y, ys, hy, hcy⟩ := splitOnChar_cons_of_ne sep c cs hc
      intro x hx
      rw [hcy, List.mem_cons] at hx
      rcases hx with rfl | hx
      · intro hmem
        rcases List.mem_cons.mp hmem with h | h
        · exact hc h.symm
        · exact ih y (by rw [hy]; simp) h
      · exact ih x (by rw [hy]; exact List.mem_cons_of_mem _ hx)

/-- Splitting what `joinSlash` joined gives the pieces back. -/
theorem splitOnChar_joinSlash (xs : List (List Char)) (hne : xs ≠ [])
    (h : ∀ x ∈ xs, '/' ∉ x) : splitOnChar '/' (joinSlash xs) = xs := by
  induction xs with
  | nil => exact absurd rfl hne
  | cons x rest ih =>
    cases rest with
    | nil => exact splitOnChar_of_not_mem '/' x (h x (by simp))
    | cons y rest2 =>
      rw [joinSlash, splitOnChar_append_sep,
        splitOnChar_of_not_mem '/' x (h x (by simp)),
        ih (by simp) (fun z hz => h z (List.mem_cons_of_mem _ hz))]
      rfl

theorem intercalate_go_data (acc s : String) (l : List String) :
    (String.intercalate.go acc s l).data =
      acc.data ++ (l.map (fun a => s.data ++ a.data)).flatten := by
  induction l generalizing acc with
  | nil => simp [String.intercalate.go]
  | cons a rest ih =>
    rw [String.intercalate.go, ih]
    simp [List.append_assoc]

theorem intercalate_slash_data (es : List String) :
    ("/".intercalate es).data = joinSlash (es.map String.data) := by
  cases es with
  | nil => rfl
  | cons e rest =>
    rw [String.intercalate, intercalate_go_data]
    induction rest generalizing e with
    | nil => simp [joinSlash]
    | cons y rest2 ih =>
      have := ih y
      simp only [List.map_cons, List.flatten_cons, joinSlash] at this ⊢
      rw [← this]
      rfl

end PathLemmas
section CleanLemmas

theorem cleanElems_append (r : Bool) (xs ys stack : List String) :
    cleanElems r stack (xs ++ ys) = cleanElems r (cleanElems r stack xs).reverse ys := by
  induction xs generalizing stack with
  | nil => simp [cleanElems]
  | cons e es ih =>
    rw [List.cons_append]
    by_cases h1 : e = "" ∨ e = "."
    · simp only [cleanElems, h1, if_true]
      exact ih stack
    · by_cases h2 : e = ".."
      · cases stack with
        | nil =>
          cases r
          · simp only [cleanElems, h1, h2, if_false, if_true]
            simpa [h2] using ih [".."]
          · simp only [cleanElems, h1, h2, if_false, if_true]
            simpa [h2] using ih []
        | cons top below =>
          by_cases h3 : top = ".."
          · simp only [cleanElems, h1, h2, h3, if_false, if_true]
            simpa [h2, h3] using ih (".." :: ".." :: below)
          · simp only [cleanElems, h1, h2, h3, if_false, if_true]
            simpa [h2, h3] using ih below
      · simp only [cleanElems, h1, h2, if_false]
        exact ih (e :: stack)

theorem cleanElems_names (r : Bool) (ys stack : List String) (h : ∀ e ∈ ys, IsName e) :
    cleanElems r stack ys = stack.reverse ++ ys := by
  induction ys generalizing stack with
  | nil => simp [cleanElems]
  | cons e es ih =>
    have he := h e (by simp)
    have h1 : ¬ (e = "" ∨ e = ".") := by
      rintro (h | h)
      · exact he.1 h
      · exact he.2.1 h
    simp only [cleanElems, h1, he.2.2.1, if_false]
    rw [ih (e :: stack) (fun x hx => h x (List.mem_cons_of_mem _ hx))]
    simp

theorem cleanElems_dots (j k : Nat) :
    cleanElems false (List.replicate j "..") (List.replicate k "..") =
      List.replicate (j + k) ".." := by
  induction k generalizing j with
  | zero => simp [cleanElems]
  | succ k ih =>
    rw [List.replicate_succ]
    cases j with
    | zero =>
      simp only [List.replicate_zero, cleanElems]
      have := ih 1
      simp only [List.replicate_succ, List.replicate_zero] at this
      simp only [show ¬ ((".." : String) = "" ∨ (".." : String) = ".") by decide, if_false,
        if_true, Bool.false_eq_true]
      rw [this]
      congr 1
      omega
    | succ j =>
      simp only [List.replicate_succ, cleanElems]
      have := ih (j + 2)
      simp only [List.replicate_succ] at this
      simp only [show ¬ ((".." : String) = "" ∨ (".." : String) = ".") by decide, if_false,
        if_true]
      rw [this]
      congr 1
      omega

/-- Cleaning a cleaned element list changes nothing. -/
theorem cleanElems_of_isClean (r : Bool) (es : List String) (h : IsClean r es) :
    cleanElems r [] es = es := by
  obtain ⟨k, names, rfl, hk, hn⟩ := h
  rw [cleanElems_append]
  cases r with
  | true =>
    have hk0 := hk rfl
    subst hk0
    simp only [List.replicate_zero, cleanElems, List.reverse_nil, List.nil_append]
    rw [cleanElems_names true names [] hn]
    simp
  | false =>
    have := cleanElems_dots 0 k
    simp only [List.replicate_zero, Nat.zero_add] at this
    rw [this, cleanElems_names false names _ hn]
    simp

/-- The stack of `cleanElems` keeps the shape "names, then a run of ..". -/
theorem cleanElems_isClean (r : Bool) (es stack : List String)
    (hes : ∀ e ∈ es, '/' ∉ e.data)
    (hst : ∃ k names, stack = names ++ List.replicate k ".." ∧ (r = true → k = 0) ∧
      ∀ e ∈ names, IsName e) :
    IsClean r (cleanElems r stack es) := by
  induction es generalizing stack with
  | nil =>
    obtain ⟨k, names, rfl, hk, hn⟩ := hst
    refine ⟨k, names.reverse, ?_, hk, ?_⟩
    · simp [cleanElems]
    · intro e he; exact hn e (List.mem_reverse.mp he)
  | cons e es ih =>
    have hes2 : ∀ x ∈ es, '/' ∉ x.data := fun x hx => hes x (List.mem_cons_of_mem _ hx)
    by_cases h1 : e = "" ∨ e = "."
    · simp only [cleanElems, h1, if_true]
      exact ih stack hes2 hst
    · by_cases h2 : e = ".."
      · obtain ⟨k, names, rfl, hk, hn⟩ := hst
        cases names with
        | nil =>
          cases k with
          | zero =>
            cases r
            · simp only [List.nil_append, List.replicate_zero, cleanElems, h1, h2, if_false,
                if_true, Bool.false_eq_true]
              exact ih [".."] hes2 ⟨1, [], by simp, by simp, by simp⟩
            · simp only [List.nil_append, List.replicate_zero, cleanElems, h1, h2, if_false,
                if_true]
              exact ih [] hes2 ⟨0, [], by simp, by simp, by simp⟩
          | succ k =>
            have hr : r = false := by
              cases r
              · rfl
              · exact absurd (hk rfl) (by simp)
            simp only [List.nil_append, List.replicate_succ, cleanElems, h1, h2, if_false,
              if_true]
            refine ih _ hes2 ⟨k + 2, [], by simp [List.replicate_succ], ?_, by simp⟩
            intro h; rw [hr] at h; cases h
        | cons n ns =>
          have hn1 : n ≠ ".." := (hn n (by simp)).2.2.1
          simp only [List.cons_append, cleanElems, h1, h2, hn1, if_false, if_true]
          exact ih _ hes2 ⟨k, ns, rfl, hk, fun x hx => hn x (List.mem_cons_of_mem _ hx)⟩
      · obtain ⟨k, names, rfl, hk, hn⟩ := hst
        simp only [cleanElems, h1, h2, if_false]
        refine ih _ hes2 ⟨k, e :: names, by simp, hk, ?_⟩
        intro x hx
        rcases List.mem_cons.mp hx with rfl | hx
        · exact ⟨fun h => h1 (Or.inl h), fun h => h1 (Or.inr h), h2, hes x (by simp)⟩
        · exact hn x hx

theorem pathElems_no_slash (p : String) : ∀ e ∈ pathElems p, '/' ∉ e.data := by
  intro e he
  unfold pathElems at he
  obtain ⟨x, hx, rfl⟩ := List.mem_map.mp he
  exact splitOnChar_pieces '/' p.data x hx

theorem normElems_isClean (p : String) : IsClean (isRooted p) (normElems p) :=
  cleanElems_isClean (isRooted p) (pathElems p) [] (pathElems_no_slash p)
    ⟨0, [], by simp, by simp, by simp⟩

theorem filepathClean_eq_render (p : String) :
    filepathClean p = renderPath (isRooted p) (normElems p) := rfl

theorem filepathDir_eq_render (p : String) :
    filepathDir p = renderPath (isRooted p) (normElems p).dropLast := rfl

end CleanLemmas
section RenderLemmas

theorem isClean_elems (r : Bool) (es : List String) (h : IsClean r es) :
    ∀ e ∈ es, e ≠ "" ∧ e ≠ "." ∧ '/' ∉ e.data := by
  obtain ⟨k, names, rfl, -, hn⟩ := h
  intro e he
  rcases List.mem_append.mp he with he | he
  · have := List.eq_of_mem_replicate he
    subst this
    exact ⟨by decide, by decide, by decide⟩
  · exact ⟨(hn e he).1, (hn e he).2.1, (hn e he).2.2.2⟩

theorem map_mk_data (es : List String) : (es.map String.data).map String.mk = es := by
  induction es with
  | nil => rfl
  | cons e rest ih => simp [ih]

theorem pathElems_of_joined (es : List String) (hne : es ≠ [])
    (h : ∀ e ∈ es, '/' ∉ e.data) : pathElems ("/".intercalate es) = es := by
  unfold pathElems
  rw [intercalate_slash_data, splitOnChar_joinSlash _ (by simpa using hne), map_mk_data]
  intro x hx
  obtain ⟨e, he, rfl⟩ := List.mem_map.mp hx
  exact h e he

theorem joinSlash_head (x : List Char) (rest : List (List Char)) (hx : x ≠ []) :
    (joinSlash (x :: rest)).head? = x.head? := by
  cases rest with
  | nil => rfl
  | cons y ys =>
    cases x with
    | nil => exact absurd rfl hx
    | cons c cs => rfl

/-- A cleaned element list is read back from its text. -/
theorem render_roundtrip (r : Bool) (es : List String) (h : IsClean r es) :
    isRooted (renderPath r es) = r ∧ normElems (renderPath r es) = es := by
  have hel := isClean_elems r es h
  have hslash : ∀ e ∈ es, '/' ∉ e.data := fun e he => (hel e he).2.2
  cases r with
  | true =>
    have hdata : (renderPath true es).data = '/' :: ("/".intercalate es).data := by
      simp [renderPath]
    have hroot : isRooted (renderPath true es) = true := by
      simp [isRooted, hdata]
    refine ⟨hroot, ?_⟩
    unfold normElems
    rw [hroot]
    have hpe : pathElems (renderPath true es) = "" :: pathElems ("/".intercalate es) := by
      unfold pathElems
      rw [hdata]
      simp [splitOnChar]
    rw [hpe]
    cases hes : es with
    | nil => decide
    | cons e rest =>
      rw [← hes, pathElems_of_joined es (by simp [hes]) hslash]
      simp only [cleanElems, true_or, if_true]
      exact cleanElems_of_isClean true es h
  | false =>
    cases hes : es with
    | nil => decide
    | cons e rest =>
      have he : e ∈ es := by simp [hes]
      have hne : e.data ≠ [] := by
        intro hd
        exact (hel e he).1 (String.ext hd)
      have hjoin : ("/".intercalate (e :: rest)).data ≠ [] := by
        rw [intercalate_slash_data]
        intro hnil
        have := joinSlash_head e.data (rest.map String.data) hne
        simp only [List.map_cons] at hnil
        rw [hnil] at this
        cases hd : e.data with
        | nil => exact hne hd
        | cons c cs => simp [hd] at this
      have hne2 : "/".intercalate (e :: rest) ≠ "" := by
        intro h0
        exact hjoin (by rw [h0])
      have hrender : renderPath false (e :: rest) = "/".intercalate (e :: rest) := by
        simp [renderPath, hne2]
      rw [hrender]
      constructor
      · unfold isRooted
        rw [intercalate_slash_data, List.map_cons, joinSlash_head _ _ hne]
        cases hd : e.data with
        | nil => exact absurd hd hne
        | cons c cs =>
          have hc : c ≠ '/' := by
            intro hc
            exact (hel e he).2.2 (by rw [hd, hc]; simp)
          simp [hc]
      · unfold normElems
        have hroot : isRooted ("/".intercalate (e :: rest)) = false := by
          unfold isRooted
          rw [intercalate_slash_data, List.map_cons, joinSlash_head _ _ hne]
          cases hd : e.data with
          | nil => exact absurd hd hne
          | cons c cs =>
            have hc : c ≠ '/' := by
              intro hc
              exact (hel e he).2.2 (by rw [hd, hc]; simp)
            simp [hc]
        rw [hroot, ← hes, pathElems_of_joined es (by simp [hes]) hslash]
        exact cleanElems_of_isClean false es h

theorem isRooted_filepathClean (p : String) : isRooted (filepathClean p) = isRooted p :=
  (render_roundtrip _ _ (normElems_isClean p)).1

theorem normElems_filepathClean (p : String) : normElems (filepathClean p) = normElems p :=
  (render_roundtrip _ _ (normElems_isClean p)).2

/-- `filepath.Clean` is idempotent. -/
theorem filepathClean_idem (p : String) : filepathClean (filepathClean p) = filepathClean p := by
  rw [filepathClean_eq_render (filepathClean p), isRooted_filepathClean,
    normElems_filepathClean]
  rfl

end RenderLemmas
section JoinLemmas

theorem pathElems_append_slash (a b : String) :
    pathElems (a ++ "/" ++ b) = pathElems a ++ pathElems b := by
  unfold pathElems
  have : (a ++ "/" ++ b).data = a.data ++ '/' :: b.data := by simp
  rw [this, splitOnChar_append_sep, List.map_append]

theorem isRooted_append (a s : String) (ha : a ≠ "") : isRooted (a ++ s) = isRooted a := by
  unfold isRooted
  cases hd : a.data with
  | nil => exact absurd (String.ext hd) ha
  | cons c cs => simp [hd]

theorem filepathJoin_pair (dir name : String) (hd : dir ≠ "") (hn : name ≠ "") :
    filepathJoin [dir, name] = filepathClean (dir ++ "/" ++ name) := by
  unfold filepathJoin
  simp only [List.filter_cons, hd, hn, ne_eq, not_false_eq_true, decide_True, if_true,
    List.filter_nil]
  rfl

theorem filepathJoin_single (name : String) (hn : name ≠ "") :
    filepathJoin ["", name] = filepathClean name := by
  unfold filepathJoin
  simp only [List.filter_cons, hn, ne_eq, not_false_eq_true, decide_True, if_true,
    List.filter_nil, not_true_eq_false, decide_False, Bool.false_eq_true, if_false]
  rfl

theorem normElems_empty : normElems "" = [] := by decide

/-- The elements of a joined path: those of the directory, cleaned on with the
elements of the name. -/
theorem normElems_filepathJoin (dir name : String) (hn : name ≠ "") :
    (dir ≠ "" → isRooted (filepathJoin [dir, name]) = isRooted dir ∧
      normElems (filepathJoin [dir, name]) =
        cleanElems (isRooted dir) (normElems dir).reverse (pathElems name)) ∧
    (dir = "" → isRooted (filepathJoin [dir, name]) = isRooted name ∧
      normElems (filepathJoin [dir, name]) = normElems name) := by
  constructor
  · intro hd
    rw [filepathJoin_pair dir name hd hn, isRooted_filepathClean, normElems_filepathClean]
    have hr : isRooted (dir ++ "/" ++ name) = isRooted dir := by
      rw [String.append_assoc]; exact isRooted_append dir _ hd
    refine ⟨hr, ?_⟩
    unfold normElems
    rw [hr, pathElems_append_slash, cleanElems_append]
  · intro hd
    subst hd
    rw [filepathJoin_single name hn, isRooted_filepathClean, normElems_filepathClean]
    exact ⟨rfl, rfl⟩

theorem filepathClean_filepathJoin (dir name : String) (hn : name ≠ "") :
    filepathClean (filepathJoin [dir, name]) = filepathJoin [dir, name] := by
  by_cases hd : dir = ""
  · subst hd
    rw [filepathJoin_single name hn, filepathClean_idem]
  · rw [filepathJoin_pair dir name hd hn, filepathClean_idem]

theorem pathElems_name (e : String) (h : '/' ∉ e.data) : pathElems e = [e] := by
  unfold pathElems
  rw [splitOnChar_of_not_mem '/' e.data h]
  rfl

theorem isName_registry : IsName ".registry.json" := by
  refine ⟨by decide, by decide, by decide, by decide⟩

/-- The elements of the ledger path: those of the install directory, then the file
name. -/
theorem normElems_registryPath (E : Env) :
    normElems (registryPath E) = normElems E.installDir ++ [".registry.json"] ∧
    isRooted (registryPath E) = isRooted E.installDir := by
  unfold registryPath
  have h := normElems_filepathJoin E.installDir ".registry.json" (by decide)
  by_cases hd : E.installDir = ""
  · obtain ⟨h1, h2⟩ := h.2 hd
    rw [h1, h2, hd]
    exact ⟨by decide, by decide⟩
  · obtain ⟨h1, h2⟩ := h.1 hd
    rw [h1, h2, pathElems_name _ isName_registry.2.2.2,
      cleanElems_names _ _ _ (by intro e he; simp at he; rw [he]; exact isName_registry)]
    simp

theorem filepathClean_registryPath (E : Env) :
    filepathClean (registryPath E) = registryPath E :=
  filepathClean_filepathJoin E.installDir ".registry.json" (by decide)

theorem append_md_ne_empty (agentID : String) : agentID ++ ".md" ≠ "" := by
  intro h
  have := congrArg String.length h
  simp only [String.length_append] at this
  have h3 : ".md".length = 3 := by decide
  have h0 : "".length = 0 := by decide
  omega

theorem filepathClean_GetInstallPath (E : Env) (agentID : String) :
    filepathClean (GetInstallPath E agentID) = GetInstallPath E agentID :=
  filepathClean_filepathJoin E.installDir _ (append_md_ne_empty agentID)

end JoinLemmas
section AgentPathLemmas

theorem splitOnChar_append_of_not_mem (sep : Char) (a b : List Char) (hb : sep ∉ b) :
    ∃ init last, splitOnChar sep a = init ++ [last] ∧
      splitOnChar sep (a ++ b) = init ++ [last ++ b] := by
  induction a with
  | nil =>
    refine ⟨[], [], rfl, ?_⟩
    simpa using splitOnChar_of_not_mem sep b hb
  | cons c cs ih =>
    obtain ⟨init, last, h1, h2⟩ := ih
    by_cases hc : c = sep
    · subst hc
      refine ⟨[] :: init, last, ?_, ?_⟩
      · simp [splitOnChar, h1]
      · simp [splitOnChar, h2]
    · obtain ⟨x, xs, hx, hcx⟩ := splitOnChar_cons_of_ne sep c cs hc
      obtain ⟨y, ys, hy, hcy⟩ := splitOnChar_cons_of_ne sep c (cs ++ b) hc
      rw [List.cons_append, hcy, hcx]
      rw [h1] at hx
      rw [h2] at hy
      cases init with
      | nil =>
        simp only [List.nil_append, List.cons.injEq] at hx hy
        refine ⟨[], c :: last, ?_, ?_⟩
        · rw [← hx.1, ← hx.2]; rfl
        · rw [← hy.1, ← hy.2]; rfl
      | cons i is =>
        simp only [List.cons_append, List.cons.injEq] at hx hy
        refine ⟨(c :: i) :: is, last, ?_, ?_⟩
        · rw [← hx.1, ← hx.2]; rfl
        · rw [← hy.1, ← hy.2]; rfl

/-- The elements of `agentID + ".md"`: those of the id, the last one with ".md"
appended; that last element is a name. -/
theorem pathElems_append_md (agentID : String) :
    ∃ init last, pathElems agentID = init ++ [last] ∧
      pathElems (agentID ++ ".md") = init ++ [last ++ ".md"] ∧ IsName (last ++ ".md") := by
  obtain ⟨init, last, h1, h2⟩ :=
    splitOnChar_append_of_not_mem '/' agentID.data ".md".data (by decide)
  have hlast : '/' ∉ last := splitOnChar_pieces '/' agentID.data last (by rw [h1]; simp)
  refine ⟨init.map String.mk, String.mk last, ?_, ?_, ?_⟩
  · unfold pathElems; rw [h1]; simp
  · unfold pathElems
    have : (agentID ++ ".md").data = agentID.data ++ ".md".data := by simp
    rw [this, h2]
    simp only [List.map_append, List.map_cons, List.map_nil]
    congr 2
  · have hlen : (String.mk last ++ ".md").length = last.length + 3 := by
      simp only [String.length_append]
      have h3 : ".md".length = 3 := by decide
      rw [h3]; rfl
    refine ⟨?_, ?_, ?_, ?_⟩
    · intro h
      have := congrArg String.length h
      rw [hlen] at this
      have h0 : "".length = 0 := by decide
      omega
    · intro h
      have := congrArg String.length h
      rw [hlen] at this
      have h0 : ".".length = 1 := by decide
      omega
    · intro h
      have := congrArg String.length h
      rw [hlen] at this
      have h0 : "..".length = 2 := by decide
      omega
    · intro hmem
      have hd : (String.mk last ++ ".md").data = last ++ ".md".data := by simp
      rw [hd] at hmem
      rcases List.mem_append.mp hmem with h | h
      · exact hlast h
      · exact absurd h (by decide)

theorem cleanElems_concat_name (r : Bool) (stack init : List String) (e : String)
    (he : IsName e) :
    cleanElems r stack (init ++ [e]) = cleanElems r stack init ++ [e] := by
  rw [cleanElems_append,
    cleanElems_names r [e] _ (by intro x hx; simp at hx; rw [hx]; exact he)]
  simp

/-- The install path of an id ends in an element of the form `x.md`. -/
theorem normElems_GetInstallPath_last (E : Env) (agentID : String) :
    ∃ pre last, normElems (GetInstallPath E agentID) = pre ++ [last ++ ".md"] := by
  obtain ⟨init, last, -, h2, hname⟩ := pathElems_append_md agentID
  have h := normElems_filepathJoin E.installDir (agentID ++ ".md") (append_md_ne_empty agentID)
  unfold GetInstallPath
  by_cases hd : E.installDir = ""
  · rw [(h.2 hd).2]
    unfold normElems
    rw [h2, cleanElems_concat_name _ _ _ _ hname]
    exact ⟨_, last, rfl⟩
  · rw [(h.1 hd).2, h2, cleanElems_concat_name _ _ _ _ hname]
    exact ⟨_, last, rfl⟩

/-- The install path of an id is never the ledger path. -/
theorem GetInstallPath_ne_registryPath (E : Env) (agentID : String) :
    GetInstallPath E agentID ≠ registryPath E := by
  intro heq
  obtain ⟨pre, last, hlast⟩ := normElems_GetInstallPath_last E agentID
  rw [heq, (normElems_registryPath E).1] at hlast
  have h1 := congrArg List.getLast? hlast
  simp only [List.getLast?_concat, Option.some.injEq] at h1
  have h2 := congrArg (fun s => s.data.reverse.head?) h1
  simp only [String.data_append, List.reverse_append] at h2
  have h3 : (".md".data.reverse ++ last.data.reverse).head? = some 'd' := rfl
  rw [h3] at h2
  exact absurd h2 (by decide)

end AgentPathLemmas
/-! ## Ledger invariants -/

section InvariantLemmas

theorem updateExisting_ids (agentID agentPath : String) (t : Int)
    (rows rows2 : List InstalledAgent)
    (h : updateExisting agentID agentPath t rows = some rows2) :
    rows2.map (fun a => (a.ID, a.Version)) = rows.map (fun a => (a.ID, a.Version)) := by
  induction rows generalizing rows2 with
  | nil => simp [updateExisting] at h
  | cons a rest ih =>
    by_cases ha : a.ID = agentID
    · simp only [updateExisting, ha, if_true, Option.some.injEq] at h
      subst h
      simp [ha]
    · simp only [updateExisting, ha, if_false] at h
      cases hr : updateExisting agentID agentPath t rest with
      | none => simp [hr] at h
      | some rest2 =>
        simp only [hr, Option.map_some', Option.some.injEq] at h
        subst h
        simp [ih rest2 hr]

/-- The upsert keeps the id and version of every row it finds, and the row it adds
has version "latest". -/
theorem upsertRows_keys (rows : List InstalledAgent) (agentID agentPath : String) (t : Int) :
    (rows.filter (fun a => a.ID = agentID) ≠ [] →
      (upsertRows rows agentID agentPath t).map (fun a => (a.ID, a.Version)) =
        rows.map (fun a => (a.ID, a.Version))) ∧
    (rows.filter (fun a => a.ID = agentID) = [] →
      upsertRows rows agentID agentPath t = rows ++ [⟨agentID, "latest", t, agentPath⟩]) := by
  constructor
  · intro h
    obtain ⟨rows2, r, hup, -, -, -, -⟩ := updateExisting_some agentID agentPath t rows h
    simp only [upsertRows, hup]
    exact updateExisting_ids agentID agentPath t rows rows2 hup
  · intro h
    simp [upsertRows, updateExisting_none agentID agentPath t rows h]

theorem upsertRows_distinct (rows : List InstalledAgent) (agentID agentPath : String)
    (t : Int) (h : distinctIds rows) : distinctIds (upsertRows rows agentID agentPath t) := by
  unfold distinctIds at *
  by_cases hx : rows.filter (fun a => a.ID = agentID) = []
  · rw [(upsertRows_keys rows agentID agentPath t).2 hx]
    simp only [List.map_append, List.map_cons, List.map_nil]
    rw [List.nodup_append]
    refine ⟨h, by simp, ?_⟩
    intro a ha hb
    simp only [List.mem_singleton] at hb
    obtain ⟨row, hrow, hid⟩ := List.mem_map.mp ha
    have : row ∈ rows.filter (fun a => a.ID = agentID) := by
      simp [List.mem_filter, hrow, hid, hb]
    rw [hx] at this
    cases this
  · have hk := (upsertRows_keys rows agentID agentPath t).1 hx
    have hids : (upsertRows rows agentID agentPath t).map (fun a => a.ID) =
        rows.map (fun a => a.ID) := by
      have := congrArg (List.map Prod.fst) hk
      simpa [List.map_map, Function.comp] using this
    rw [hids]
    exact h

theorem filter_distinct (rows : List InstalledAgent) (agentID : String)
    (h : distinctIds rows) : distinctIds (rows.filter (fun agent => agent.ID ≠ agentID)) := by
  unfold distinctIds at *
  exact h.sublist ((List.filter_sublist _).map _)

end InvariantLemmas
section LedgerStateLemmas

theorem FS.content_put (fs : FS) (p data q : String) :
    (fs.put p data).content q = if q = p then some data else fs.content q := by
  unfold FS.content FS.put
  by_cases hq : q = p
  · simp [hq, List.lookup_cons]
  · have hb : (q == p) = false := beq_false_of_ne hq
    simp only [List.lookup_cons, hb, hq, if_false]
    exact lookup_filter_ne fs.files _ q hq

/-- When the ledger is listed without error, its path is neither under a file nor a
directory, and the rows are empty with no ledger file or decoded from its content. -/
theorem ListInstalled_ok_cases (E : Env) (fs : FS) (rows : List InstalledAgent)
    (h : ListInstalled E fs = .ok rows) :
    fs.underFile (registryPath E) = false ∧ fs.isDir (registryPath E) = false ∧
    ((rows = [] ∧ fs.content (registryPath E) = none) ∨
      ∃ data, fs.content (registryPath E) = some data ∧
        E.unmarshalInstalled data = .ok rows) := by
  unfold ListInstalled FS.stat FS.readFile at h
  rw [filepathClean_registryPath] at h
  cases hu : fs.underFile (registryPath E) with
  | true => simp [hu] at h
  | false =>
    cases hd : fs.isDir (registryPath E) with
    | true => simp [hu, hd] at h
    | false =>
      refine ⟨rfl, rfl, ?_⟩
      cases hc : fs.content (registryPath E) with
      | none =>
        simp [hu, hd, hc] at h
        exact Or.inl ⟨h, rfl⟩
      | some data =>
        simp only [hu, hd, hc, Option.isSome_some, Bool.false_eq_true, false_or, if_true,
          if_false] at h
        cases hp : E.unmarshalInstalled data with
        | error err => simp [hp] at h
        | ok rows2 =>
          simp only [hp, Except.ok.injEq] at h
          exact Or.inr ⟨data, rfl, by rw [← h]; exact hp⟩

/-- A successful save puts a text at the ledger path that decodes to the rows saved. -/
theorem saveInstallRegistry_cases (E : Env) (hE : E.RoundTrips) (fs fs2 : FS)
    (rows : List InstalledAgent) (h : saveInstallRegistry E fs rows = .ok fs2) :
    ∃ data, fs2 = fs.put (registryPath E) data ∧ E.unmarshalInstalled data = .ok rows := by
  obtain ⟨data, hm, hu⟩ := hE rows
  unfold saveInstallRegistry at h
  rw [hm] at h
  refine ⟨data, ?_, hu⟩
  cases hw : fs.writeFile (registryPath E) data with
  | error err => simp [hw] at h
  | ok fs3 =>
    simp only [hw, Except.ok.injEq] at h
    subst h
    unfold FS.writeFile at hw
    rw [filepathClean_registryPath] at hw
    split at hw
    · cases hw
    · split at hw
      · cases hw
      · split at hw
        · cases hw
        · simp only [Except.ok.injEq] at hw
          exact hw.symm

theorem ledgerDistinct_of_listed (E : Env) (fs : FS) (rows : List InstalledAgent)
    (h : ListInstalled E fs = .ok rows) (hd : distinctIds rows) : ledgerDistinct E fs := by
  intro data rows2 hc hp
  rcases (ListInstalled_ok_cases E fs rows h).2.2 with ⟨-, hnone⟩ | ⟨data2, hc2, hp2⟩
  · rw [hnone] at hc; cases hc
  · rw [hc2] at hc
    simp only [Option.some.injEq] at hc
    subst hc
    rw [hp2] at hp
    simp only [Except.ok.injEq] at hp
    subst hp
    exact hd

theorem listed_distinct (E : Env) (fs : FS) (rows : List InstalledAgent)
    (hinv : ledgerDistinct E fs) (h : ListInstalled E fs = .ok rows) : distinctIds rows := by
  rcases (ListInstalled_ok_cases E fs rows h).2.2 with ⟨hnil, -⟩ | ⟨data, hc, hp⟩
  · rw [hnil]; exact List.nodup_nil
  · exact hinv data rows hc hp

theorem ledgerDistinct_put (E : Env) (fs : FS) (data : String) (rows : List InstalledAgent)
    (hp : E.unmarshalInstalled data = .ok rows) (hd : distinctIds rows) :
    ledgerDistinct E (fs.put (registryPath E) data) := by
  intro data2 rows2 hc hp2
  rw [FS.content_put, if_pos rfl] at hc
  simp only [Option.some.injEq] at hc
  subst hc
  rw [hp] at hp2
  simp only [Except.ok.injEq] at hp2
  subst hp2
  exact hd

theorem updateInstallRegistry_distinct (E : Env) (hE : E.RoundTrips) (w : World)
    (agentID agentPath : String) (hinv : ledgerDistinct E w.fs) :
    ledgerDistinct E (updateInstallRegistry E w agentID agentPath).2.fs := by
  unfold updateInstallRegistry
  cases hl : ListInstalled E w.fs with
  | error err => exact hinv
  | ok rows =>
    simp only [World.now]
    cases hs : saveInstallRegistry E w.fs (upsertRows rows agentID agentPath (w.clock w.ticks)) with
    | error err => exact hinv
    | ok fs2 =>
      obtain ⟨data, rfl, hp⟩ := saveInstallRegistry_cases E hE _ _ _ hs
      exact ledgerDistinct_put E w.fs data _ hp
        (upsertRows_distinct rows agentID agentPath _ (listed_distinct E w.fs rows hinv hl))

theorem removeRow_distinct (E : Env) (hE : E.RoundTrips) (w : World) (agentID : String)
    (hinv : ledgerDistinct E w.fs) : ledgerDistinct E (removeRow E w agentID).2.fs := by
  unfold removeRow
  cases hl : ListInstalled E w.fs with
  | error err => exact hinv
  | ok rows =>
    dsimp only
    cases hs : saveInstallRegistry E w.fs (rows.filter (fun agent => agent.ID ≠ agentID)) with
    | error err => exact hinv
    | ok fs2 =>
      obtain ⟨data, rfl, hp⟩ := saveInstallRegistry_cases E hE _ _ _ hs
      exact ledgerDistinct_put E w.fs data _ hp
        (filter_distinct rows agentID (listed_distinct E w.fs rows hinv hl))

/-- What `os.Remove` leaves: other files as they were, no new directory. -/
theorem FS.remove_spec (fs fs1 : FS) (path : String) (h : fs.remove path = .ok fs1) :
    (∀ q, q ≠ filepathClean path → fs1.content q = fs.content q) ∧
    (∀ q, fs1.content q = fs.content q ∨ fs1.content q = none) ∧
    (∀ d, d ∈ fs1.dirs → d ∈ fs.dirs) := by
  unfold FS.remove at h
  simp only at h
  have hfilter : ∀ q, q ≠ filepathClean path →
      List.lookup q (fs.files.filter (fun kv => kv.1 ≠ filepathClean path)) =
        List.lookup q fs.files := fun q hq => lookup_filter_ne fs.files _ q hq
  have hself : List.lookup (filepathClean path)
      (fs.files.filter (fun kv => kv.1 ≠ filepathClean path)) = none := by
    rw [List.lookup_eq_none_iff]
    intro kv hkv
    have := (List.mem_filter.mp hkv).2
    simp only [ne_eq, decide_not, Bool.not_eq_true', decide_eq_false_iff_not] at this
    simpa using fun h => this h.symm
  split at h
  · cases h
  · split at h
    · simp only [Except.ok.injEq] at h
      subst h
      refine ⟨fun q hq => hfilter q hq, ?_, fun d hd => hd⟩
      intro q
      by_cases hq : q = filepathClean path
      · right; rw [hq]; exact hself
      · left; exact hfilter q hq
    · split at h
      · split at h
        · cases h
        · simp only [Except.ok.injEq] at h
          subst h
          exact ⟨fun q _ => rfl, fun q => Or.inl rfl, fun d hd => (List.mem_filter.mp hd).1⟩
      · split at h <;> cases h

theorem Uninstall_distinct (E : Env) (hE : E.RoundTrips) (w : World) (agentID : String)
    (hinv : ledgerDistinct E w.fs) : ledgerDistinct E (Uninstall E w agentID).2.fs := by
  unfold Uninstall
  cases hr : w.fs.remove (GetInstallPath E agentID) with
  | error err =>
    obtain ⟨op, path, cause⟩ := err
    cases cause with
    | notExist => exact removeRow_distinct E hE w agentID hinv
    | other msg => exact hinv
  | ok fs1 =>
    apply removeRow_distinct E hE
    intro data rows hc hp
    rcases (FS.remove_spec w.fs fs1 _ hr).2.1 (registryPath E) with h | h
    · rw [h] at hc; exact hinv data rows hc hp
    · simp only at hc; rw [h] at hc; cases hc

theorem LedgerOp.run_distinct (E : Env) (hE : E.RoundTrips) (ops : List LedgerOp) (w : World)
    (hinv : ledgerDistinct E w.fs) : ledgerDistinct E (LedgerOp.run E w ops).fs := by
  induction ops generalizing w with
  | nil => exact hinv
  | cons op rest ih =>
    have hstep : ledgerDistinct E (LedgerOp.step E w op).fs := by
      cases op with
      | record agentID agentPath => exact updateInstallRegistry_distinct E hE w _ _ hinv
      | uninstall agentID => exact Uninstall_distinct E hE w _ hinv
    exact ih _ hstep

end LedgerStateLemmas

/-- C11. Distinct ids are kept by the two mutations of the ledger: the rows saved by
the upsert and by the removal have distinct ids when the rows read had; a ledger
listed with distinct ids is, after `updateInstallRegistry(id, path)` and after
`Uninstall(id)`, listed with distinct ids again; and starting with no ledger file,
after any finite sequence of the two operations the ledger is listed with distinct
ids. -/
theorem C11_distinct_ids_invariant (E : Env) (hE : E.RoundTrips) :
    (∀ rows agentID agentPath t, distinctIds rows →
      distinctIds (upsertRows rows agentID agentPath t) ∧
      distinctIds (rows.filter (fun agent => agent.ID ≠ agentID))) ∧
    (∀ (w : World) agentID agentPath rows, ListInstalled E w.fs = .ok rows →
      distinctIds rows →
      (∀ rows2, ListInstalled E (updateInstallRegistry E w agentID agentPath).2.fs = .ok rows2 →
        distinctIds rows2) ∧
      (∀ rows2, ListInstalled E (Uninstall E w agentID).2.fs = .ok rows2 →
        distinctIds rows2)) ∧
    (∀ (w : World) ops rows, w.fs.content (registryPath E) = none →
      ListInstalled E (LedgerOp.run E w ops).fs = .ok rows → distinctIds rows) := by
  refine ⟨?_, ?_, ?_⟩
  · intro rows agentID agentPath t h
    exact ⟨upsertRows_distinct rows agentID agentPath t h, filter_distinct rows agentID h⟩
  · intro w agentID agentPath rows hl hd
    have hinv := ledgerDistinct_of_listed E w.fs rows hl hd
    exact ⟨fun rows2 h2 => listed_distinct E _ rows2
        (updateInstallRegistry_distinct E hE w agentID agentPath hinv) h2,
      fun rows2 h2 => listed_distinct E _ rows2 (Uninstall_distinct E hE w agentID hinv) h2⟩
  · intro w ops rows hnone hl
    refine listed_distinct E _ rows (LedgerOp.run_distinct E hE ops w ?_) hl
    intro data rows2 hc
    rw [hnone] at hc; cases hc

set_option maxRecDepth 8000 in
/-- Witness of C11: on a machine with no ledger file, upserts of "x", "y" and "x"
again followed by the removal of "y" leave the single row of "x", with the path of
its second upsert. -/
theorem C11_distinct_ids_invariant_witness :
    (ListInstalled sampleEnv (LedgerOp.run sampleEnv readyWorld
      [.record "x" "/p", .record "y" "/q", .record "x" "/r", .uninstall "y"]).fs).toOption =
      some [⟨"x", "latest", 2, "/r"⟩] ∧
    distinctIds [(⟨"x", "latest", 2, "/r"⟩ : InstalledAgent)] :=
  ⟨by decide,
    (C11_distinct_ids_invariant sampleEnv sampleEnv_roundTrips).2.2 readyWorld
      [.record "x" "/p", .record "y" "/q", .record "x" "/r", .uninstall "y"] _ rfl (by rfl)⟩

/-! ## Corrupt ledger, removal and install failures -/

section CorruptLemmas

theorem ListInstalled_corrupt (E : Env) (fs : FS) (data : String)
    (h : corruptLedger E fs data) : ∃ err, ListInstalled E fs = .error err := by
  obtain ⟨hu, hd, hc, err, hp⟩ := h
  refine ⟨"failed to parse install registry: " ++ err, ?_⟩
  unfold ListInstalled FS.stat FS.readFile
  rw [filepathClean_registryPath]
  simp [hu, hd, hc, hp]

theorem corruptLedger_after_remove (E : Env) (fs fs1 : FS) (data agentID : String)
    (h : corruptLedger E fs data) (hr : fs.remove (GetInstallPath E agentID) = .ok fs1) :
    corruptLedger E fs1 data := by
  obtain ⟨hu, hd, hc, hp⟩ := h
  obtain ⟨hother, hany, hdirs⟩ := FS.remove_spec fs fs1 _ hr
  rw [filepathClean_GetInstallPath] at hother
  refine ⟨?_, ?_, ?_, hp⟩
  · unfold FS.underFile at hu ⊢
    rw [Bool.eq_false_iff] at hu ⊢
    intro hany1
    apply hu
    rw [List.any_eq_true] at hany1 ⊢
    obtain ⟨a, ha, hcond⟩ := hany1
    refine ⟨a, ha, ?_⟩
    simp only [ne_eq, decide_not, Bool.decide_and, Bool.decide_eq_true, Bool.and_eq_true,
      Bool.not_eq_true', decide_eq_false_iff_not] at hcond ⊢
    refine ⟨hcond.1, ?_⟩
    rcases hany a with h1 | h1
    · rw [← h1]; exact hcond.2
    · rw [h1] at hcond; simp at hcond
  · unfold FS.isDir at hd ⊢
    rw [Bool.eq_false_iff] at hd ⊢
    intro h1
    apply hd
    simp only [Bool.decide_or, Bool.decide_eq_true, Bool.or_eq_true, decide_eq_true_eq] at h1 ⊢
    rcases h1 with h1 | h1 | h1 | h1
    · exact Or.inl h1
    · exact Or.inr (Or.inl h1)
    · exact Or.inr (Or.inr (Or.inl h1))
    · exact Or.inr (Or.inr (Or.inr (hdirs _ h1)))
  · rw [hother _ (fun h => GetInstallPath_ne_registryPath E agentID h.symm)]
    exact hc

end CorruptLemmas

/-- C19. When the ledger file exists and its content does not parse, ListInstalled,
GetInstalled, updateInstallRegistry and Uninstall each return an error; the first
three leave the file system as it was, and after Uninstall the ledger file still
holds the same content. -/
theorem C19_corrupt_ledger_is_fatal (E : Env) (w : World) (data agentID agentPath : String)
    (hc : corruptLedger E w.fs data) :
    (∃ err, ListInstalled E w.fs = .error err) ∧
    (∃ err, GetInstalled E w.fs agentID = .error err) ∧
    (∃ err, (updateInstallRegistry E w agentID agentPath).1 = .error err) ∧
    (updateInstallRegistry E w agentID agentPath).2.fs = w.fs ∧
    (∃ err, (Uninstall E w agentID).1 = .error err) ∧
    (Uninstall E w agentID).2.fs.content (registryPath E) = some data := by
  obtain ⟨err, herr⟩ := ListInstalled_corrupt E w.fs data hc
  refine ⟨⟨err, herr⟩, ⟨err, by simp [GetInstalled, herr]⟩,
    ⟨err, by simp [updateInstallRegistry, herr]⟩, by simp [updateInstallRegistry, herr], ?_⟩
  unfold Uninstall
  cases hr : w.fs.remove (GetInstallPath E agentID) with
  | error e =>
    obtain ⟨op, path, cause⟩ := e
    cases cause with
    | notExist =>
      simp only [removeRow, herr]
      exact ⟨⟨err, rfl⟩, hc.2.2.1⟩
    | other msg => exact ⟨⟨_, rfl⟩, hc.2.2.1⟩
  | ok fs1 =>
    have hc1 := corruptLedger_after_remove E w.fs fs1 data agentID hc hr
    obtain ⟨err1, herr1⟩ := ListInstalled_corrupt E fs1 data hc1
    simp only [removeRow, herr1]
    exact ⟨⟨err1, rfl⟩, hc1.2.2.1⟩

/-- Witness of C19: a ledger file holding "not json"; the upsert and the removal of
"x" fail and the file still holds "not json" (the content file of "x" is removed by
Uninstall). -/
theorem C19_corrupt_ledger_is_fatal_witness :
    corruptLedger sampleEnv corruptWorld.fs "not json" ∧
    (updateInstallRegistry sampleEnv corruptWorld "x" "/p").1.toOption = none ∧
    (Uninstall sampleEnv corruptWorld "x").1.toOption = none ∧
    (Uninstall sampleEnv corruptWorld "x").2.fs.content (registryPath sampleEnv) =
      some "not json" ∧
    (Uninstall sampleEnv corruptWorld "x").2.fs.content "/home/u/.claude/agents/x.md" = none :=
  ⟨⟨by decide, by decide, by decide, "unexpected end of input", by rfl⟩, by decide, by decide,
    (C19_corrupt_ledger_is_fatal sampleEnv corruptWorld "not json" "x" "/p"
      ⟨by decide, by decide, by decide, "unexpected end of input", by rfl⟩).2.2.2.2.2,
    by decide⟩

/-- C12 (the code at the failing input). On a machine where nothing was installed
yet (the home directory exists, the install directory and the ledger file do not),
the ledger lists no row, and `Uninstall("x")` returns the error of the failed write of
the ledger file; once the install directory exists the same call returns no error
and the ledger still lists no row. -/
theorem C12_uninstall_fails_without_install_dir :
    (ListInstalled sampleEnv sampleWorld.fs).toOption = some [] ∧
    (Uninstall sampleEnv sampleWorld "x").1 =
      .error ("failed to write install registry: " ++
        "open /home/u/.claude/agents/.registry.json: no such file or directory") ∧
    (Uninstall sampleEnv readyWorld "x").1 = .ok () ∧
    (ListInstalled sampleEnv (Uninstall sampleEnv readyWorld "x").2.fs).toOption = some [] := by
  refine ⟨by decide, by rfl, by rfl, by decide⟩

/-- C14 (the code at the failing input). On a machine where the install directory can
be created, `Install("author/name", ..)` creates the install directory but not its
subdirectory "author": the write of the content file fails and no file is left at the
install path; the same call for the bare id "name" succeeds. -/
theorem C14_install_misses_id_directory :
    GetInstallPath sampleEnv "author/name" = "/home/u/.claude/agents/author/name.md" ∧
    (Install sampleEnv sampleWorld "author/name" "# content").1 =
      .error ("failed to write agent file: " ++
        "open /home/u/.claude/agents/author/name.md: no such file or directory") ∧
    (Install sampleEnv sampleWorld "author/name" "# content").2.fs.dirs =
      ["/home/u/.claude/agents", "/home/u/.claude", "/home/u", "/home"] ∧
    (Install sampleEnv sampleWorld "author/name" "# content").2.fs.content
      "/home/u/.claude/agents/author/name.md" = none ∧
    (Install sampleEnv sampleWorld "name" "# content").1 = .ok () ∧
    (Install sampleEnv sampleWorld "name" "# content").2.fs.content
      "/home/u/.claude/agents/name.md" = some "# content" := by
  refine ⟨by decide, by rfl, by decide, by decide, by rfl, by decide⟩

/-! ## Install path -/

section InstallLemmas

theorem cleanElems_no_dotdot (r : Bool) (ys stack : List String) (h : ∀ e ∈ ys, e ≠ "..") :
    cleanElems r stack ys =
      stack.reverse ++ ys.filter keepElem := by
  induction ys generalizing stack with
  | nil => simp [cleanElems]
  | cons e es ih =>
    have he : e ≠ ".." := h e (by simp)
    have hes : ∀ x ∈ es, x ≠ ".." := fun x hx => h x (List.mem_cons_of_mem _ hx)
    by_cases h1 : e = "" ∨ e = "."
    · have hk : ¬ (keepElem e = true) := by
        rcases h1 with h | h <;> simp [keepElem, h]
      simp only [cleanElems, h1, if_true]
      rw [ih stack hes, List.filter_cons_of_neg hk]
    · have hk : keepElem e = true := by
        have h2 : e ≠ "" := fun h => h1 (Or.inl h)
        have h3 : e ≠ "." := fun h => h1 (Or.inr h)
        simp [keepElem, h2, h3]
      simp only [cleanElems, h1, he, if_false]
      rw [ih (e :: stack) hes, List.filter_cons_of_pos hk]
      simp

/-- The install path of an id without ".." element lies inside the install
directory. -/
theorem isProperAncestor_GetInstallPath (E : Env) (agentID : String)
    (hdir : E.installDir ≠ "") (hid : ".." ∉ pathElems agentID) :
    isProperAncestor E.installDir (GetInstallPath E agentID) = true := by
  obtain ⟨init, last, h1, h2, hname⟩ := pathElems_append_md agentID
  have hinit : ∀ e ∈ init, e ≠ ".." := by
    intro e he heq
    apply hid
    rw [h1, ← heq]
    exact List.mem_append_left _ he
  obtain ⟨hroot, hnorm⟩ :=
    (normElems_filepathJoin E.installDir (agentID ++ ".md") (append_md_ne_empty agentID)).1 hdir
  have hall : ∀ e ∈ init ++ [last ++ ".md"], e ≠ ".." := by
    intro e he
    rcases List.mem_append.mp he with he | he
    · exact hinit e he
    · simp only [List.mem_singleton] at he
      rw [he]; exact hname.2.2.1
  have hkeep : keepElem (last ++ ".md") = true := by
    simp [keepElem, hname.1, hname.2.1]
  have hnorm2 : normElems (GetInstallPath E agentID) =
      normElems E.installDir ++
        (init.filter keepElem ++ [last ++ ".md"]) := by
    unfold GetInstallPath
    rw [hnorm, h2, cleanElems_no_dotdot _ _ _ hall, List.reverse_reverse, List.filter_append]
    congr 2
    rw [List.filter_cons_of_pos hkeep, List.filter_nil]
  have hroot2 : isRooted (GetInstallPath E agentID) = isRooted E.installDir := hroot
  unfold isProperAncestor
  rw [hroot2, hnorm2]
  simp only [beq_self_eq_true, Bool.true_and, List.isPrefixOf_iff_prefix, List.prefix_append,
    List.length_append, List.length_cons, List.length_nil, List.drop_left, Bool.and_eq_true,
    decide_eq_true_eq, Bool.not_eq_true', true_and]
  refine ⟨by omega, ?_⟩
  rw [List.contains_eq_any_beq, List.any_eq_false]
  intro x hx
  have hx2 : x ≠ ".." := by
    rcases List.mem_append.mp hx with hx | hx
    · exact hinit x (List.mem_filter.mp hx).1
    · simp only [List.mem_singleton] at hx
      rw [hx]; exact hname.2.2.1
  simpa using fun h => hx2 h.symm

theorem upsertRows_has_row (rows : List InstalledAgent) (agentID agentPath : String)
    (t : Int) :
    ∃ row, row ∈ upsertRows rows agentID agentPath t ∧ row.ID = agentID ∧
      row.Path = agentPath := by
  by_cases hx : rows.filter (fun a => a.ID = agentID) = []
  · rw [(upsertRows_keys rows agentID agentPath t).2 hx]
    exact ⟨⟨agentID, "latest", t, agentPath⟩, by simp, rfl, rfl⟩
  · obtain ⟨rows2, r, hup, -, hp, hid, hf⟩ := updateExisting_some agentID agentPath t rows hx
    refine ⟨r, ?_, hid, hp⟩
    simp only [upsertRows, hup]
    have : r ∈ rows2.filter (fun a => a.ID = agentID) := by rw [hf]; simp
    exact (List.mem_filter.mp this).1

theorem FS.writeFile_ok (fs fs2 : FS) (path data : String)
    (h : fs.writeFile path data = .ok fs2) :
    fs.writable path ∧ fs2 = fs.put (filepathClean path) data := by
  unfold FS.writeFile at h
  unfold FS.writable
  cases hu : fs.underFile path with
  | true => simp [hu] at h
  | false =>
    cases hd : fs.isDir (filepathClean path) with
    | true => simp [hu, hd] at h
    | false =>
      cases hp : fs.isDir (filepathDir path) with
      | false => simp [hu, hd, hp] at h
      | true =>
        simp only [hu, hd, hp, Bool.false_eq_true, if_false, Bool.true_eq_false,
          Except.ok.injEq] at h
        exact ⟨⟨rfl, rfl, rfl⟩, h.symm⟩

/-- After a successful save the ledger lists the rows saved. -/
theorem ListInstalled_after_save (E : Env) (hE : E.RoundTrips) (fs fs2 : FS)
    (rows : List InstalledAgent) (h : saveInstallRegistry E fs rows = .ok fs2) :
    ListInstalled E fs2 = .ok rows := by
  obtain ⟨data, hm, hu⟩ := hE rows
  unfold saveInstallRegistry at h
  rw [hm] at h
  cases hw : fs.writeFile (registryPath E) data with
  | error err => simp [hw] at h
  | ok fs3 =>
    simp only [hw, Except.ok.injEq] at h
    subst h
    obtain ⟨hwr, rfl⟩ := FS.writeFile_ok fs fs3 _ _ hw
    exact ListInstalled_after_write E fs rows data hu hwr

/-- A successful Install leaves the content at the install path of the id and a
ledger row of the id that records this path. -/
theorem Install_ok_spec (E : Env) (hE : E.RoundTrips) (w w2 : World)
    (agentID content : String) (h : Install E w agentID content = (.ok (), w2)) :
    w2.fs.content (GetInstallPath E agentID) = some content ∧
    ∃ rows row, ListInstalled E w2.fs = .ok rows ∧ row ∈ rows ∧ row.ID = agentID ∧
      row.Path = GetInstallPath E agentID := by
  unfold Install at h
  cases hmk : w.fs.mkdirAll E.installDir with
  | error err => simp [hmk] at h
  | ok fs1 =>
    simp only [hmk] at h
    cases hwf : fs1.writeFile (filepathJoin [E.installDir, agentID ++ ".md"]) content with
    | error err => simp [hwf] at h
    | ok fs2 =>
      simp only [hwf] at h
      obtain ⟨-, hfs2⟩ := FS.writeFile_ok fs1 fs2 _ _ hwf
      have hclean := filepathClean_GetInstallPath E agentID
      unfold GetInstallPath at hclean
      rw [hclean] at hfs2
      unfold updateInstallRegistry at h
      cases hl : ListInstalled E fs2 with
      | error err => simp [hl] at h
      | ok rows =>
        simp only [hl, World.now] at h
        cases hs : saveInstallRegistry E fs2
            (upsertRows rows agentID (filepathJoin [E.installDir, agentID ++ ".md"])
              (w.clock w.ticks)) with
        | error err => simp [hs] at h
        | ok fs3 =>
          simp only [hs, Prod.mk.injEq, true_and] at h
          subst h
          obtain ⟨data, hfs3, -⟩ := saveInstallRegistry_cases E hE _ _ _ hs
          have hlist := ListInstalled_after_save E hE _ _ _ hs
          constructor
          · show fs3.content (GetInstallPath E agentID) = some content
            rw [hfs3, FS.content_put, if_neg (GetInstallPath_ne_registryPath E agentID), hfs2,
              FS.content_put]
            simp [GetInstallPath]
          · obtain ⟨row, hmem, hid, hpath⟩ := upsertRows_has_row rows agentID
              (filepathJoin [E.installDir, agentID ++ ".md"]) (w.clock w.ticks)
            exact ⟨_, row, hlist, hmem, hid, hpath⟩

end InstallLemmas

/-- C15 (the code at the failing input). The id "../../evil": its install path is
"/home/u/evil.md", which does not lie inside the install directory
"/home/u/.claude/agents"; no file is there before, Install succeeds, writes the
content there, outside the directory its comment names ("installs an agent to the
Claude Code directory"), and records that path in the ledger. The same call for the
bare id "name" writes inside the install directory. -/
theorem C15_dotdot_escapes_install_dir :
    GetInstallPath sampleEnv "../../evil" = "/home/u/evil.md" ∧
    isProperAncestor sampleEnv.installDir (GetInstallPath sampleEnv "../../evil") = false ∧
    sampleWorld.fs.content "/home/u/evil.md" = none ∧
    isProperAncestor sampleEnv.installDir (GetInstallPath sampleEnv "name") = true ∧
    (Install sampleEnv sampleWorld "../../evil" "# c").1.toOption = some () ∧
    (Install sampleEnv sampleWorld "../../evil" "# c").2.fs.content "/home/u/evil.md" =
      some "# c" ∧
    (ListInstalled sampleEnv (Install sampleEnv sampleWorld "../../evil" "# c").2.fs).toOption =
      some [⟨"../../evil", "latest", 0, "/home/u/evil.md"⟩] := by
  refine ⟨by decide, by decide, by decide, by decide, by decide, by decide, by decide⟩

/-- The install path of an id is the cleaned join of the install directory and
`id + ".md"`, a function of these two alone; a successful Install leaves the content
at that path and a ledger row of the id recording that path; and when the install
directory is not the empty string and the id has no ".." element, the install
directory is a proper ancestor of the install path. -/
theorem Install_path_inside (E : Env) (hE : E.RoundTrips) (w : World)
    (agentID content : String) :
    GetInstallPath E agentID = filepathJoin [E.installDir, agentID ++ ".md"] ∧
    (∀ w2, Install E w agentID content = (.ok (), w2) →
      w2.fs.content (GetInstallPath E agentID) = some content ∧
      ∃ rows row, ListInstalled E w2.fs = .ok rows ∧ row ∈ rows ∧ row.ID = agentID ∧
        row.Path = GetInstallPath E agentID) ∧
    (E.installDir ≠ "" → ".." ∉ pathElems agentID →
      isProperAncestor E.installDir (GetInstallPath E agentID) = true) :=
  ⟨rfl, fun w2 h => Install_ok_spec E hE w w2 agentID content h,
    isProperAncestor_GetInstallPath E agentID⟩

set_option maxRecDepth 8000 in
/-- The bare id "name": its install path lies inside the install directory and holds
the content after Install. -/
theorem Install_path_inside_sample :
    isProperAncestor sampleEnv.installDir (GetInstallPath sampleEnv "name") = true ∧
    (Install sampleEnv sampleWorld "name" "# c").2.fs.content
      (GetInstallPath sampleEnv "name") = some "# c" :=
  ⟨(Install_path_inside sampleEnv sampleEnv_roundTrips sampleWorld "name" "# c").2.2
      (by decide) (by decide),
    ((Install_path_inside sampleEnv sampleEnv_roundTrips sampleWorld "name" "# c").2.1
      (Install sampleEnv sampleWorld "name" "# c").2 (by rfl)).1⟩

/-! ## Ancestors of the ledger path -/

section AncestorLemmas

theorem joinSlash_append (xs ys : List (List Char)) (hx : xs ≠ []) (hy : ys ≠ []) :
    joinSlash (xs ++ ys) = joinSlash xs ++ '/' :: joinSlash ys := by
  induction xs with
  | nil => exact absurd rfl hx
  | cons x rest ih =>
    cases rest with
    | nil =>
      cases ys with
      | nil => exact absurd rfl hy
      | cons y ys2 => rfl
    | cons x2 rest2 =>
      have h2 := ih (by simp)
      show x ++ '/' :: joinSlash (x2 :: rest2 ++ ys) = _
      rw [h2]
      show _ = (x ++ '/' :: joinSlash (x2 :: rest2)) ++ '/' :: joinSlash ys
      simp

theorem joinSlash_length_lt (xs ys : List (List Char)) (hx : xs ≠ []) (hy : ys ≠ []) :
    (joinSlash xs).length < (joinSlash (xs ++ ys)).length := by
  rw [joinSlash_append xs ys hx hy]
  simp

/-- The text of an ancestor: the root mark and the joined elements. -/
theorem ancestorText_length_lt (pre : String) (q rest : List String) (hq : q ≠ [])
    (hr : rest ≠ []) :
    (pre ++ "/".intercalate q).length < (pre ++ "/".intercalate (q ++ rest)).length := by
  have h1 : ("/".intercalate q).length = (joinSlash (q.map String.data)).length := by
    rw [← intercalate_slash_data]; rfl
  have h2 : ("/".intercalate (q ++ rest)).length =
      (joinSlash ((q ++ rest).map String.data)).length := by
    rw [← intercalate_slash_data]; rfl
  simp only [String.length_append, h1, h2, List.map_append]
  have := joinSlash_length_lt (q.map String.data) (rest.map String.data) (by simpa using hq)
    (by simpa using hr)
  omega

theorem pathAncestors_eq (p : String) :
    pathAncestors p = ((normElems p).inits.filter (fun q => q ≠ [])).map
      (fun q => (if isRooted p then "/" else "") ++ "/".intercalate q) := rfl

theorem renderPath_of_ne_nil (r : Bool) (es : List String) (h : IsClean r es) (hne : es ≠ []) :
    renderPath r es = (if r then "/" else "") ++ "/".intercalate es := by
  cases r with
  | true => simp [renderPath]
  | false =>
    have hrt := (render_roundtrip false es h).2
    have hne2 : "/".intercalate es ≠ "" := by
      intro h0
      have : renderPath false es = "." := by simp [renderPath, h0]
      rw [this] at hrt
      have hdot : normElems "." = [] := by decide
      rw [hdot] at hrt
      exact hne hrt.symm
    simp [renderPath, hne2]

/-- The ancestors of the ledger path: those of the install directory, then the ledger
path itself. -/
theorem pathAncestors_registryPath (E : Env) :
    pathAncestors (registryPath E) = pathAncestors E.installDir ++ [registryPath E] := by
  obtain ⟨hn, hr⟩ := normElems_registryPath E
  have hclean : IsClean (isRooted E.installDir) (normElems E.installDir ++ [".registry.json"]) := by
    have := normElems_isClean (registryPath E)
    rwa [hn, hr] at this
  have hreg : registryPath E = (if isRooted E.installDir then "/" else "") ++
      "/".intercalate (normElems E.installDir ++ [".registry.json"]) := by
    rw [← renderPath_of_ne_nil _ _ hclean (by simp), ← filepathClean_registryPath,
      filepathClean_eq_render, hn, hr]
  rw [pathAncestors_eq, pathAncestors_eq, hn, hr, List.inits_append]
  have h1 : ([".registry.json"] : List String).inits.tail = [[".registry.json"]] := rfl
  rw [h1, List.filter_append, List.map_append]
  congr 1
  have h2 : (List.map (fun l => normElems E.installDir ++ l) [[".registry.json"]]) =
      [normElems E.installDir ++ [".registry.json"]] := rfl
  rw [h2, List.filter_cons_of_pos (by simp)]
  simp only [List.filter_nil, List.map_cons, List.map_nil]
  rw [← hreg]

theorem registryPath_not_mem_ancestors (E : Env) :
    registryPath E ∉ pathAncestors E.installDir := by
  obtain ⟨hn, hr⟩ := normElems_registryPath E
  have hclean : IsClean (isRooted E.installDir) (normElems E.installDir ++ [".registry.json"]) := by
    have := normElems_isClean (registryPath E)
    rwa [hn, hr] at this
  have hreg : registryPath E = (if isRooted E.installDir then "/" else "") ++
      "/".intercalate (normElems E.installDir ++ [".registry.json"]) := by
    rw [← renderPath_of_ne_nil _ _ hclean (by simp), ← filepathClean_registryPath,
      filepathClean_eq_render, hn, hr]
  intro hmem
  rw [pathAncestors_eq] at hmem
  obtain ⟨q, hq, heq⟩ := List.mem_map.mp hmem
  obtain ⟨hq1, hq2⟩ := List.mem_filter.mp hq
  have hqne : q ≠ [] := by simpa using hq2
  obtain ⟨rest, hrest⟩ := (List.mem_inits q _).mp hq1
  have hlt := ancestorText_length_lt (if isRooted E.installDir then "/" else "") q
    (rest ++ [".registry.json"]) hqne (by simp)
  rw [← List.append_assoc, hrest, ← hreg] at hlt
  rw [heq] at hlt
  exact absurd hlt (lt_irrefl _)

end AncestorLemmas
/-! ## The ledger under the other steps of Install -/

section LedgerFrame

theorem FS.mkdir_spec (fs fs1 : FS) (d : String) (h : fs.mkdir d = .ok fs1) :
    fs1.files = fs.files ∧ (∀ x ∈ fs.dirs, x ∈ fs1.dirs) ∧
    (∀ x ∈ fs1.dirs, x ∈ fs.dirs ∨ x = d) ∧ fs1.isDir d = true := by
  unfold FS.mkdir at h
  by_cases h1 : fs.isDir d = true
  · rw [if_pos h1] at h
    cases h
    exact ⟨rfl, fun _ hx => hx, fun _ hx => Or.inl hx, h1⟩
  · rw [if_neg h1] at h
    by_cases h2 : (fs.content d).isSome = true
    · rw [if_pos h2] at h
      cases h
    · rw [if_neg h2] at h
      cases h
      refine ⟨rfl, fun x hx => List.mem_cons_of_mem _ hx, fun x hx => ?_, ?_⟩
      · rcases List.mem_cons.mp hx with hx | hx
        · exact Or.inr hx
        · exact Or.inl hx
      · simp [FS.isDir]

theorem FS.isDir_iff (fs : FS) (a : String) :
    fs.isDir a = true ↔
      (a = "/" ∨ a = "." ∨ (pathElems a).all (fun e => e = "..") = true) ∨ a ∈ fs.dirs := by
  simp only [FS.isDir, Bool.decide_or, Bool.or_eq_true, decide_eq_true_eq]
  tauto

theorem FS.isDir_mono (fs fs1 : FS) (hsub : ∀ x ∈ fs.dirs, x ∈ fs1.dirs) (a : String)
    (h : fs.isDir a = true) : fs1.isDir a = true := by
  rw [FS.isDir_iff] at h ⊢
  rcases h with h | h
  · exact Or.inl h
  · exact Or.inr (hsub a h)

theorem FS.foldlM_mkdir_spec (l : List String) (fs fs1 : FS)
    (h : l.foldlM FS.mkdir fs = .ok fs1) :
    fs1.files = fs.files ∧ (∀ x ∈ fs.dirs, x ∈ fs1.dirs) ∧
    (∀ x ∈ fs1.dirs, x ∈ fs.dirs ∨ x ∈ l) ∧ ∀ a ∈ l, fs1.isDir a = true := by
  induction l generalizing fs with
  | nil =>
    cases h
    exact ⟨rfl, fun _ hx => hx, fun _ hx => Or.inl hx, fun _ ha => by cases ha⟩
  | cons d rest ih =>
    rw [List.foldlM_cons] at h
    cases hstep : fs.mkdir d with
    | error err =>
      rw [hstep] at h
      cases h
    | ok fsm =>
      rw [hstep] at h
      obtain ⟨m1, m2, m3, m4⟩ := FS.mkdir_spec fs fsm d hstep
      obtain ⟨i1, i2, i3, i4⟩ := ih fsm h
      refine ⟨i1.trans m1, fun x hx => i2 x (m2 x hx), fun x hx => ?_, fun a ha => ?_⟩
      · rcases i3 x hx with hx | hx
        · rcases m3 x hx with hx | hx
          · exact Or.inl hx
          · exact Or.inr (hx ▸ List.mem_cons_self _ _)
        · exact Or.inr (List.mem_cons_of_mem _ hx)
      · rcases List.mem_cons.mp ha with ha | ha
        · rw [ha]
          exact FS.isDir_mono fsm fs1 i2 d m4
        · exact i4 a ha

/-- What a successful `os.MkdirAll` does: the files stay, directories are only
added, each added one is the path or an ancestor, and all of these are directories
afterwards. -/
theorem FS.mkdirAll_spec (fs fs1 : FS) (path : String) (h : fs.mkdirAll path = .ok fs1) :
    fs1.files = fs.files ∧ (∀ x ∈ fs.dirs, x ∈ fs1.dirs) ∧
    (∀ x ∈ fs1.dirs, x ∈ fs.dirs ∨ x ∈ pathAncestors path) ∧
    ∀ a ∈ pathAncestors path, fs1.isDir a = true :=
  FS.foldlM_mkdir_spec (pathAncestors path) fs fs1 h

/-- The ledger reads the same in two states that agree on the ledger path: on its
being a directory, and on the regular files at it and at its ancestors. -/
theorem ListInstalled_congr (E : Env) (fs fs2 : FS)
    (hc : ∀ q ∈ pathAncestors (registryPath E), fs2.content q = fs.content q)
    (hd : fs2.isDir (registryPath E) = fs.isDir (registryPath E)) :
    ListInstalled E fs2 = ListInstalled E fs := by
  have hreg : fs2.content (registryPath E) = fs.content (registryPath E) :=
    hc _ (by rw [pathAncestors_registryPath]; simp)
  have hu : fs2.underFile (registryPath E) = fs.underFile (registryPath E) := by
    unfold FS.underFile
    rw [Bool.eq_iff_iff]
    simp only [List.any_eq_true]
    constructor
    · rintro ⟨a, ha, hp⟩
      exact ⟨a, ha, by rwa [hc a ha] at hp⟩
    · rintro ⟨a, ha, hp⟩
      exact ⟨a, ha, by rwa [hc a ha]⟩
  unfold ListInstalled FS.stat FS.readFile
  rw [hu, filepathClean_registryPath, hd, hreg]

theorem ListInstalled_mkdirAll (E : Env) (fs fs1 : FS)
    (h : fs.mkdirAll E.installDir = .ok fs1) :
    ListInstalled E fs1 = ListInstalled E fs := by
  obtain ⟨h1, h2, h3, _⟩ := FS.mkdirAll_spec fs fs1 _ h
  apply ListInstalled_congr
  · intro q _
    unfold FS.content
    rw [h1]
  · cases hb : fs.isDir (registryPath E) with
    | true => exact FS.isDir_mono fs fs1 h2 _ hb
    | false =>
      cases hb1 : fs1.isDir (registryPath E) with
      | false => rfl
      | true =>
        exfalso
        have hnot : ¬ fs.isDir (registryPath E) = true := by simp [hb]
        rw [FS.isDir_iff] at hnot hb1
        rcases hb1 with hb1 | hb1
        · exact hnot (Or.inl hb1)
        · rcases h3 _ hb1 with hx | hx
          · exact hnot (Or.inr hx)
          · exact registryPath_not_mem_ancestors E hx

/-- Writing the agent file after the install directory was made leaves the ledger
as it was. -/
theorem ListInstalled_agent_write (E : Env) (fs : FS) (agentID content : String)
    (hdirs : ∀ a ∈ pathAncestors E.installDir, fs.isDir a = true)
    (hw : fs.writable (GetInstallPath E agentID)) :
    ListInstalled E (fs.put (filepathClean (GetInstallPath E agentID)) content) =
      ListInstalled E fs := by
  rw [filepathClean_GetInstallPath]
  apply ListInstalled_congr
  · intro q hq
    rw [FS.content_put, if_neg]
    rw [pathAncestors_registryPath] at hq
    rcases List.mem_append.mp hq with hq | hq
    · intro heq
      have := hdirs q hq
      rw [heq, ← filepathClean_GetInstallPath] at this
      rw [hw.2.1] at this
      cases this
    · intro heq
      have hq2 : q = registryPath E := by simpa using hq
      exact GetInstallPath_ne_registryPath E agentID (heq.symm.trans hq2)
  · rfl

/-- The ledger after `Install`, whatever its outcome: the rows as they were, or the
upsert of the id on them. -/
theorem Install_ledger (E : Env) (hE : E.RoundTrips) (w : World) (agentID content : String)
    (rows : List InstalledAgent) (hl : ListInstalled E w.fs = .ok rows) :
    (Install E w agentID content).2.transport = w.transport ∧
    ∃ rows2, ListInstalled E (Install E w agentID content).2.fs = .ok rows2 ∧
      (rows2 = rows ∨
        ∃ t, rows2 = upsertRows rows agentID (GetInstallPath E agentID) t) := by
  unfold Install
  cases h1 : w.fs.mkdirAll E.installDir with
  | error err => exact ⟨rfl, rows, hl, Or.inl rfl⟩
  | ok fs1 =>
    have hl1 : ListInstalled E fs1 = .ok rows := by
      rw [ListInstalled_mkdirAll E w.fs fs1 h1, hl]
    have hdirs := (FS.mkdirAll_spec w.fs fs1 _ h1).2.2.2
    dsimp only
    cases h2 : fs1.writeFile (filepathJoin [E.installDir, agentID ++ ".md"]) content with
    | error err => exact ⟨rfl, rows, hl1, Or.inl rfl⟩
    | ok fs2 =>
      obtain ⟨hw, hfs2⟩ := FS.writeFile_ok fs1 fs2 _ _ h2
      have hl2 : ListInstalled E fs2 = .ok rows := by
        rw [hfs2]
        exact (ListInstalled_agent_write E fs1 agentID content hdirs hw).trans hl1
      dsimp only
      unfold updateInstallRegistry
      dsimp only
      rw [hl2]
      dsimp only [World.now]
      cases h3 : saveInstallRegistry E fs2
          (upsertRows rows agentID (filepathJoin [E.installDir, agentID ++ ".md"])
            (w.clock w.ticks)) with
      | error err => exact ⟨rfl, rows, hl2, Or.inl rfl⟩
      | ok fs3 =>
        exact ⟨rfl, _, ListInstalled_after_save E hE fs2 fs3 _ h3, Or.inr ⟨_, rfl⟩⟩

end LedgerFrame
/-! ## The update and the check after it -/

section UpdateLemmas

theorem string_append_left_cancel (s a b : String) (h : s ++ a = s ++ b) : a = b := by
  have h2 := congrArg String.data h
  rw [String.data_append, String.data_append] at h2
  exact String.ext (List.append_cancel_left h2)

/-- What a cache lookup does to the state: the transport and the files stay, no entry
appears, and a value returned is the value of the entry of the key. -/
theorem World.cacheGet_spec (w : World) (key : String) :
    (w.cacheGet key).2.transport = w.transport ∧
    (∀ k item, (w.cacheGet key).2.cache.items k = some item → w.cache.items k = some item) ∧
    (∀ v, (w.cacheGet key).1 = some v →
      ∃ item, w.cache.items key = some item ∧ item.Value = some v) := by
  unfold World.cacheGet
  cases hk : w.cache.items key with
  | none =>
    refine ⟨rfl, fun k item h => h, fun v h => ?_⟩
    cases h
  | some item =>
    simp only [World.now]
    by_cases hexp : item.ExpiresAt < w.clock w.ticks
    · rw [Cache.Get_expired w.cache key _ item hk hexp]
      refine ⟨by trivial, fun k it h => ?_, fun v h => by cases h⟩
      simp only [Cache.erase] at h
      by_cases hkk : k = key
      · rw [if_pos hkk] at h
        cases h
      · rw [if_neg hkk] at h
        exact h
    · rw [Cache.Get_live w.cache key _ item hk (not_lt.mp hexp)]
      exact ⟨by trivial, fun k it h => h, fun v h => ⟨item, rfl, h⟩⟩

theorem DownloadAgent_effects (E : Env) (w : World) (agentID version : String) :
    (DownloadAgent E w agentID version).2.fs = w.fs ∧
    (DownloadAgent E w agentID version).2.transport = w.transport := by
  unfold DownloadAgent
  simp only [World.httpGet]
  split
  · exact ⟨rfl, rfl⟩
  · split
    · exact ⟨rfl, rfl⟩
    · split <;> exact ⟨rfl, rfl⟩

/-- A metadata fetch against a remote that keeps serving `latest` for the item
`target`, from a cache that holds nothing else for it: the remote and the cache stay
so, and a fetch for `target` returns metadata with that latest version. -/
theorem GetAgentMetadata_static (E : Env) (w : World) (agentID target latest : String)
    (hs : ServesLatest E w target latest) (hc : CachedLatest w target latest) :
    (GetAgentMetadata E w agentID).2.transport = w.transport ∧
    CachedLatest (GetAgentMetadata E w agentID).2 target latest ∧
    (agentID = target →
      ∃ m, (GetAgentMetadata E w agentID).1 = .ok m ∧ m.Latest = latest) := by
  obtain ⟨c1, c3, c4⟩ := World.cacheGet_spec w ("metadata_" ++ agentID)
  have hinv1 : CachedLatest (w.cacheGet ("metadata_" ++ agentID)).2 target latest :=
    fun item m hi hv => hc item m (c3 _ item hi) hv
  unfold GetAgentMetadata
  simp only []
  split
  · rename_i metadata heq
    refine ⟨c1, hinv1, fun hid => ⟨metadata, rfl, ?_⟩⟩
    obtain ⟨item, hi, hv⟩ := c4 _ heq
    rw [hid] at hi
    exact hc item metadata hi hv
  · simp only [World.httpGet]
    by_cases hid : agentID = target
    · obtain ⟨resp, body, m, ht, h200, hb, hu, hL⟩ :=
        hs (w.cacheGet ("metadata_" ++ agentID)).2.requests.length
      rw [← c1, ← hid] at ht
      rw [ht]
      simp only [h200, hb, hu, ne_eq, not_true_eq_false, if_false]
      refine ⟨c1, ?_, fun _ => ⟨m, rfl, hL⟩⟩
      intro item m2 hi hv
      simp only [World.cacheSet, World.now, Cache.Set, hid, if_true] at hi
      cases hi
      simp only [Option.some.injEq, CacheValue.metadata.injEq] at hv
      rw [← hv]
      exact hL
    · have hkey : "metadata_" ++ target ≠ "metadata_" ++ agentID := fun h =>
        hid (string_append_left_cancel _ _ _ h).symm
      split
      · exact ⟨c1, hinv1, fun h => absurd h hid⟩
      · split
        · exact ⟨c1, hinv1, fun h => absurd h hid⟩
        · split
          · exact ⟨c1, hinv1, fun h => absurd h hid⟩
          · split
            · exact ⟨c1, hinv1, fun h => absurd h hid⟩
            · refine ⟨c1, ?_, fun h => absurd h hid⟩
              intro item m2 hi hv
              simp only [World.cacheSet, World.now, Cache.Set, if_neg hkey] at hi
              exact hinv1 item m2 hi hv

/-- The fetches of an update check against a remote that keeps serving `latest` for
the item `target`: the fetch made for a record of that item returns metadata with
that latest version. -/
theorem fetchResults_static (E : Env) (target latest : String)
    (installed : List InstalledAgent) (w : World)
    (hs : ServesLatest E w target latest) (hc : CachedLatest w target latest)
    (a : InstalledAgent) (ha : a ∈ installed) (hid : a.ID = target) :
    ∃ m, (a, Except.ok m) ∈ fetchResults (GetAgentMetadata E) w installed ∧
      m.Latest = latest := by
  induction installed generalizing w with
  | nil => cases ha
  | cons b rest ih =>
    obtain ⟨g1, g2, g3⟩ := GetAgentMetadata_static E w b.ID target latest hs hc
    unfold fetchResults
    rcases List.mem_cons.mp ha with hab | hrest
    · obtain ⟨m, hm, hL⟩ := g3 (hab ▸ hid)
      refine ⟨m, ?_, hL⟩
      rw [← hm, hab]
      exact List.mem_cons_self _ _
    · have hs2 : ServesLatest E (GetAgentMetadata E w b.ID).2 target latest := by
        unfold ServesLatest
        rw [g1]
        exact hs
      obtain ⟨m, hm, hL⟩ := ih _ hs2 g2 hrest
      exact ⟨m, List.mem_cons_of_mem _ hm, hL⟩

theorem GetAgentMetadata_transport (E : Env) (w : World) (agentID : String) :
    (GetAgentMetadata E w agentID).2.transport = w.transport := by
  have c1 := (World.cacheGet_spec w ("metadata_" ++ agentID)).1
  unfold GetAgentMetadata
  simp only []
  split
  · exact c1
  · simp only [World.httpGet]
    split
    · exact c1
    · split
      · exact c1
      · split
        · exact c1
        · split <;> exact c1

/-- The first row of the id, when there is one, is the row the upsert rewrites: it
gets the new instant and path and keeps its id and version; the other rows stay. -/
theorem updateExisting_split (agentID agentPath : String) (t : Int)
    (rows : List InstalledAgent) (h : rows.filter (fun a => a.ID = agentID) ≠ []) :
    ∃ pre r post, rows = pre ++ r :: post ∧ r.ID = agentID ∧
      (∀ a ∈ pre, a.ID ≠ agentID) ∧
      updateExisting agentID agentPath t rows =
        some (pre ++ ⟨r.ID, r.Version, t, agentPath⟩ :: post) := by
  induction rows with
  | nil => exact absurd rfl h
  | cons a rest ih =>
    by_cases ha : a.ID = agentID
    · refine ⟨[], a, rest, rfl, ha, (fun _ hx => by cases hx), ?_⟩
      simp [updateExisting, ha]
    · have hrest : rest.filter (fun a => a.ID = agentID) ≠ [] := by
        rw [List.filter_cons_of_neg (by simpa using ha)] at h
        exact h
      obtain ⟨pre, r, post, h1, h2, h3, h4⟩ := ih hrest
      refine ⟨a :: pre, r, post, by rw [h1]; rfl, h2, ?_, ?_⟩
      · intro x hx
        rcases List.mem_cons.mp hx with hx | hx
        · rw [hx]; exact ha
        · exact h3 x hx
      · simp [updateExisting, ha, h4]

theorem selectInstalled_mem (E : Env) (fs : FS) (rows : List InstalledAgent)
    (hl : ListInstalled E fs = .ok rows) (agentIDs : List String)
    (acc : List InstalledAgent) :
    ∀ a ∈ selectInstalled E fs agentIDs acc, a ∈ acc ∨ a ∈ rows := by
  induction agentIDs generalizing acc with
  | nil => exact fun a ha => Or.inl ha
  | cons agentID rest ih =>
    intro a ha
    unfold selectInstalled at ha
    unfold GetInstalled at ha
    rw [hl] at ha
    dsimp only at ha
    cases hf : rows.find? (fun agent => agent.ID = agentID) with
    | none =>
      rw [hf] at ha
      exact ih acc a ha
    | some agent =>
      rw [hf] at ha
      rcases ih (acc ++ [agent]) a ha with h | h
      · rcases List.mem_append.mp h with h | h
        · exact Or.inl h
        · have : a = agent := by simpa using h
          rw [this]
          exact Or.inr (List.mem_of_find?_eq_some hf)
      · exact Or.inr h

theorem selectToUpdate_mem (E : Env) (fs : FS) (rows toUpdate : List InstalledAgent)
    (hl : ListInstalled E fs = .ok rows) (agentIDs : List String)
    (h : selectToUpdate E fs agentIDs = .ok toUpdate) : ∀ a ∈ toUpdate, a ∈ rows := by
  unfold selectToUpdate at h
  by_cases h0 : agentIDs.length = 0
  · rw [if_pos h0, hl] at h
    cases h
    exact fun a ha => ha
  · rw [if_neg h0] at h
    cases h
    intro a ha
    rcases selectInstalled_mem E fs rows hl agentIDs [] a ha with h | h
    · cases h
    · exact h

/-- The update loop keeps the ids and versions of the ledger: each Install it makes
is for a record of the ledger, so the upsert finds a row and keeps its version. -/
theorem updateLoop_ledger (E : Env) (hE : E.RoundTrips) (rows : List InstalledAgent)
    (toUpdate : List InstalledAgent) (w : World) (updated failed : List String)
    (rowsK : List InstalledAgent) (hsub : ∀ a ∈ toUpdate, a ∈ rows)
    (hl : ListInstalled E w.fs = .ok rowsK)
    (hk : rowsK.map (fun a => (a.ID, a.Version)) = rows.map (fun a => (a.ID, a.Version))) :
    (updateLoop E w toUpdate updated failed).2.2.transport = w.transport ∧
    ∃ rows2, ListInstalled E (updateLoop E w toUpdate updated failed).2.2.fs = .ok rows2 ∧
      rows2.map (fun a => (a.ID, a.Version)) = rows.map (fun a => (a.ID, a.Version)) := by
  induction toUpdate generalizing w updated failed rowsK with
  | nil => exact ⟨rfl, rowsK, hl, hk⟩
  | cons agent rest ih =>
    have hsub2 : ∀ a ∈ rest, a ∈ rows := fun a ha => hsub a (List.mem_cons_of_mem _ ha)
    have hfs := (GetAgentMetadata_effects E w agent.ID).1
    have htr := GetAgentMetadata_transport E w agent.ID
    unfold updateLoop
    cases hg : GetAgentMetadata E w agent.ID with
    | mk res w1 =>
      rw [hg] at hfs htr
      dsimp only at hfs htr
      have hl1 : ListInstalled E w1.fs = .ok rowsK := by rw [hfs]; exact hl
      cases res with
      | error err =>
        dsimp only
        obtain ⟨i1, i2⟩ := ih w1 updated (failed ++ [agent.ID]) rowsK hsub2 hl1 hk
        exact ⟨i1.trans htr, i2⟩
      | ok metadata =>
        dsimp only
        by_cases hv : metadata.Latest = agent.Version
        · rw [if_pos hv]
          obtain ⟨i1, i2⟩ := ih w1 updated failed rowsK hsub2 hl1 hk
          exact ⟨i1.trans htr, i2⟩
        · rw [if_neg hv]
          obtain ⟨d1, d2⟩ := DownloadAgent_effects E w1 agent.ID metadata.Latest
          cases hd : DownloadAgent E w1 agent.ID metadata.Latest with
          | mk res2 w2 =>
            rw [hd] at d1 d2
            dsimp only at d1 d2
            have hl2 : ListInstalled E w2.fs = .ok rowsK := by rw [d1]; exact hl1
            cases res2 with
            | error err =>
              dsimp only
              obtain ⟨i1, i2⟩ := ih w2 updated (failed ++ [agent.ID]) rowsK hsub2 hl2 hk
              exact ⟨i1.trans (d2.trans htr), i2⟩
            | ok content =>
              dsimp only
              obtain ⟨t3, rows3, hl3, hcase⟩ :=
                Install_ledger E hE w2 agent.ID content rowsK hl2
              have hk3 : rows3.map (fun a => (a.ID, a.Version)) =
                  rows.map (fun a => (a.ID, a.Version)) := by
                rcases hcase with hcase | ⟨t, hcase⟩
                · rw [hcase]; exact hk
                · have hmem : (agent.ID, agent.Version) ∈
                      rowsK.map (fun a => (a.ID, a.Version)) := by
                    rw [hk]
                    exact List.mem_map.mpr ⟨agent, hsub agent (List.mem_cons_self _ _), rfl⟩
                  obtain ⟨b, hb, hbk⟩ := List.mem_map.mp hmem
                  have hbid : b.ID = agent.ID := congrArg Prod.fst hbk
                  have hne : rowsK.filter (fun a => a.ID = agent.ID) ≠ [] :=
                    List.ne_nil_of_mem (List.mem_filter.mpr ⟨hb, by simpa using hbid⟩)
                  rw [hcase, (upsertRows_keys rowsK agent.ID _ t).1 hne]
                  exact hk
              cases hi : Install E w2 agent.ID content with
              | mk res3 w3 =>
                rw [hi] at t3 hl3
                dsimp only at t3 hl3
                cases res3 with
                | error err =>
                  dsimp only
                  obtain ⟨i1, i2⟩ := ih w3 updated (failed ++ [agent.ID]) rows3 hsub2 hl3 hk3
                  exact ⟨i1.trans (t3.trans (d2.trans htr)), i2⟩
                | ok u =>
                  dsimp only
                  obtain ⟨i1, i2⟩ := ih w3 (updated ++ [agent.ID]) failed rows3 hsub2 hl3 hk3
                  exact ⟨i1.trans (t3.trans (d2.trans htr)), i2⟩

/-- After updateAgents the remote is as before and the ledger lists the ids and
versions it listed before. -/
theorem updateAgents_ledger (E : Env) (hE : E.RoundTrips) (w : World)
    (agentIDs : List String) (rows : List InstalledAgent)
    (hl : ListInstalled E w.fs = .ok rows) :
    (updateAgents E w agentIDs).2.transport = w.transport ∧
    ∃ rows2, ListInstalled E (updateAgents E w agentIDs).2.fs = .ok rows2 ∧
      rows2.map (fun a => (a.ID, a.Version)) = rows.map (fun a => (a.ID, a.Version)) := by
  have hl0 : ListInstalled E w.newClient.fs = .ok rows := hl
  unfold updateAgents
  dsimp only
  cases hsel : selectToUpdate E w.newClient.fs agentIDs with
  | error err => exact ⟨rfl, rows, hl, rfl⟩
  | ok toUpdate =>
    dsimp only
    by_cases h0 : toUpdate.length = 0
    · rw [if_pos h0]
      exact ⟨rfl, rows, hl, rfl⟩
    · rw [if_neg h0]
      exact updateLoop_ledger E hE rows toUpdate w.newClient [] [] rows
        (selectToUpdate_mem E _ rows toUpdate hl0 agentIDs hsel) hl0 rfl

end UpdateLemmas

/-- C20. The upsert never records the installed version: when the ledger has a row
of the id, the first such row gets the new instant and path and keeps its id and
version, and the other rows stay; when it has none, a row with version "latest" is
appended. So after any run of updateAgents (one that updates records included) the
ledger lists the same ids with the same versions as before; and for every record of
the ledger whose stored version is not the latest version the remote keeps serving
for its id, an update check run on the state the update left still reports the
record as updatable, from its stored version to that latest version. -/
theorem C20_update_keeps_version (E : Env) (hE : E.RoundTrips) (w : World)
    (agentIDs : List String) (rows : List InstalledAgent)
    (hrows : ListInstalled E w.fs = .ok rows) :
    (∀ (rs : List InstalledAgent) (agentID agentPath : String) (t : Int),
      (rs.filter (fun a => a.ID = agentID) ≠ [] →
        ∃ pre r post, rs = pre ++ r :: post ∧ r.ID = agentID ∧
          (∀ a ∈ pre, a.ID ≠ agentID) ∧
          upsertRows rs agentID agentPath t =
            pre ++ ⟨r.ID, r.Version, t, agentPath⟩ :: post) ∧
      (rs.filter (fun a => a.ID = agentID) = [] →
        upsertRows rs agentID agentPath t = rs ++ [⟨agentID, "latest", t, agentPath⟩])) ∧
    (∃ rows2, ListInstalled E (updateAgents E w agentIDs).2.fs = .ok rows2 ∧
      rows2.map (fun a => (a.ID, a.Version)) = rows.map (fun a => (a.ID, a.Version))) ∧
    (∀ r ∈ rows, ∀ latest, latest ≠ r.Version → ServesLatest E w r.ID latest →
      ∃ lines, (checkUpdates E (updateAgents E w agentIDs).2).1 = .checked lines true ∧
        CheckLine.updateAvailable r.ID r.Version latest ∈ lines) := by
  obtain ⟨htr, rows2, hl2, hk2⟩ := updateAgents_ledger E hE w agentIDs rows hrows
  refine ⟨fun rs agentID agentPath t => ⟨fun h => ?_, (upsertRows_keys rs agentID agentPath t).2⟩,
    ⟨rows2, hl2, hk2⟩, ?_⟩
  · obtain ⟨pre, r, post, h1, h2, h3, h4⟩ := updateExisting_split agentID agentPath t rs h
    refine ⟨pre, r, post, h1, h2, h3, ?_⟩
    unfold upsertRows
    rw [h4]
  · intro r hr latest hne hserve
    have hmem : (r.ID, r.Version) ∈ rows2.map (fun a => (a.ID, a.Version)) := by
      rw [hk2]
      exact List.mem_map.mpr ⟨r, hr, rfl⟩
    obtain ⟨r2, hr2, hkey⟩ := List.mem_map.mp hmem
    have hid : r2.ID = r.ID := congrArg Prod.fst hkey
    have hver : r2.Version = r.Version := congrArg Prod.snd hkey
    have hlen : rows2.length ≠ 0 := by
      intro h0
      rw [List.length_eq_zero] at h0
      rw [h0] at hr2
      cases hr2
    have hl3 : ListInstalled E (updateAgents E w agentIDs).2.newClient.fs = .ok rows2 := hl2
    have hs : ServesLatest E (updateAgents E w agentIDs).2.newClient r.ID latest := by
      unfold ServesLatest
      show ∀ n, ∃ resp body metadata,
        (updateAgents E w agentIDs).2.transport n (metadataURL E r.ID) = .ok resp ∧ _
      rw [htr]
      exact hserve
    have hc : CachedLatest (updateAgents E w agentIDs).2.newClient r.ID latest := by
      intro item m hi
      cases hi
    obtain ⟨m, hm, hL⟩ := fetchResults_static E r.ID latest rows2 _ hs hc r2 hr2 hid
    have hloop := checkLoop_eq (GetAgentMetadata E) rows2
      (updateAgents E w agentIDs).2.newClient [] false
    refine ⟨(checkLoop (GetAgentMetadata E) (updateAgents E w agentIDs).2.newClient rows2 []
      false).1, ?_, ?_⟩
    · unfold checkUpdates
      dsimp only
      rw [hl3]
      dsimp only
      rw [if_neg hlen]
      have hflag : (checkLoop (GetAgentMetadata E) (updateAgents E w agentIDs).2.newClient
          rows2 [] false).2.1 = true := by
        rw [hloop.2, Bool.false_or, List.any_eq_true]
        refine ⟨_, hm, ?_⟩
        simp only [isUpdatable, hL, hver]
        simpa using hne
      rw [← hflag]
    · rw [hloop.1, List.nil_append]
      refine List.mem_map.mpr ⟨_, hm, ?_⟩
      have hup : isUpdatable (r2, Except.ok m) = true := by
        simp only [isUpdatable, hL, hver]
        simpa using hne
      simp only [reportLine, hup, if_true, hid, hver, hL]

set_option maxRecDepth 100000 in
/-- Witness of C20: the ledger lists "a", "c" and "b" at "1.0.0" and the remote keeps
serving "1.1.0" as the latest version of "b". The update of all records updates "b"
("c" fails, "a" is up to date); the ledger afterwards still lists the three ids at
"1.0.0", and the check made next reports "b" as updatable from "1.0.0" to "1.1.0". -/
theorem C20_update_keeps_version_witness :
    ListInstalled versionEnv versionWorld.fs =
      .ok [⟨"a", "1.0.0", 0, "/home/u/.claude/agents/a.md"⟩,
        ⟨"c", "1.0.0", 0, "/home/u/.claude/agents/c.md"⟩,
        ⟨"b", "1.0.0", 0, "/home/u/.claude/agents/b.md"⟩] ∧
    (updateAgents versionEnv versionWorld []).1 = .complete ["b"] ["c"] ∧
    (∃ rows2, ListInstalled versionEnv (updateAgents versionEnv versionWorld []).2.fs =
        .ok rows2 ∧
      rows2.map (fun a => (a.ID, a.Version)) =
        [("a", "1.0.0"), ("c", "1.0.0"), ("b", "1.0.0")]) ∧
    ∃ lines, (checkUpdates versionEnv (updateAgents versionEnv versionWorld []).2).1 =
        .checked lines true ∧
      CheckLine.updateAvailable "b" "1.0.0" "1.1.0" ∈ lines := by
  have h := C20_update_keeps_version versionEnv sampleEnv_roundTrips versionWorld []
    [⟨"a", "1.0.0", 0, "/home/u/.claude/agents/a.md"⟩,
      ⟨"c", "1.0.0", 0, "/home/u/.claude/agents/c.md"⟩,
      ⟨"b", "1.0.0", 0, "/home/u/.claude/agents/b.md"⟩] (by rfl)
  refine ⟨by rfl, by decide, h.2.1, ?_⟩
  exact h.2.2 ⟨"b", "1.0.0", 0, "/home/u/.claude/agents/b.md"⟩ (by simp) "1.1.0" (by decide)
    (fun _ => ⟨⟨200, .ok "1.1.0"⟩, "1.1.0", _, by rfl, rfl, rfl, rfl, rfl⟩)
/-! ## The compatibility gate -/

section GateLemmas

theorem updateInstallRegistry_requests (E : Env) (w : World) (agentID agentPath : String) :
    (updateInstallRegistry E w agentID agentPath).2.requests = w.requests := by
  unfold updateInstallRegistry
  split
  · rfl
  · dsimp only [World.now]
    split <;> rfl

theorem Install_requests (E : Env) (w : World) (agentID content : String) :
    (Install E w agentID content).2.requests = w.requests := by
  unfold Install
  cases h1 : w.fs.mkdirAll E.installDir with
  | error err => rfl
  | ok fs1 =>
    dsimp only
    cases h2 : fs1.writeFile (filepathJoin [E.installDir, agentID ++ ".md"]) content with
    | error err => rfl
    | ok fs2 =>
      dsimp only
      have h3 := updateInstallRegistry_requests E { w with fs := fs2 } agentID
        (filepathJoin [E.installDir, agentID ++ ".md"])
      cases hu : updateInstallRegistry E { w with fs := fs2 } agentID
          (filepathJoin [E.installDir, agentID ++ ".md"]) with
      | mk res w3 =>
        rw [hu] at h3
        cases res with
        | error err => exact h3
        | ok u => exact h3

theorem DownloadAgent_requests (E : Env) (w : World) (agentID version : String) :
    (DownloadAgent E w agentID version).2.requests = w.requests ++ [contentURL E agentID] := by
  unfold DownloadAgent
  simp only [World.httpGet]
  split
  · rfl
  · split
    · rfl
    · split <;> rfl

end GateLemmas

/-- C8 (amended). Whatever the id and requested version, once the metadata of the item
is fetched: the outcome of installAgent is the same for every target (the target is
not consulted). When the metadata has no claude-code compatibility block, installAgent
returns the compatibility error and its only effects are those of the metadata fetch:
the file system (content files and ledger) is as before and no request other than the
metadata request was made, so no content was downloaded. When the metadata has the
claude-code block, whatever its other blocks, installAgent requests the content; it
returns the download error when the download fails, the installation error when
Install fails, and nil when both succeed, and then the content file holds the content
and the ledger has a row of the id with that path. -/
theorem C8_claude_block_gates_install (E : Env) (w w1 : World)
    (agentID version target : String) (metadata : AgentMetadata)
    (hmeta : GetAgentMetadata E w agentID = (.ok metadata, w1)) :
    (∀ target2, installAgent E w agentID version target2 =
      installAgent E w agentID version target) ∧
    (metadata.Compatibility.ClaudeCode = none →
      installAgent E w agentID version target =
        (.error "agent is not compatible with current Claude Code version", w1) ∧
      w1.fs = w.fs ∧
      (w1.requests = w.requests ∨ w1.requests = w.requests ++ [metadataURL E agentID])) ∧
    (metadata.Compatibility.ClaudeCode ≠ none →
      (installAgent E w agentID version target).2.requests =
        w1.requests ++ [contentURL E agentID] ∧
      (∀ err w2,
        DownloadAgent E w1 agentID (if version = "" then metadata.Latest else version) =
          (.error err, w2) →
        installAgent E w agentID version target = (.error ("download failed: " ++ err), w2)) ∧
      (∀ content w2,
        DownloadAgent E w1 agentID (if version = "" then metadata.Latest else version) =
          (.ok content, w2) →
        (∀ err w3, Install E w2 agentID content = (.error err, w3) →
          installAgent E w agentID version target =
            (.error ("installation failed: " ++ err), w3)) ∧
        (∀ w3, Install E w2 agentID content = (.ok (), w3) →
          installAgent E w agentID version target = (.ok (), w3) ∧
          (E.RoundTrips →
            w3.fs.content (GetInstallPath E agentID) = some content ∧
            ∃ rows row, ListInstalled E w3.fs = .ok rows ∧ row ∈ rows ∧ row.ID = agentID ∧
              row.Path = GetInstallPath E agentID)))) := by
  have heff := GetAgentMetadata_effects E w agentID
  rw [hmeta] at heff
  refine ⟨fun _ => rfl, fun hblock => ⟨?_, heff.1, heff.2⟩, fun hblock => ?_⟩
  · unfold installAgent
    rw [hmeta]
    simp [IsCompatible, hblock]
  · have hcompat : IsCompatible metadata.Compatibility = true := by
      unfold IsCompatible
      cases hc : metadata.Compatibility.ClaudeCode with
      | none => exact absurd hc hblock
      | some b => rfl
    have hreq := DownloadAgent_requests E w1 agentID
      (if version = "" then metadata.Latest else version)
    unfold installAgent
    rw [hmeta]
    simp only [hcompat, Bool.true_eq_false, if_false]
    cases hd : DownloadAgent E w1 agentID
        (if version = "" then metadata.Latest else version) with
    | mk res w2 =>
      rw [hd] at hreq
      dsimp only at hreq
      cases res with
      | error err =>
        refine ⟨hreq, fun err2 w2b h => ?_, fun content w2b h => ?_⟩
        · cases h
          rfl
        · cases h
      | ok content =>
        have hireq := Install_requests E w2 agentID content
        dsimp only
        cases hi : Install E w2 agentID content with
        | mk res3 w3 =>
          rw [hi] at hireq
          dsimp only at hireq
          cases res3 with
          | error err =>
            refine ⟨hireq.trans hreq, (fun err2 w2b h => by cases h), fun content2 w2b h => ?_⟩
            cases h
            refine ⟨fun err2 w3b h2 => ?_, fun w3b h2 => ?_⟩
            · rw [hi] at h2
              cases h2
              rfl
            · rw [hi] at h2
              cases h2
          | ok u =>
            refine ⟨hireq.trans hreq, (fun err2 w2b h => by cases h), fun content2 w2b h => ?_⟩
            cases h
            refine ⟨fun err2 w3b h2 => ?_, fun w3b h2 => ?_⟩
            · rw [hi] at h2
              cases h2
            · rw [hi] at h2
              cases h2
              exact ⟨rfl, fun hE => Install_ok_spec E hE w2 w3 agentID content hi⟩

set_option maxRecDepth 8000 in
/-- Witness of C8 (amended), for target "codex". The item "cdx", whose metadata
declares a codex block only, is rejected with the compatibility error and nothing but
the metadata was requested. The item "one", whose metadata declares the claude-code
block only, is installed: installAgent returns nil in the state Install left, with the
content at the install path. -/
theorem C8_claude_block_gates_install_witness :
    (installAgent sampleEnv sampleWorld "cdx" "" "codex" =
      (.error "agent is not compatible with current Claude Code version",
        (GetAgentMetadata sampleEnv sampleWorld "cdx").2) ∧
    (GetAgentMetadata sampleEnv sampleWorld "cdx").2.fs = sampleWorld.fs ∧
    ((GetAgentMetadata sampleEnv sampleWorld "cdx").2.requests = sampleWorld.requests ∨
      (GetAgentMetadata sampleEnv sampleWorld "cdx").2.requests =
        sampleWorld.requests ++ [metadataURL sampleEnv "cdx"])) ∧
    (installAgent sampleEnv sampleWorld "one" "" "codex" =
      (.ok (), (Install sampleEnv
        (DownloadAgent sampleEnv (GetAgentMetadata sampleEnv sampleWorld "one").2 "one"
          "1.1.0").2 "one" "# one").2) ∧
    (Install sampleEnv
        (DownloadAgent sampleEnv (GetAgentMetadata sampleEnv sampleWorld "one").2 "one"
          "1.1.0").2 "one" "# one").2.fs.content (GetInstallPath sampleEnv "one") =
      some "# one") :=
  ⟨(C8_claude_block_gates_install sampleEnv sampleWorld _ "cdx" "" "codex"
      (sampleMetadata "cdx" ⟨none, some ⟨"1.0.0", []⟩, none⟩) rfl).2.1 rfl,
    (((C8_claude_block_gates_install sampleEnv sampleWorld _ "one" "" "codex"
      (sampleMetadata "one" ⟨some ⟨"1.0.0", []⟩, none, none⟩) rfl).2.2 (by decide)).2.2
        "# one" _ (by rfl)).2 _ (by rfl) |>.1,
    ((((C8_claude_block_gates_install sampleEnv sampleWorld _ "one" "" "codex"
      (sampleMetadata "one" ⟨some ⟨"1.0.0", []⟩, none, none⟩) rfl).2.2 (by decide)).2.2
        "# one" _ (by rfl)).2 _ (by rfl) |>.2 sampleEnv_roundTrips).1⟩
end AgentsCli
